import Mathlib

set_option maxRecDepth 16000

/-!
Verification model of the BusTub buffering core: the extendible hash table
(src/container/hash/extendible_hash_table.cpp), the LRU-K replacer
(lru_k_replacer implementation and src/include/buffer/lru_k_replacer.h), and
the buffer pool manager (src/buffer/buffer_pool_manager_instance.cpp).

Modelling conventions:
* `std::shared_ptr<Bucket>` values in the directory are modelled with an
  arena: `store` is the list of all allocated buckets and `dir_` holds arena
  indices, so aliased directory slots observe the same mutations.
* `size_t` counters that the code can underflow are modelled as `Nat` with
  explicit wrap-around modulo `2 ^ 64`; counters that only ever grow
  (access counts, page ids, pin counts) are modelled unbounded, since no
  claim concerns their overflow.
* C++ exceptions are modelled by `Option`: `none` is a thrown exception.
* The table-level `Insert` recurses until the key fits; the model takes a
  fuel argument and returns `none` when the fuel is exhausted (the source
  can loop forever, e.g. on a duplicate key with bucket capacity one).
-/

namespace Bustub

/-- One bucket of the extendible hash table
(`ExtendibleHashTable<K,V>::Bucket`): capacity `size_`, local depth
`depth_`, and the entry list `list_`. -/
structure Bucket (K V : Type) where
  size_ : Nat
  depth_ : Nat
  list_ : List (K × V)
deriving DecidableEq

/-- Bucket::IsFull. Modelled from the spec: the accessor lives in the header
`extendible_hash_table.h`, which is not among the sources; the spec fixes a
"bounded list of (K, V) entries (capacity bucket_size)". -/
def Bucket.isFull (b : Bucket K V) : Bool := b.size_ ≤ b.list_.length

/-- The in-place value overwrite performed by the scan in `Bucket::Insert`:
replace the value of the first entry whose key is `k`; `none` if no entry
has key `k`. -/
def overwriteFirst [DecidableEq K] (k : K) (v : V) : List (K × V) → Option (List (K × V))
  | [] => none
  | (k', v') :: t =>
    if k' = k then some ((k', v) :: t)
    else match overwriteFirst k v t with
      | none => none
      | some t' => some ((k', v') :: t')

/-- `Bucket::Insert`: refuse when full, otherwise overwrite the value of an
existing entry with key `k`, otherwise append `(k, v)` at the back. -/
def Bucket.insert [DecidableEq K] (b : Bucket K V) (k : K) (v : V) : Bool × Bucket K V :=
  if b.isFull then (false, b)
  else match overwriteFirst k v b.list_ with
    | some l' => (true, { b with list_ := l' })
    | none => (true, { b with list_ := b.list_ ++ [(k, v)] })

/-- `Bucket::Find`: linear scan, first entry with the key wins. -/
def Bucket.find [DecidableEq K] (b : Bucket K V) (k : K) : Option V :=
  (b.list_.find? (fun kv => decide (kv.1 = k))).map (fun kv => kv.2)

/-- `Bucket::Remove`: locate the first entry whose key is `k` and drop every
entry equal to it (`std::list::remove` erases all elements equal to the given
value). -/
def Bucket.remove [DecidableEq K] [DecidableEq V] (b : Bucket K V) (k : K) :
    Bool × Bucket K V :=
  if b.list_.isEmpty then (false, b)
  else match b.list_.find? (fun kv => decide (kv.1 = k)) with
    | none => (false, b)
    | some item => (true, { b with list_ := b.list_.filter (fun kv => decide (kv ≠ item)) })

/-- State of `ExtendibleHashTable<K, V>`: the bucket capacity, the global
depth, the `num_buckets_` counter, the directory of arena indices, and the
arena of all allocated buckets. -/
structure EHT (K V : Type) where
  bucket_size_ : Nat
  global_depth_ : Nat
  num_buckets_ : Nat
  dir_ : List Nat
  store : List (Bucket K V)
deriving DecidableEq

/-- Default bucket used for out-of-range arena reads (never reached from the
states the theorems talk about). -/
def emptyBucket : Bucket K V := ⟨0, 0, []⟩

/-- The constructor `ExtendibleHashTable(bucket_size)`: one empty bucket of
local depth 0, directory of length one pointing at it. -/
def EHT.init (K V : Type) (bucketSize : Nat) : EHT K V :=
  { bucket_size_ := bucketSize, global_depth_ := 0, num_buckets_ := 1,
    dir_ := [0], store := [⟨bucketSize, 0, []⟩] }

/-- `IndexOf`: the low `global_depth_` bits of the hash,
`hash(key) & ((1 << global_depth_) - 1)`. -/
def EHT.indexOf (hash : K → Nat) (s : EHT K V) (k : K) : Nat :=
  hash k % 2 ^ s.global_depth_

/-- Bucket currently referenced by directory slot `i`. -/
def EHT.bucketAt (s : EHT K V) (i : Nat) : Bucket K V :=
  s.store.getD (s.dir_.getD i 0) emptyBucket

/-- `ExtendibleHashTable::Find`. -/
def EHT.find [DecidableEq K] (hash : K → Nat) (s : EHT K V) (k : K) : Option V :=
  (s.bucketAt (s.indexOf hash k)).find k

/-- `ExtendibleHashTable::Remove`. -/
def EHT.remove [DecidableEq K] [DecidableEq V] (hash : K → Nat) (s : EHT K V) (k : K) :
    Bool × EHT K V :=
  let bidx := s.dir_.getD (s.indexOf hash k) 0
  let r := (s.store.getD bidx emptyBucket).remove k
  (r.1, { s with store := s.store.set bidx r.2 })

/-- One step of the split partition loop: route the entry by bit `d` of its
hash into the bit-1 bucket or the bit-0 bucket, through `Bucket::Insert`. -/
def splitFold [DecidableEq K] (hash : K → Nat) (d : Nat)
    (p : Bucket K V × Bucket K V) (kv : K × V) : Bucket K V × Bucket K V :=
  if Nat.testBit (hash kv.1) d then (p.1, (p.2.insert kv.1 kv.2).2)
  else ((p.1.insert kv.1 kv.2).2, p.2)

/-- The redirect loop of the split: every slot `i` congruent to `index`
modulo `2 ^ d` is repointed at the bit-1 bucket when bit `d` of `i` is set
and at the bit-0 bucket otherwise; other slots keep their bucket. -/
def redirect (dirL : List Nat) (index d i0 i1 : Nat) : List Nat :=
  (List.range dirL.length).map (fun i =>
    if i % 2 ^ d = index % 2 ^ d then (if Nat.testBit i d then i1 else i0)
    else dirL.getD i 0)

/-- The directory-doubling step of `ExtendibleHashTable::Insert`: append a
copy of the directory to itself and increment the global depth. -/
def EHT.doubleDir (s : EHT K V) : EHT K V :=
  { s with dir_ := s.dir_ ++ s.dir_, global_depth_ := s.global_depth_ + 1 }

/-- The partition loop of the split: distribute the entries over the two
fresh depth `d + 1` buckets of capacity `sizeB` by bit `d` of the hash. -/
def splitParts [DecidableEq K] (hash : K → Nat) (sizeB d : Nat) (l : List (K × V)) :
    Bucket K V × Bucket K V :=
  l.foldl (splitFold hash d) (⟨sizeB, d + 1, []⟩, ⟨sizeB, d + 1, []⟩)

/-- The bucket-splitting step of `ExtendibleHashTable::Insert`: allocate the
two depth `d + 1` buckets, partition the overflowing bucket's entries by bit
`d` of the hash, bump `num_buckets_`, and redirect the aliased slots. -/
def EHT.splitBucket [DecidableEq K] (hash : K → Nat) (s : EHT K V) (index : Nat) :
    EHT K V :=
  let bucketR := s.store.getD (s.dir_.getD index 0) emptyBucket
  let parts := splitParts hash s.bucket_size_ bucketR.depth_ bucketR.list_
  { s with
    num_buckets_ := s.num_buckets_ + 1
    store := s.store ++ [parts.1, parts.2]
    dir_ := redirect s.dir_ index bucketR.depth_ s.store.length (s.store.length + 1) }

/-- `ExtendibleHashTable::Insert`, with explicit recursion fuel. Try the
bucket; on refusal double the directory when the local depth reached the
global depth, then (when the local depth is below the global depth) split
the bucket along bit `depth_` of the hash, redirect the aliased slots, and
recurse. `none` means the fuel ran out before the insert landed. -/
def EHT.insertGo [DecidableEq K] (hash : K → Nat) (k : K) (v : V) :
    Nat → EHT K V → Option (EHT K V)
  | 0, _ => none
  | fuel + 1, s =>
    let index := s.indexOf hash k
    let bidx := s.dir_.getD index 0
    let bucket := s.store.getD bidx emptyBucket
    if (bucket.insert k v).1 then
      some { s with store := s.store.set bidx (bucket.insert k v).2 }
    else
      let s1 := if bucket.depth_ = s.global_depth_ then s.doubleDir else s
      if (s1.store.getD (s1.dir_.getD index 0) emptyBucket).depth_ < s1.global_depth_ then
        EHT.insertGo hash k v fuel (s1.splitBucket hash index)
      else
        some s1

/-- Structural well-formedness of the extendible hash table: the directory
length is `2 ^ global_depth_`, every directory slot is a valid arena index,
every referenced bucket's local depth is at most the global depth, and every
allocated bucket has the table's capacity, holds at most that many entries,
and has pairwise distinct keys. -/
def EHT.WF (s : EHT K V) : Prop :=
  s.dir_.length = 2 ^ s.global_depth_ ∧
  (∀ bidx ∈ s.dir_, bidx < s.store.length) ∧
  (∀ bidx ∈ s.dir_, (s.store.getD bidx emptyBucket).depth_ ≤ s.global_depth_) ∧
  (∀ b ∈ s.store, b.size_ = s.bucket_size_ ∧ b.list_.length ≤ b.size_ ∧
    (b.list_.map Prod.fst).Nodup)

/-- States of the extendible hash table reachable from the constructor by
`Insert` (with any fuel that lets it terminate), `Remove` and `Find` (which
does not change the state). -/
inductive EHT.Reach [DecidableEq K] [DecidableEq V] (hash : K → Nat) :
    EHT K V → Prop where
  | init (bucketSize : Nat) : EHT.Reach hash (EHT.init K V bucketSize)
  | insert {s s' : EHT K V} (k : K) (v : V) (fuel : Nat) :
      EHT.Reach hash s → EHT.insertGo hash k v fuel s = some s' → EHT.Reach hash s'
  | remove {s : EHT K V} (k : K) :
      EHT.Reach hash s → EHT.Reach hash (EHT.remove hash s k).2

/-- `GetLocalDepth(dir_index)`: the local depth of the bucket referenced by
the given directory slot. -/
def EHT.getLocalDepth (s : EHT K V) (i : Nat) : Nat := (s.bucketAt i).depth_

/-- Concrete capacity-2 table holding (0, 10) and (1, 11): one full bucket
at global depth 0 (`std::hash<int>` is the identity on the non-negative
keys used here). -/
def c2Table : EHT Nat Nat :=
  (((EHT.init Nat Nat 2).insertGo id 0 10 8).bind (EHT.insertGo id 1 11 8)).getD
    (EHT.init Nat Nat 2)

/-- The table `c2Table` after re-inserting key 0 with value 12. -/
def c2TableAfter : EHT Nat Nat :=
  (EHT.insertGo id 0 12 8 c2Table).getD c2Table

/-- Concrete capacity-2 table holding only (0, 10): a non-full bucket. -/
def c2WitnessTable : EHT Nat Nat :=
  ((EHT.init Nat Nat 2).insertGo id 0 10 8).getD (EHT.init Nat Nat 2)

/-- Concrete capacity-1 table holding (0, 10): its single bucket is full. -/
def c2OneTable : EHT Nat Nat :=
  ((EHT.init Nat Nat 1).insertGo id 0 10 8).getD (EHT.init Nat Nat 1)

/-- The insert never lands: the fuelled model of the recursive
`ExtendibleHashTable::Insert` answers `none` at every fuel, i.e. the
source's recursion never returns. -/
def EHT.insertDiverges [DecidableEq K] (hash : K → Nat) (k : K) (v : V) (s : EHT K V) :
    Prop :=
  ∀ fuel, EHT.insertGo hash k v fuel s = none

/-! The LRU-K replacer (`LRUKReplacer`). The `unordered_map` members
`access_count_` and `is_evictable_` (default-zero / default-false) are
modelled as total functions; the iterator maps `history_map_` and
`cache_map_` always point at the unique list occurrence of their key, so
erasing through them is modelled by `List.erase`. `curr_size_` is a
`size_t`, modelled with explicit wrap-around modulo `2 ^ 64` because
`Remove` can drive it below zero. A thrown exception is `none`. -/

/-- Pointwise update of a map modelled as a function. -/
def updf (g : Nat → α) (x : Nat) (v : α) : Nat → α :=
  fun y => if y = x then v else g y

/-- Wrap-around decrement of a `size_t` counter (`curr_size_--`). -/
def decWrap (c : Nat) : Nat := (c + (2 ^ 64 - 1)) % 2 ^ 64

/-- Wrap-around increment of a `size_t` counter (`curr_size_++`). -/
def incWrap (c : Nat) : Nat := (c + 1) % 2 ^ 64

/-- State of `LRUKReplacer` (src/include/buffer/lru_k_replacer.h): both
recency lists keep the most recent element at the front. -/
structure LRUK where
  curr_size_ : Nat
  replacer_size_ : Nat
  k_ : Nat
  access_count_ : Nat → Nat
  history_list_ : List Nat
  cache_list_ : List Nat
  is_evictable_ : Nat → Bool

/-- The constructor `LRUKReplacer(num_frames, k)`. -/
def LRUK.init (numFrames k : Nat) : LRUK :=
  { curr_size_ := 0, replacer_size_ := numFrames, k_ := k,
    access_count_ := fun _ => 0, history_list_ := [], cache_list_ := [],
    is_evictable_ := fun _ => false }

/-- `LRUKReplacer::Evict`: nothing if `curr_size_` is zero; otherwise scan
the history list from the back for an evictable frame, then the cache list
from the back; clear the victim's state and decrement `curr_size_`. -/
def LRUK.evict (r : LRUK) : Option Nat × LRUK :=
  if r.curr_size_ = 0 then (none, r)
  else
    match r.history_list_.reverse.find? (fun f => r.is_evictable_ f) with
    | some f =>
      (some f,
        { r with
          access_count_ := updf r.access_count_ f 0
          history_list_ := r.history_list_.erase f
          is_evictable_ := updf r.is_evictable_ f false
          curr_size_ := decWrap r.curr_size_ })
    | none =>
      match r.cache_list_.reverse.find? (fun f => r.is_evictable_ f) with
      | some f =>
        (some f,
          { r with
            access_count_ := updf r.access_count_ f 0
            cache_list_ := r.cache_list_.erase f
            is_evictable_ := updf r.is_evictable_ f false
            curr_size_ := decWrap r.curr_size_ })
      | none => (none, r)

/-- `LRUKReplacer::RecordAccess`: throw on `frame_id >= replacer_size_`;
increment the access count; on reaching `k_` move the frame from the
history list to the cache front; above `k_` move it to the cache front; on
the first access push it onto the history front. -/
def LRUK.recordAccess (f : Nat) (r : LRUK) : Option LRUK :=
  if f ≥ r.replacer_size_ then none
  else
    let c := r.access_count_ f + 1
    let r1 : LRUK := { r with access_count_ := updf r.access_count_ f c }
    if c = r.k_ then
      some { r1 with history_list_ := r1.history_list_.erase f,
                     cache_list_ := f :: r1.cache_list_ }
    else if c > r.k_ then
      some { r1 with cache_list_ := f :: r1.cache_list_.erase f }
    else if c = 1 then
      some { r1 with history_list_ := f :: r1.history_list_ }
    else some r1

/-- `LRUKReplacer::SetEvictable`: throw on `frame_id > replacer_size_` (the
source's off-by-one guard); no effect on unknown frames; adjust
`curr_size_` by the actual toggle. -/
def LRUK.setEvictable (f : Nat) (b : Bool) (r : LRUK) : Option LRUK :=
  if f > r.replacer_size_ then none
  else if r.access_count_ f = 0 then some r
  else
    let c1 := if r.is_evictable_ f && !b then decWrap r.curr_size_ else r.curr_size_
    let c2 := if !(r.is_evictable_ f) && b then incWrap c1 else c1
    some { r with curr_size_ := c2, is_evictable_ := updf r.is_evictable_ f b }

/-- `LRUKReplacer::Remove`: throw on `frame_id > replacer_size_` (same
off-by-one guard); no-op on unknown frames; otherwise erase the frame from
the cache list when its count reached `k_`, else from the history list,
then decrement `curr_size_` and clear count and flag — with no check that
the frame is evictable. -/
def LRUK.remove (f : Nat) (r : LRUK) : Option LRUK :=
  if f > r.replacer_size_ then none
  else if r.access_count_ f = 0 then some r
  else
    let r1 : LRUK :=
      if r.access_count_ f ≥ r.k_ then { r with cache_list_ := r.cache_list_.erase f }
      else { r with history_list_ := r.history_list_.erase f }
    some { r1 with curr_size_ := decWrap r1.curr_size_,
                   access_count_ := updf r1.access_count_ f 0,
                   is_evictable_ := updf r1.is_evictable_ f false }

/-- `LRUKReplacer::Size`. -/
def LRUK.size (r : LRUK) : Nat := r.curr_size_

/-- Run a sequence of `RecordAccess` calls. -/
def runAccesses (seq : List Nat) (r : LRUK) : Option LRUK :=
  seq.foldl (fun acc f => acc.bind (LRUK.recordAccess f)) (some r)

/-- Specification-side reference notion, from the spec's words (not from the
source, which keeps no timestamps): the time of the k-th most recent access
of frame `f` in the access sequence `seq`, times being 0-based positions in
the sequence. -/
def kthMostRecentTime (seq : List Nat) (k f : Nat) : Option Nat :=
  (((List.range seq.length).filter (fun i => seq.getD i 0 = f)).reverse)[k - 1]?

/-- Replacer state for the C3 failing input: frames 0 and 1 accessed once
each, frame 1 made evictable, frame 0 left non-evictable. -/
def c3State : LRUK :=
  (((LRUK.init 2 2).recordAccess 0 |>.bind (LRUK.recordAccess 1)).bind
    (LRUK.setEvictable 1 true)).getD (LRUK.init 2 2)

/-- Replacer state for the C4 failing input: `k = 2`, access sequence
0, 1, 1, 0, then both frames made evictable. Both frames are in the cache
list; frame 0 was moved to the front last. -/
def c4State : LRUK :=
  ((((runAccesses [0, 1, 1, 0] (LRUK.init 3 2)).bind
    (LRUK.setEvictable 0 true)).bind (LRUK.setEvictable 1 true))).getD (LRUK.init 3 2)

/-- Replacer state for the C4 spec scenario: `k = 2`, accesses 0, 1, 2, 2,
all three frames evictable. -/
def c4ScenState : LRUK :=
  (((((runAccesses [0, 1, 2, 2] (LRUK.init 3 2)).bind
    (LRUK.setEvictable 0 true)).bind (LRUK.setEvictable 1 true)).bind
      (LRUK.setEvictable 2 true))).getD (LRUK.init 3 2)

/-! The buffer pool manager (`BufferPoolManagerInstance`). A page's byte
array is abstracted to a single `Nat` (`data_`), 0 being the zero-filled
content `ResetMemory` produces. `page_id_t` and `pin_count_` are signed
ints, modelled as `Int` (their overflow is outside every claim);
`INVALID_PAGE_ID` is -1. The disk manager is the function `disk`;
`DeallocatePage` is (modelled from the spec, its body being a header no-op
hint outside src/) recorded in the ghost list `deallocated` so theorems can
state that it was invoked. Where the source interleaves writes to disjoint
fields in a different order than the model (page metadata vs replacer
bookkeeping at the end of `NewPgImp`/`FetchPgImp`), the final state is
identical. A C++ exception escaping an operation is `PoolRes.undef` (the
code reads an uninitialized frame id when it ignores a failed `Evict`,
which is also `undef`); running out of table-insert fuel is `none`. -/

/-- `std::hash<int>` composed with the cast to `size_t`: sign-extension of
the value. -/
def stdHashInt (i : Int) : Nat := (i % (2 ^ 64 : Int)).toNat

/-- The sentinel page id (`INVALID_PAGE_ID` in common/config.h is -1). -/
def INVALID_PAGE_ID : Int := -1

/-- One frame slot (`Page`): current page id, pin count, dirty flag and the
(abstracted) byte content. -/
structure Page where
  page_id_ : Int
  pin_count_ : Int
  is_dirty_ : Bool
  data_ : Nat
deriving DecidableEq

/-- A default-constructed `Page`. -/
def Page.empty : Page := ⟨INVALID_PAGE_ID, 0, false, 0⟩

/-- State of `BufferPoolManagerInstance` plus its disk manager. -/
structure BPM where
  pool_size_ : Nat
  pages_ : List Page
  page_table_ : EHT Int Nat
  replacer_ : LRUK
  free_list_ : List Nat
  next_page_id_ : Int
  disk : Int → Nat
  deallocated : List Int

/-- Result of `NewPgImp` / `FetchPgImp`: a pinned frame, a null pointer, or
undefined behavior (uncaught exception, or use of an uninitialized frame
id after a failed `Evict`). -/
inductive PoolRes where
  | page (f : Nat)
  | null
  | undef
deriving DecidableEq

/-- Pointwise update of the disk. -/
def updInt (g : Int → Nat) (x : Int) (v : Nat) : Int → Nat :=
  fun y => if y = x then v else g y

/-- The constructor `BufferPoolManagerInstance(pool_size, disk_manager,
replacer_k)`: default pages, fresh table and replacer, free list 0..N-1. -/
def BPM.init (poolSize k bucketSize : Nat) (disk0 : Int → Nat) : BPM :=
  { pool_size_ := poolSize,
    pages_ := List.replicate poolSize Page.empty,
    page_table_ := EHT.init Int Nat bucketSize,
    replacer_ := LRUK.init poolSize k,
    free_list_ := List.range poolSize,
    next_page_id_ := 0,
    disk := disk0,
    deallocated := [] }

/-- The frame array read `pages_[f]`. -/
def BPM.pageAt (s : BPM) (f : Nat) : Page := s.pages_.getD f Page.empty

/-- The all-pinned precheck shared by `NewPgImp` and `FetchPgImp`: the first
frame whose pin count is zero, if any. -/
def BPM.findUnpinned (s : BPM) : Option Nat :=
  (List.range s.pool_size_).find? (fun i => decide ((s.pageAt i).pin_count_ = 0))

/-- The eviction arm of the frame-acquisition path: ask the replacer for a
victim; write its bytes to disk under its current page id when dirty and
clear the dirty flag; `ResetMemory`; drop the old page id from the table.
`none` when `Evict` fails (the source ignores this and reads an
uninitialized frame id). -/
def BPM.victim (s : BPM) : Option (Nat × BPM) :=
  match s.replacer_.evict with
  | (none, _) => none
  | (some f, r') =>
    let s1 : BPM := { s with replacer_ := r' }
    let evictPid := (s1.pageAt f).page_id_
    let s2 : BPM :=
      if (s1.pageAt f).is_dirty_ then
        { s1 with disk := updInt s1.disk evictPid (s1.pageAt f).data_,
                  pages_ := s1.pages_.set f { s1.pageAt f with is_dirty_ := false } }
      else s1
    let s3 : BPM := { s2 with pages_ := s2.pages_.set f { s2.pageAt f with data_ := 0 } }
    let s4 : BPM := { s3 with page_table_ := (s3.page_table_.remove stdHashInt evictPid).2 }
    some (f, s4)

/-- The shared tail of `NewPgImp` and `FetchPgImp` once a frame `f` is
acquired: install `pid` in the table, set the frame's page id and pin count
to 1, read the page from disk when `readDisk` (`FetchPgImp` only), record
the access and pin the frame in the replacer. -/
def BPM.install (fuel : Nat) (pid : Int) (f : Nat) (readDisk : Bool) (s : BPM) :
    Option (PoolRes × BPM) :=
  match EHT.insertGo stdHashInt pid f fuel s.page_table_ with
  | none => none
  | some tbl =>
    let s1 : BPM := { s with page_table_ := tbl }
    let s2 : BPM := { s1 with pages_ :=
      (s1.pages_.set f { s1.pageAt f with page_id_ := pid, pin_count_ := 1 }) }
    let s3 : BPM :=
      if readDisk then
        { s2 with pages_ := s2.pages_.set f { s2.pageAt f with data_ := s2.disk pid } }
      else s2
    match LRUK.recordAccess f s3.replacer_ with
    | none => some (.undef, s3)
    | some r1 =>
      match LRUK.setEvictable f false r1 with
      | none => some (.undef, { s3 with replacer_ := r1 })
      | some r2 => some (.page f, { s3 with replacer_ := r2 })

/-- `NewPgImp`: all-pinned precheck, `AllocatePage`, then the free list or
the replacer provides the frame; the new page is not read from disk. -/
def BPM.newPage (fuel : Nat) (s : BPM) : Option (PoolRes × BPM) :=
  match s.findUnpinned with
  | none => some (.null, s)
  | some _ =>
    let pid := s.next_page_id_
    let s1 : BPM := { s with next_page_id_ := s.next_page_id_ + 1 }
    match s1.free_list_ with
    | f :: rest => BPM.install fuel pid f false { s1 with free_list_ := rest }
    | [] =>
      match s1.victim with
      | none => some (.undef, s1)
      | some (f, s2) => BPM.install fuel pid f false s2

/-- `FetchPgImp`: on a hit increment the pin count, record the access and
pin in the replacer; on a miss run the precheck and the frame acquisition,
then read the page bytes from disk. -/
def BPM.fetchPage (fuel : Nat) (pid : Int) (s : BPM) : Option (PoolRes × BPM) :=
  match s.page_table_.find stdHashInt pid with
  | some f =>
    let s1 : BPM := { s with pages_ :=
      (s.pages_.set f { s.pageAt f with pin_count_ := (s.pageAt f).pin_count_ + 1 }) }
    match LRUK.recordAccess f s1.replacer_ with
    | none => some (.undef, s1)
    | some r1 =>
      match LRUK.setEvictable f false r1 with
      | none => some (.undef, { s1 with replacer_ := r1 })
      | some r2 => some (.page f, { s1 with replacer_ := r2 })
  | none =>
    match s.findUnpinned with
    | none => some (.null, s)
    | some _ =>
      match s.free_list_ with
      | f :: rest => BPM.install fuel pid f true { s with free_list_ := rest }
      | [] =>
        match s.victim with
        | none => some (.undef, s)
        | some (f, s2) => BPM.install fuel pid f true s2

/-- `UnpinPgImp`: fail on INVALID, a miss, or a non-positive pin count;
otherwise set the dirty flag when asked, decrement the pin count, and mark
the frame evictable when the pin count reaches zero. -/
def BPM.unpinPage (pid : Int) (d : Bool) (s : BPM) : Option (Bool × BPM) :=
  if pid = INVALID_PAGE_ID then some (false, s)
  else
    match s.page_table_.find stdHashInt pid with
    | none => some (false, s)
    | some f =>
      if (s.pageAt f).pin_count_ ≤ 0 then some (false, s)
      else
        let s1 : BPM :=
          if d then
            { s with pages_ := s.pages_.set f { s.pageAt f with is_dirty_ := d } }
          else s
        let s2 : BPM := { s1 with pages_ :=
          (s1.pages_.set f { s1.pageAt f with pin_count_ := (s1.pageAt f).pin_count_ - 1 }) }
        if (s2.pageAt f).pin_count_ = 0 then
          match LRUK.setEvictable f true s2.replacer_ with
          | none => none
          | some r' => some (true, { s2 with replacer_ := r' })
        else some (true, s2)

/-- `FlushPgImp`: fail on INVALID or a miss; otherwise write the frame's
bytes to disk under `pid`. The dirty-flag clear is commented out in the
source and therefore absent here. -/
def BPM.flushPage (pid : Int) (s : BPM) : Bool × BPM :=
  if pid = INVALID_PAGE_ID then (false, s)
  else
    match s.page_table_.find stdHashInt pid with
    | none => (false, s)
    | some f => (true, { s with disk := updInt s.disk pid (s.pageAt f).data_ })

/-- `FlushAllPgsImp`: flush the page id of every frame in order (its
re-entrant latch acquisition aside, which a sequential model cannot see). -/
def BPM.flushAllPages (s : BPM) : BPM :=
  (List.range s.pool_size_).foldl (fun st i => (BPM.flushPage ((BPM.pageAt st i).page_id_) st).2) s

/-- `DeletePgImp`: vacuous success on a miss or INVALID; failure when the
page is pinned; otherwise remove the frame from the replacer, reset the
frame, drop the page from the table, return the frame to the free list and
call `DeallocatePage`. -/
def BPM.deletePage (pid : Int) (s : BPM) : Option (Bool × BPM) :=
  match s.page_table_.find stdHashInt pid with
  | none => some (true, s)
  | some f =>
    if pid = INVALID_PAGE_ID then some (true, s)
    else if (s.pageAt f).pin_count_ > 0 then some (false, s)
    else
      match LRUK.remove f s.replacer_ with
      | none => none
      | some r' =>
        let s1 : BPM := { s with replacer_ := r' }
        let s2 : BPM := { s1 with pages_ := s1.pages_.set f Page.empty }
        let s3 : BPM := { s2 with page_table_ := (s2.page_table_.remove stdHashInt pid).2 }
        let s4 : BPM := { s3 with free_list_ := s3.free_list_ ++ [f] }
        some (true, { s4 with deallocated := s4.deallocated ++ [pid] })

/-- A caller mutating the bytes of a (pinned) frame through `GetData()`;
the dirty flag is not touched — the caller reports dirtiness at unpin. -/
def BPM.writeData (f : Nat) (b : Nat) (s : BPM) : BPM :=
  { s with pages_ := s.pages_.set f { s.pageAt f with data_ := b } }

/-- Concrete single-frame pool (`pool_size = 1`, `k = 2`, bucket size 4)
over an all-zero disk. -/
def poolA0 : BPM := BPM.init 1 2 4 (fun _ => 0)

/-- `poolA0` after `new_page` returned page 0 pinned in frame 0. -/
def poolA1 : BPM := ((BPM.newPage 8 poolA0).map Prod.snd).getD poolA0

/-- `poolA1` after the caller wrote byte content 42 into frame 0. -/
def poolA2 : BPM := BPM.writeData 0 42 poolA1

/-- `poolA2` after `unpin_page(0, true)`: frame 0 dirty and evictable. -/
def poolA3 : BPM := ((BPM.unpinPage 0 true poolA2).map Prod.snd).getD poolA2

/-- `poolA3` after a second `new_page`: page 0 was evicted from the only
frame, its dirty bytes written back to disk. -/
def poolA4 : BPM := ((BPM.newPage 8 poolA3).map Prod.snd).getD poolA3

/-- `poolA4` after `unpin_page(1, false)`: the frame is evictable again. -/
def poolA5 : BPM := ((BPM.unpinPage 1 false poolA4).map Prod.snd).getD poolA4

/-- `poolA5` after `delete_page(1)`: the frame is back on the free list. -/
def poolA6 : BPM := ((BPM.deletePage 1 poolA5).map Prod.snd).getD poolA5

/-- `poolA5` after `fetch_page(0)`: the miss evicts page 1 (clean) and
reloads page 0 from disk, bringing back the bytes written back at the
`poolA4` eviction. -/
def poolA7 : BPM := ((BPM.fetchPage 8 0 poolA5).map Prod.snd).getD poolA5

/-- `poolA3` after `fetch_page(5)`: the miss evicts the dirty frame holding
page 0, writing its mutated bytes to disk before loading page 5. -/
def poolB1 : BPM := ((BPM.fetchPage 8 5 poolA3).map Prod.snd).getD poolA3

/-- Pool states reachable from the constructor through the public
operations (plus byte writes by pinned callers). `pool_size_` is a
`size_t`, hence below `2 ^ 64`. -/
inductive BPM.Reach : BPM → Prop where
  | init (poolSize k bucketSize : Nat) (disk0 : Int → Nat)
      (hN : poolSize < 2 ^ 64) : BPM.Reach (BPM.init poolSize k bucketSize disk0)
  | newPage {s : BPM} (fuel : Nat) {res : PoolRes} {s' : BPM} :
      BPM.Reach s → BPM.newPage fuel s = some (res, s') → BPM.Reach s'
  | fetchPage {s : BPM} (fuel : Nat) (pid : Int) {res : PoolRes} {s' : BPM} :
      BPM.Reach s → BPM.fetchPage fuel pid s = some (res, s') → BPM.Reach s'
  | unpinPage {s : BPM} (pid : Int) (d : Bool) {res : Bool} {s' : BPM} :
      BPM.Reach s → BPM.unpinPage pid d s = some (res, s') → BPM.Reach s'
  | flushPage {s : BPM} (pid : Int) :
      BPM.Reach s → BPM.Reach (BPM.flushPage pid s).2
  | flushAllPages {s : BPM} :
      BPM.Reach s → BPM.Reach (BPM.flushAllPages s)
  | deletePage {s : BPM} (pid : Int) {res : Bool} {s' : BPM} :
      BPM.Reach s → BPM.deletePage pid s = some (res, s') → BPM.Reach s'
  | writeData {s : BPM} (f b : Nat) :
      BPM.Reach s → BPM.Reach (BPM.writeData f b s)

/-- Some directory-referenced bucket of the table holds the entry `(k, v)`. -/
def EHT.hasEntry (s : EHT K V) (k : K) (v : V) : Prop :=
  ∃ i, i < s.dir_.length ∧ (k, v) ∈ (s.bucketAt i).list_

/-- The aliasing discipline of extendible hashing: two directory slots
reference the same bucket exactly when they agree on the low `depth_` bits
of the bucket referenced by the first slot. -/
def EHT.Aligned (s : EHT K V) : Prop :=
  ∀ i j, i < s.dir_.length → j < s.dir_.length →
    (s.dir_.getD i 0 = s.dir_.getD j 0 ↔
      i % 2 ^ (s.bucketAt i).depth_ = j % 2 ^ (s.bucketAt i).depth_)

/-- The placement discipline of extendible hashing: every entry of the
bucket referenced by a slot agrees with the slot on the low `depth_` bits
of its hash. -/
def EHT.Placed (hash : K → Nat) (s : EHT K V) : Prop :=
  ∀ i, i < s.dir_.length → ∀ e ∈ (s.bucketAt i).list_,
    hash e.1 % 2 ^ (s.bucketAt i).depth_ = i % 2 ^ (s.bucketAt i).depth_

/-- Number of frames the replacer currently marks evictable. -/
def LRUK.countEvict (r : LRUK) : Nat :=
  (List.range r.replacer_size_).countP (fun f => r.is_evictable_ f)

/-- Internal consistency of the LRU-K replacer as the buffer pool maintains
it: `curr_size_` counts the evictable frames, evictable frames are known
(positive access count), known frames are valid and sit in one of the two
recency lists, and the frame capacity fits in a `size_t`. -/
def LRUK.Inv (r : LRUK) : Prop :=
  r.replacer_size_ < 2 ^ 64 ∧
  r.curr_size_ = r.countEvict ∧
  (∀ f, r.is_evictable_ f = true → 1 ≤ r.access_count_ f) ∧
  (∀ f, 1 ≤ r.access_count_ f → f < r.replacer_size_) ∧
  (∀ f, 1 ≤ r.access_count_ f → f ∈ r.history_list_ ∨ f ∈ r.cache_list_)

/-- Consistency of a buffer pool state: the frame array matches the pool
size, the replacer governs exactly the pool's frames and is internally
consistent, the page table is well-formed, aligned and placed, the free
list holds distinct valid non-evictable frames, pin counts are
non-negative, an unpinned frame is free or evictable, every table entry
maps a page id to a distinct valid non-free frame with positive access
count whose frame header carries that page id. -/
def BPM.Inv (s : BPM) : Prop :=
  s.pages_.length = s.pool_size_ ∧
  s.replacer_.replacer_size_ = s.pool_size_ ∧
  LRUK.Inv s.replacer_ ∧
  s.page_table_.WF ∧
  s.page_table_.Aligned ∧
  s.page_table_.Placed stdHashInt ∧
  s.free_list_.Nodup ∧
  (∀ f ∈ s.free_list_, f < s.pool_size_ ∧ s.replacer_.is_evictable_ f = false) ∧
  (∀ f, f < s.pool_size_ → 0 ≤ (s.pageAt f).pin_count_) ∧
  (∀ f, f < s.pool_size_ → (s.pageAt f).pin_count_ = 0 →
    f ∈ s.free_list_ ∨ s.replacer_.is_evictable_ f = true) ∧
  (∀ k v, s.page_table_.hasEntry k v → v < s.pool_size_ ∧ v ∉ s.free_list_ ∧
    1 ≤ s.replacer_.access_count_ v ∧ (s.pageAt v).page_id_ = k) ∧
  (∀ k1 k2 v, s.page_table_.hasEntry k1 v → s.page_table_.hasEntry k2 v → k1 = k2)

/-- The state handed to the shared install tail of `NewPgImp`/`FetchPgImp`
once frame `f` has been acquired (popped from the free list or evicted):
all of `BPM.Inv` except that the unpinned-frame clause is not required of
`f` itself, plus: `f` is a valid frame, not free, and no table entry maps
to it. -/
def BPM.PreInstall (s : BPM) (f : Nat) : Prop :=
  s.pages_.length = s.pool_size_ ∧
  s.replacer_.replacer_size_ = s.pool_size_ ∧
  LRUK.Inv s.replacer_ ∧
  s.page_table_.WF ∧
  s.page_table_.Aligned ∧
  s.page_table_.Placed stdHashInt ∧
  s.free_list_.Nodup ∧
  (∀ g ∈ s.free_list_, g < s.pool_size_ ∧ s.replacer_.is_evictable_ g = false) ∧
  (∀ g, g < s.pool_size_ → 0 ≤ (s.pageAt g).pin_count_) ∧
  (∀ g, g < s.pool_size_ → g ≠ f → (s.pageAt g).pin_count_ = 0 →
    g ∈ s.free_list_ ∨ s.replacer_.is_evictable_ g = true) ∧
  (∀ k v, s.page_table_.hasEntry k v → v < s.pool_size_ ∧ v ∉ s.free_list_ ∧
    1 ≤ s.replacer_.access_count_ v ∧ (s.pageAt v).page_id_ = k) ∧
  (∀ k1 k2 v, s.page_table_.hasEntry k1 v → s.page_table_.hasEntry k2 v → k1 = k2) ∧
  f < s.pool_size_ ∧ f ∉ s.free_list_ ∧
  (∀ k', ¬ s.page_table_.hasEntry k' f)

/-! Helper lemmas about `List.getD`, `List.set` and `List.append` used to
reason about the bucket arena. -/

theorem getD_set_self (l : List α) (i : Nat) (a d : α) (h : i < l.length) :
    (l.set i a).getD i d = a := by
  simp [List.getD_eq_getElem?_getD, List.getElem?_set_self', h,
    List.getElem?_eq_getElem, List.length_set]

theorem getD_set_ne (l : List α) {i j : Nat} (a d : α) (h : j ≠ i) :
    (l.set i a).getD j d = l.getD j d := by
  simp [List.getD_eq_getElem?_getD, List.getElem?_set_ne (Ne.symm h)]

theorem getD_append_left (l l' : List α) {i : Nat} (d : α) (h : i < l.length) :
    (l ++ l').getD i d = l.getD i d := by
  simp [List.getD_eq_getElem?_getD, List.getElem?_append_left h]

theorem getD_append_right (l l' : List α) {i : Nat} (d : α) (h : l.length ≤ i) :
    (l ++ l').getD i d = l'.getD (i - l.length) d := by
  simp [List.getD_eq_getElem?_getD, List.getElem?_append_right h]

theorem getD_mem (l : List α) {i : Nat} (d : α) (h : i < l.length) :
    l.getD i d ∈ l := by
  rw [List.getD_eq_getElem?_getD, List.getElem?_eq_getElem h]
  exact List.getElem_mem _

theorem mem_set (l : List α) (i : Nat) (a : α) {b : α} (h : b ∈ l.set i a) :
    b = a ∨ b ∈ l := by
  rcases List.mem_or_eq_of_mem_set h with h' | h'
  · exact Or.inr h'
  · exact Or.inl h'

/-! Lemmas about the bucket operations. -/

theorem Bucket.insert_size [DecidableEq K] (b : Bucket K V) (k : K) (v : V) :
    (b.insert k v).2.size_ = b.size_ := by
  unfold Bucket.insert
  split
  · rfl
  · cases h : overwriteFirst k v b.list_ <;> simp

theorem Bucket.insert_depth [DecidableEq K] (b : Bucket K V) (k : K) (v : V) :
    (b.insert k v).2.depth_ = b.depth_ := by
  unfold Bucket.insert
  split
  · rfl
  · cases h : overwriteFirst k v b.list_ <;> simp

theorem Bucket.remove_size [DecidableEq K] [DecidableEq V] (b : Bucket K V) (k : K) :
    (b.remove k).2.size_ = b.size_ := by
  unfold Bucket.remove
  split
  · rfl
  · cases h : b.list_.find? (fun kv => decide (kv.1 = k)) <;> simp

theorem Bucket.remove_depth [DecidableEq K] [DecidableEq V] (b : Bucket K V) (k : K) :
    (b.remove k).2.depth_ = b.depth_ := by
  unfold Bucket.remove
  split
  · rfl
  · cases h : b.list_.find? (fun kv => decide (kv.1 = k)) <;> simp

theorem overwriteFirst_none [DecidableEq K] (k : K) (v : V) (l : List (K × V)) :
    overwriteFirst k v l = none ↔ k ∉ l.map Prod.fst := by
  induction l with
  | nil => simp [overwriteFirst]
  | cons kv t ih =>
    obtain ⟨k', v'⟩ := kv
    by_cases hk : k' = k
    · simp [overwriteFirst, hk]
    · rw [overwriteFirst, if_neg hk]
      cases h : overwriteFirst k v t with
      | none => simp [ih.mp h, Ne.symm hk]
      | some t' =>
        have hmem : k ∈ t.map Prod.fst := by
          by_contra hnot
          rw [ih.mpr hnot] at h
          cases h
        simp [hmem]

theorem overwriteFirst_some_spec [DecidableEq K] (k : K) (v : V) :
    ∀ {l l' : List (K × V)}, overwriteFirst k v l = some l' →
      l'.map Prod.fst = l.map Prod.fst ∧
      l'.length = l.length ∧
      (l'.find? (fun kv => decide (kv.1 = k))).map Prod.snd = some v ∧
      (∀ k'', k'' ≠ k →
        l'.find? (fun kv => decide (kv.1 = k'')) = l.find? (fun kv => decide (kv.1 = k''))) ∧
      l'.countP (fun kv => decide (kv.1 = k)) = l.countP (fun kv => decide (kv.1 = k)) := by
  intro l
  induction l with
  | nil => intro l' h; simp [overwriteFirst] at h
  | cons kv t ih =>
    intro l' h
    obtain ⟨k', v'⟩ := kv
    by_cases hk : k' = k
    · rw [overwriteFirst, if_pos hk] at h
      cases h
      subst hk
      refine ⟨rfl, rfl, ?_, ?_, ?_⟩
      · rw [List.find?_cons_of_pos _ (by simp)]
        rfl
      · intro k'' hk''
        rw [List.find?_cons_of_neg _ (by simp [Ne.symm hk'']),
          List.find?_cons_of_neg _ (by simp [Ne.symm hk''])]
      · simp [List.countP_cons]
    · rw [overwriteFirst, if_neg hk] at h
      cases hrec : overwriteFirst k v t with
      | none => rw [hrec] at h; cases h
      | some t' =>
        rw [hrec] at h
        cases h
        obtain ⟨h1, h2, h3, h4, h5⟩ := ih hrec
        refine ⟨by simp [h1], by simp [h2], ?_, ?_, ?_⟩
        · rw [List.find?_cons_of_neg _ (by simp [hk])]
          exact h3
        · intro k'' hk''
          by_cases hh : k' = k''
          · subst hh
            rw [List.find?_cons_of_pos _ (by simp), List.find?_cons_of_pos _ (by simp)]
          · rw [List.find?_cons_of_neg _ (by simp [hh]),
              List.find?_cons_of_neg _ (by simp [hh])]
            exact h4 k'' hk''
        · simp [List.countP_cons, hk, h5]

theorem Bucket.insert_not_full_true [DecidableEq K] (b : Bucket K V) (k : K) (v : V)
    (h : b.isFull = false) : (b.insert k v).1 = true := by
  unfold Bucket.insert
  rw [h]
  simp only [Bool.false_eq_true, if_false]
  cases hw : overwriteFirst k v b.list_ <;> simp

theorem Bucket.insert_find_self [DecidableEq K] (b : Bucket K V) (k : K) (v : V)
    (h : b.isFull = false) : (b.insert k v).2.find k = some v := by
  unfold Bucket.insert Bucket.find
  rw [h]
  simp only [Bool.false_eq_true, if_false]
  cases hw : overwriteFirst k v b.list_ with
  | none =>
    have hnot : k ∉ b.list_.map Prod.fst := (overwriteFirst_none k v b.list_).mp hw
    simp only [List.find?_append]
    have hnone : b.list_.find? (fun kv => decide (kv.1 = k)) = none := by
      rw [List.find?_eq_none]
      intro kv hkv
      simp only [decide_eq_true_eq]
      intro hkk
      exact hnot (hkk ▸ List.mem_map_of_mem Prod.fst hkv)
    simp [hnone, List.find?]
  | some l' =>
    exact (overwriteFirst_some_spec k v hw).2.2.1

theorem Bucket.insert_find_other [DecidableEq K] (b : Bucket K V) (k : K) (v : V)
    (k'' : K) (hne : k'' ≠ k) : (b.insert k v).2.find k'' = b.find k'' := by
  unfold Bucket.insert Bucket.find
  cases hfull : b.isFull with
  | true => simp
  | false =>
    simp only [Bool.false_eq_true, if_false]
    cases hw : overwriteFirst k v b.list_ with
    | none =>
      simp only [List.find?_append]
      have : List.find? (fun kv => decide (kv.1 = k'')) [(k, v)] = none := by
        simp [List.find?, Ne.symm hne]
      simp [this]
    | some l' =>
      simp only
      rw [(overwriteFirst_some_spec k v hw).2.2.2.1 k'' hne]

theorem Bucket.insert_len_le [DecidableEq K] (b : Bucket K V) (k : K) (v : V)
    (h : b.list_.length ≤ b.size_) : (b.insert k v).2.list_.length ≤ (b.insert k v).2.size_ := by
  unfold Bucket.insert
  cases hfull : b.isFull with
  | true => simpa using h
  | false =>
    have hlt : b.list_.length < b.size_ := by
      simpa [Bucket.isFull] using hfull
    cases hw : overwriteFirst k v b.list_ with
    | none =>
      simp only [Bool.false_eq_true, if_false]
      simp only [List.length_append, List.length_cons, List.length_nil]
      omega
    | some l' =>
      have hlen := (overwriteFirst_some_spec k v hw).2.1
      simp only [Bool.false_eq_true, if_false]
      simpa [hlen] using h

theorem Bucket.insert_keys_nodup [DecidableEq K] (b : Bucket K V) (k : K) (v : V)
    (h : (b.list_.map Prod.fst).Nodup) :
    ((b.insert k v).2.list_.map Prod.fst).Nodup := by
  unfold Bucket.insert
  cases hfull : b.isFull with
  | true => simpa
  | false =>
    cases hw : overwriteFirst k v b.list_ with
    | none =>
      have hnot : k ∉ b.list_.map Prod.fst := (overwriteFirst_none k v b.list_).mp hw
      simp only [Bool.false_eq_true, if_false, List.map_append, List.map_cons, List.map_nil]
      rw [List.nodup_append]
      refine ⟨h, List.nodup_singleton _, ?_⟩
      intro a ha hb
      simp only [List.mem_singleton] at hb
      subst hb
      exact hnot ha
    | some l' =>
      have := (overwriteFirst_some_spec k v hw).1
      simp only [Bool.false_eq_true, if_false]
      simpa [this] using h

theorem Bucket.remove_len_le [DecidableEq K] [DecidableEq V] (b : Bucket K V) (k : K) :
    (b.remove k).2.list_.length ≤ b.list_.length := by
  unfold Bucket.remove
  split
  · simp
  · cases h : b.list_.find? (fun kv => decide (kv.1 = k)) with
    | none => simp
    | some item => exact List.length_filter_le _ _

theorem Bucket.remove_keys_sublist [DecidableEq K] [DecidableEq V] (b : Bucket K V) (k : K) :
    (b.remove k).2.list_.Sublist b.list_ := by
  unfold Bucket.remove
  split
  · simp
  · cases h : b.list_.find? (fun kv => decide (kv.1 = k)) with
    | none => simp
    | some item => exact List.filter_sublist b.list_

/-- Pointwise preservation of bucket depths by an arena update that keeps the
depth of the written slot. -/
theorem depth_getD_set (store : List (Bucket K V)) (i : Nat) (b : Bucket K V)
    (hd : b.depth_ = (store.getD i emptyBucket).depth_) (j : Nat) :
    ((store.set i b).getD j emptyBucket).depth_ = (store.getD j emptyBucket).depth_ := by
  by_cases hj : j = i
  · subst hj
    by_cases hi : j < store.length
    · rw [getD_set_self _ _ _ _ hi, hd]
    · rw [List.set_eq_of_length_le (by omega)]
  · rw [getD_set_ne _ _ _ hj]

theorem splitFold_depth [DecidableEq K] (hash : K → Nat) (d : Nat) (l : List (K × V)) :
    ∀ p : Bucket K V × Bucket K V,
      (l.foldl (splitFold hash d) p).1.depth_ = p.1.depth_ ∧
      (l.foldl (splitFold hash d) p).2.depth_ = p.2.depth_ := by
  induction l with
  | nil => intro p; exact ⟨rfl, rfl⟩
  | cons kv t ih =>
    intro p
    rw [List.foldl_cons]
    refine ⟨?_, ?_⟩ <;>
      [rw [(ih _).1]; rw [(ih _).2]] <;>
      unfold splitFold <;> split <;> simp [Bucket.insert_depth]

theorem splitFold_size [DecidableEq K] (hash : K → Nat) (d : Nat) (l : List (K × V)) :
    ∀ p : Bucket K V × Bucket K V,
      (l.foldl (splitFold hash d) p).1.size_ = p.1.size_ ∧
      (l.foldl (splitFold hash d) p).2.size_ = p.2.size_ := by
  induction l with
  | nil => intro p; exact ⟨rfl, rfl⟩
  | cons kv t ih =>
    intro p
    rw [List.foldl_cons]
    refine ⟨?_, ?_⟩ <;>
      [rw [(ih _).1]; rw [(ih _).2]] <;>
      unfold splitFold <;> split <;> simp [Bucket.insert_size]

theorem splitFold_len_le [DecidableEq K] (hash : K → Nat) (d : Nat) (l : List (K × V)) :
    ∀ p : Bucket K V × Bucket K V,
      p.1.list_.length ≤ p.1.size_ → p.2.list_.length ≤ p.2.size_ →
      (l.foldl (splitFold hash d) p).1.list_.length ≤ (l.foldl (splitFold hash d) p).1.size_ ∧
      (l.foldl (splitFold hash d) p).2.list_.length ≤ (l.foldl (splitFold hash d) p).2.size_ := by
  induction l with
  | nil => intro p h1 h2; exact ⟨h1, h2⟩
  | cons kv t ih =>
    intro p h1 h2
    rw [List.foldl_cons]
    unfold splitFold
    split
    · exact ih _ h1 (Bucket.insert_len_le _ _ _ h2)
    · exact ih _ (Bucket.insert_len_le _ _ _ h1) h2

theorem splitFold_keys_nodup [DecidableEq K] (hash : K → Nat) (d : Nat) (l : List (K × V)) :
    ∀ p : Bucket K V × Bucket K V,
      (p.1.list_.map Prod.fst).Nodup → (p.2.list_.map Prod.fst).Nodup →
      ((l.foldl (splitFold hash d) p).1.list_.map Prod.fst).Nodup ∧
      ((l.foldl (splitFold hash d) p).2.list_.map Prod.fst).Nodup := by
  induction l with
  | nil => intro p h1 h2; exact ⟨h1, h2⟩
  | cons kv t ih =>
    intro p h1 h2
    rw [List.foldl_cons]
    unfold splitFold
    split
    · exact ih _ h1 (Bucket.insert_keys_nodup _ _ _ h2)
    · exact ih _ (Bucket.insert_keys_nodup _ _ _ h1) h2

theorem EHT.WF_init (K V : Type) (n : Nat) : (EHT.init K V n).WF := by
  refine ⟨rfl, ?_, ?_, ?_⟩ <;> simp [EHT.init, emptyBucket]

/-- The state produced by `ExtendibleHashTable::Remove`, spelled out. -/
theorem EHT.remove_state [DecidableEq K] [DecidableEq V] (hash : K → Nat)
    (s : EHT K V) (k : K) :
    (EHT.remove hash s k).2 =
      { s with store :=
          (s.store.set (s.dir_.getD (s.indexOf hash k) 0)
            ((s.store.getD (s.dir_.getD (s.indexOf hash k) 0) emptyBucket).remove k).2) } := rfl

theorem EHT.WF_remove [DecidableEq K] [DecidableEq V] (hash : K → Nat)
    (s : EHT K V) (k : K) (h : s.WF) : ((EHT.remove hash s k).2).WF := by
  obtain ⟨h1, h2, h3, h4⟩ := h
  rw [EHT.remove_state]
  refine ⟨h1, ?_, ?_, ?_⟩
  · intro j hj
    simpa [List.length_set] using h2 j hj
  · intro j hj
    simp only
    rw [depth_getD_set _ _ _ (Bucket.remove_depth _ _) j]
    exact h3 j hj
  · intro b hb
    simp only at hb
    by_cases hin : s.dir_.getD (s.indexOf hash k) 0 < s.store.length
    · rcases mem_set _ _ _ hb with hb | hb
      · subst hb
        obtain ⟨w1, w2, w3⟩ := h4 _ (getD_mem s.store emptyBucket hin)
        refine ⟨by rw [Bucket.remove_size]; exact w1, ?_, ?_⟩
        · rw [Bucket.remove_size]
          exact le_trans (Bucket.remove_len_le _ _) w2
        · exact ((Bucket.remove_keys_sublist _ _).map Prod.fst).nodup w3
      · exact h4 b hb
    · rw [List.set_eq_of_length_le (by omega)] at hb
      exact h4 b hb

/-- Structural well-formedness survives overwriting one arena slot with a
bucket of the same capacity and depth that respects capacity and key
uniqueness. -/
theorem EHT.WF_set_store (s : EHT K V) (bidx : Nat) (b' : Bucket K V) (hwf : s.WF)
    (hsize : b'.size_ = (s.store.getD bidx emptyBucket).size_)
    (hdepth : b'.depth_ = (s.store.getD bidx emptyBucket).depth_)
    (hlen : b'.list_.length ≤ b'.size_)
    (hnodup : (b'.list_.map Prod.fst).Nodup) :
    ({ s with store := s.store.set bidx b' } : EHT K V).WF := by
  obtain ⟨h1, h2, h3, h4⟩ := hwf
  refine ⟨h1, ?_, ?_, ?_⟩
  · intro j hj
    simpa [List.length_set] using h2 j hj
  · intro j hj
    simp only
    rw [depth_getD_set _ _ _ hdepth j]
    exact h3 j hj
  · intro b hb
    simp only at hb
    by_cases hin : bidx < s.store.length
    · rcases mem_set _ _ _ hb with hb | hb
      · subst hb
        obtain ⟨w1, w2, w3⟩ := h4 _ (getD_mem s.store emptyBucket hin)
        exact ⟨by rw [hsize]; exact w1, hlen, hnodup⟩
      · exact h4 b hb
    · rw [List.set_eq_of_length_le (by omega)] at hb
      exact h4 b hb

theorem EHT.WF_doubleDir (s : EHT K V) (h : s.WF) : s.doubleDir.WF := by
  obtain ⟨h1, h2, h3, h4⟩ := h
  refine ⟨?_, ?_, ?_, ?_⟩
  · simp only [EHT.doubleDir, List.length_append, h1, pow_succ]
    omega
  · intro j hj
    rcases List.mem_append.mp hj with hj | hj <;> exact h2 j hj
  · intro j hj
    rcases List.mem_append.mp hj with hj | hj <;>
      exact le_trans (h3 j hj) (Nat.le_succ _)
  · exact h4

theorem redirect_length (dirL : List Nat) (index d i0 i1 : Nat) :
    (redirect dirL index d i0 i1).length = dirL.length := by
  simp [redirect]

theorem redirect_mem {dirL : List Nat} {index d i0 i1 x : Nat}
    (hx : x ∈ redirect dirL index d i0 i1) :
    x = i0 ∨ x = i1 ∨ x ∈ dirL := by
  unfold redirect at hx
  rcases List.mem_map.mp hx with ⟨i, hi, hfx⟩
  have hilen : i < dirL.length := List.mem_range.mp hi
  by_cases hc : i % 2 ^ d = index % 2 ^ d
  · rw [if_pos hc] at hfx
    by_cases ht : Nat.testBit i d
    · rw [if_pos ht] at hfx
      exact Or.inr (Or.inl hfx.symm)
    · rw [if_neg ht] at hfx
      exact Or.inl hfx.symm
  · rw [if_neg hc] at hfx
    exact Or.inr (Or.inr (hfx ▸ getD_mem dirL 0 hilen))

theorem splitParts_depth [DecidableEq K] (hash : K → Nat) (sizeB d : Nat)
    (l : List (K × V)) :
    (splitParts hash sizeB d l).1.depth_ = d + 1 ∧
    (splitParts hash sizeB d l).2.depth_ = d + 1 := by
  unfold splitParts
  rw [(splitFold_depth hash d l _).1, (splitFold_depth hash d l _).2]
  exact ⟨rfl, rfl⟩

theorem splitParts_size [DecidableEq K] (hash : K → Nat) (sizeB d : Nat)
    (l : List (K × V)) :
    (splitParts hash sizeB d l).1.size_ = sizeB ∧
    (splitParts hash sizeB d l).2.size_ = sizeB := by
  unfold splitParts
  rw [(splitFold_size hash d l _).1, (splitFold_size hash d l _).2]
  exact ⟨rfl, rfl⟩

theorem splitParts_len_le [DecidableEq K] (hash : K → Nat) (sizeB d : Nat)
    (l : List (K × V)) :
    (splitParts hash sizeB d l).1.list_.length ≤ (splitParts hash sizeB d l).1.size_ ∧
    (splitParts hash sizeB d l).2.list_.length ≤ (splitParts hash sizeB d l).2.size_ :=
  splitFold_len_le hash d l _ (by simp) (by simp)

theorem splitParts_keys_nodup [DecidableEq K] (hash : K → Nat) (sizeB d : Nat)
    (l : List (K × V)) :
    ((splitParts hash sizeB d l).1.list_.map Prod.fst).Nodup ∧
    ((splitParts hash sizeB d l).2.list_.map Prod.fst).Nodup :=
  splitFold_keys_nodup hash d l _ (by simp) (by simp)

theorem EHT.WF_splitBucket [DecidableEq K] (hash : K → Nat) (s : EHT K V) (index : Nat)
    (h : s.WF)
    (hlt : (s.store.getD (s.dir_.getD index 0) emptyBucket).depth_ < s.global_depth_) :
    (s.splitBucket hash index).WF := by
  obtain ⟨h1, h2, h3, h4⟩ := h
  have hdepth1 := (splitParts_depth (V := V) hash s.bucket_size_
    (s.store.getD (s.dir_.getD index 0) emptyBucket).depth_
    (s.store.getD (s.dir_.getD index 0) emptyBucket).list_).1
  have hdepth2 := (splitParts_depth (V := V) hash s.bucket_size_
    (s.store.getD (s.dir_.getD index 0) emptyBucket).depth_
    (s.store.getD (s.dir_.getD index 0) emptyBucket).list_).2
  have hsize12 := splitParts_size (V := V) hash s.bucket_size_
    (s.store.getD (s.dir_.getD index 0) emptyBucket).depth_
    (s.store.getD (s.dir_.getD index 0) emptyBucket).list_
  have hlen12 := splitParts_len_le (V := V) hash s.bucket_size_
    (s.store.getD (s.dir_.getD index 0) emptyBucket).depth_
    (s.store.getD (s.dir_.getD index 0) emptyBucket).list_
  have hnodup12 := splitParts_keys_nodup (V := V) hash s.bucket_size_
    (s.store.getD (s.dir_.getD index 0) emptyBucket).depth_
    (s.store.getD (s.dir_.getD index 0) emptyBucket).list_
  refine ⟨?_, ?_, ?_, ?_⟩
  · simpa [EHT.splitBucket, redirect_length] using h1
  · intro j hj
    simp only [EHT.splitBucket, List.length_append, List.length_cons, List.length_nil] at hj ⊢
    rcases redirect_mem hj with hj | hj | hj
    · omega
    · omega
    · have := h2 j hj
      omega
  · intro j hj
    simp only [EHT.splitBucket] at hj ⊢
    rcases redirect_mem hj with hj | hj | hj
    · subst hj
      rw [getD_append_right _ _ _ (le_refl _), Nat.sub_self]
      simp only [List.getD_cons_zero]
      omega
    · subst hj
      rw [getD_append_right _ _ _ (by omega), Nat.add_sub_cancel_left]
      simp only [List.getD_cons_succ, List.getD_cons_zero]
      omega
    · rw [getD_append_left _ _ _ (h2 j hj)]
      exact h3 j hj
  · intro b hb
    simp only [EHT.splitBucket] at hb
    rcases List.mem_append.mp hb with hb | hb
    · exact h4 b hb
    · simp only [List.mem_cons, List.mem_singleton] at hb
      rcases hb with hb | hb | hb
      · subst hb
        exact ⟨hsize12.1, hlen12.1, hnodup12.1⟩
      · subst hb
        exact ⟨hsize12.2, hlen12.2, hnodup12.2⟩
      · cases hb

theorem EHT.WF_insertGo [DecidableEq K] (hash : K → Nat) (k : K) (v : V) :
    ∀ (fuel : Nat) (s s' : EHT K V), s.WF →
      EHT.insertGo hash k v fuel s = some s' → s'.WF := by
  intro fuel
  induction fuel with
  | zero => intro s s' _ h; cases h
  | succ fuel ih =>
    intro s s' hwf h
    rw [EHT.insertGo] at h
    simp only at h
    by_cases hb : ((s.store.getD (s.dir_.getD (s.indexOf hash k) 0) emptyBucket).insert k v).1 = true
    · rw [if_pos hb] at h
      cases h
      set bidx := s.dir_.getD (s.indexOf hash k) 0 with hbidx
      set bucket := s.store.getD bidx emptyBucket with hbucket
      have hlenb : bucket.list_.length ≤ bucket.size_ := by
        by_cases hin : bidx < s.store.length
        · exact (hwf.2.2.2 _ (getD_mem s.store emptyBucket hin)).2.1
        · rw [hbucket, List.getD_eq_default _ _ (by omega)]
          simp [emptyBucket]
      have hnodupb : (bucket.list_.map Prod.fst).Nodup := by
        by_cases hin : bidx < s.store.length
        · exact (hwf.2.2.2 _ (getD_mem s.store emptyBucket hin)).2.2
        · rw [hbucket, List.getD_eq_default _ _ (by omega)]
          simp [emptyBucket]
      exact EHT.WF_set_store s bidx _ hwf (Bucket.insert_size _ _ _)
        (Bucket.insert_depth _ _ _) (Bucket.insert_len_le _ _ _ hlenb)
        (Bucket.insert_keys_nodup _ _ _ hnodupb)
    · rw [if_neg hb] at h
      have hwf1 :
          (if (s.store.getD (s.dir_.getD (s.indexOf hash k) 0) emptyBucket).depth_ =
              s.global_depth_ then s.doubleDir else s).WF := by
        split
        · exact EHT.WF_doubleDir s hwf
        · exact hwf
      set s1 := if (s.store.getD (s.dir_.getD (s.indexOf hash k) 0) emptyBucket).depth_ =
          s.global_depth_ then s.doubleDir else s with hs1
      by_cases hlt :
          (s1.store.getD (s1.dir_.getD (s.indexOf hash k) 0) emptyBucket).depth_ <
            s1.global_depth_
      · rw [if_pos hlt] at h
        exact ih _ s' (EHT.WF_splitBucket hash s1 _ hwf1 hlt) h
      · rw [if_neg hlt] at h
        exact (Option.some.inj h) ▸ hwf1

theorem EHT.Reach_WF [DecidableEq K] [DecidableEq V] (hash : K → Nat)
    {s : EHT K V} (h : EHT.Reach hash s) : s.WF := by
  induction h with
  | init n => exact EHT.WF_init K V n
  | insert k v fuel _ hstep ih => exact EHT.WF_insertGo hash k v fuel _ _ ih hstep
  | remove k _ ih => exact EHT.WF_remove hash _ k ih

/-! Claim theorems about the extendible hash table. -/

/-- C6: in every state of the extendible hash table reachable by any
sequence of insert, find, and remove from the initial state, the directory
length equals `2 ^ global_depth_` and every bucket's local depth (as
reported by `GetLocalDepth`) is at most the global depth. -/
theorem C6_directory_depth_invariant [DecidableEq K] [DecidableEq V] (hash : K → Nat)
    (s : EHT K V) (h : EHT.Reach hash s) :
    s.dir_.length = 2 ^ s.global_depth_ ∧
    ∀ i < s.dir_.length, s.getLocalDepth i ≤ s.global_depth_ := by
  obtain ⟨h1, _, h3, _⟩ := EHT.Reach_WF hash h
  refine ⟨h1, ?_⟩
  intro i hi
  show (s.store.getD (s.dir_.getD i 0) emptyBucket).depth_ ≤ s.global_depth_
  exact h3 _ (getD_mem s.dir_ 0 hi)

/-- Witness for C6: the invariant instantiated at a concrete reachable
state, the freshly constructed table with bucket capacity 4. -/
theorem C6_directory_depth_invariant_witness :
    (EHT.init Nat Nat 4).dir_.length = 2 ^ (EHT.init Nat Nat 4).global_depth_ ∧
    ∀ i < (EHT.init Nat Nat 4).dir_.length,
      (EHT.init Nat Nat 4).getLocalDepth i ≤ (EHT.init Nat Nat 4).global_depth_ :=
  C6_directory_depth_invariant id (EHT.init Nat Nat 4) (EHT.Reach.init 4)

/-- C2 (amended): when key `k` is already present and its bucket is not
full, `Insert` overwrites in place: the directory, global depth and bucket
count are unchanged, `Find` afterwards returns the new value, and `k` still
occurs in exactly one entry of its bucket. (When the bucket is full the
code splits and restructures first — see the counterexample.) -/
theorem C2_insert_present_not_full [DecidableEq K] [DecidableEq V] (hash : K → Nat)
    (s : EHT K V) (k : K) (v : V) (fuel : Nat) (hwf : s.WF)
    (hfull : (s.bucketAt (s.indexOf hash k)).isFull = false)
    (hmem : k ∈ (s.bucketAt (s.indexOf hash k)).list_.map Prod.fst) :
    ∃ s', EHT.insertGo hash k v (fuel + 1) s = some s' ∧
      s'.global_depth_ = s.global_depth_ ∧
      s'.dir_ = s.dir_ ∧
      s'.num_buckets_ = s.num_buckets_ ∧
      s'.find hash k = some v ∧
      (s'.bucketAt (s'.indexOf hash k)).list_.countP (fun kv => decide (kv.1 = k)) = 1 := by
  unfold EHT.bucketAt EHT.indexOf at hfull hmem
  have hbidx_lt : s.dir_.getD (hash k % 2 ^ s.global_depth_) 0 < s.store.length := by
    by_contra hge
    rw [List.getD_eq_default _ _ (by omega)] at hfull
    simp [Bucket.isFull, emptyBucket] at hfull
  have htrue := Bucket.insert_not_full_true
    (s.store.getD (s.dir_.getD (hash k % 2 ^ s.global_depth_) 0) emptyBucket) k v hfull
  refine ⟨{ s with store :=
      (s.store.set (s.dir_.getD (hash k % 2 ^ s.global_depth_) 0)
        ((s.store.getD (s.dir_.getD (hash k % 2 ^ s.global_depth_) 0) emptyBucket).insert k v).2) },
    ?_, rfl, rfl, rfl, ?_, ?_⟩
  · rw [EHT.insertGo]
    simp only [EHT.indexOf, htrue, if_true]
  · simp only [EHT.find, EHT.bucketAt, EHT.indexOf]
    rw [getD_set_self _ _ _ _ hbidx_lt]
    exact Bucket.insert_find_self _ k v hfull
  · simp only [EHT.bucketAt, EHT.indexOf]
    rw [getD_set_self _ _ _ _ hbidx_lt]
    have hnodup := (hwf.2.2.2 _ (getD_mem s.store emptyBucket hbidx_lt)).2.2
    have hcount1 :
        (s.store.getD (s.dir_.getD (hash k % 2 ^ s.global_depth_) 0) emptyBucket).list_.countP
          (fun kv => decide (kv.1 = k)) = 1 := by
      have hcnt :
          (s.store.getD (s.dir_.getD (hash k % 2 ^ s.global_depth_) 0) emptyBucket).list_.countP
            (fun kv => decide (kv.1 = k)) =
          (List.map Prod.fst
            (s.store.getD (s.dir_.getD (hash k % 2 ^ s.global_depth_) 0) emptyBucket).list_).count
              k := by
        simp only [List.count, List.countP_map]
        rfl
      rw [hcnt]
      exact List.count_eq_one_of_mem hnodup hmem
    rcases hw : overwriteFirst k v
        (s.store.getD (s.dir_.getD (hash k % 2 ^ s.global_depth_) 0) emptyBucket).list_ with _ | l'
    · rw [overwriteFirst_none] at hw
      exact absurd hmem hw
    · have hspec := overwriteFirst_some_spec k v hw
      have hl' : ((s.store.getD (s.dir_.getD (hash k % 2 ^ s.global_depth_) 0)
          emptyBucket).insert k v).2.list_ = l' := by
        unfold Bucket.insert
        rw [hfull]
        simp only [Bool.false_eq_true, if_false, hw]
      rw [hl', hspec.2.2.2.2, hcount1]

/-- Witness for the amended C2 at a concrete input: re-inserting key 0 into
the non-full capacity-2 bucket holding (0, 10). -/
theorem C2_insert_present_not_full_witness :
    ∃ s', EHT.insertGo id 0 12 1 c2WitnessTable = some s' ∧
      s'.global_depth_ = c2WitnessTable.global_depth_ ∧
      s'.dir_ = c2WitnessTable.dir_ ∧
      s'.num_buckets_ = c2WitnessTable.num_buckets_ ∧
      s'.find id 0 = some 12 ∧
      (s'.bucketAt (s'.indexOf id 0)).list_.countP (fun kv => decide (kv.1 = 0)) = 1 :=
  C2_insert_present_not_full id c2WitnessTable 0 12 0
    (by simp only [EHT.WF]; decide) (by decide) (by decide)

/-! Claim theorems about the LRU-K replacer. -/

/-- C3 (code bug): `Remove` on the known but non-evictable frame 0 does not
abort: it returns normally, clears frame 0's access count and history
membership, and wraps `curr_size_` from 1 to 0 — after which `Evict` fails
even though frame 1 is still evictable. The claim (and the header contract)
require an abort with no state change. -/
theorem C3_remove_nonevictable_no_abort :
    (c3State.access_count_ 0, c3State.is_evictable_ 0, c3State.curr_size_,
      c3State.history_list_) = (1, false, 1, [1, 0]) ∧
    (LRUK.remove 0 c3State).map (fun r =>
      (r.access_count_ 0, r.curr_size_, r.history_list_, r.is_evictable_ 1,
        r.evict.1)) = some (0, 0, [1], true, none) := by
  constructor
  · rfl
  · rfl

/-- C4 (code bug): with `k = 2` and access sequence 0, 1, 1, 0 (both frames
then evictable, both with two recorded accesses), `Evict` returns frame 1,
the tail of the move-to-front cache list; but frame 0's 2nd most recent
access (time 0) is older than frame 1's (time 1), so frame 0 has the
greater backward k-distance and the claim requires frame 0. The claim's
own concrete scenario (accesses 0, 1, 2, 2) does hold: successive evictions
return 0, 1, 2. -/
theorem C4_evict_not_kth_distance :
    c4State.evict.1 = some 1 ∧
    kthMostRecentTime [0, 1, 1, 0] 2 0 = some 0 ∧
    kthMostRecentTime [0, 1, 1, 0] 2 1 = some 1 ∧
    c4ScenState.evict.1 = some 0 ∧
    c4ScenState.evict.2.evict.1 = some 1 ∧
    c4ScenState.evict.2.evict.2.evict.1 = some 2 := by
  refine ⟨rfl, by decide, by decide, rfl, rfl, rfl⟩

/-! Helper lemmas about the pool operations. -/

theorem LRUK.evict_mem (r : LRUK) (f : Nat) (r' : LRUK) (h : r.evict = (some f, r')) :
    f ∈ r.history_list_ ∨ f ∈ r.cache_list_ := by
  unfold LRUK.evict at h
  by_cases hc : r.curr_size_ = 0
  · rw [if_pos hc] at h
    simp at h
  · rw [if_neg hc] at h
    cases hh : r.history_list_.reverse.find? (fun g => r.is_evictable_ g) with
    | some g =>
      rw [hh] at h
      obtain ⟨hg, -⟩ := Prod.mk.injEq .. ▸ h
      cases Option.some.inj hg
      exact Or.inl (List.mem_reverse.mp (List.mem_of_find?_eq_some hh))
    | none =>
      rw [hh] at h
      cases hh2 : r.cache_list_.reverse.find? (fun g => r.is_evictable_ g) with
      | some g =>
        rw [hh2] at h
        obtain ⟨hg, -⟩ := Prod.mk.injEq .. ▸ h
        cases Option.some.inj hg
        exact Or.inr (List.mem_reverse.mp (List.mem_of_find?_eq_some hh2))
      | none =>
        rw [hh2] at h
        simp at h

theorem BPM.findUnpinned_none (s : BPM) :
    s.findUnpinned = none ↔ ∀ i, i < s.pool_size_ → (s.pageAt i).pin_count_ ≠ 0 := by
  unfold BPM.findUnpinned
  rw [List.find?_eq_none]
  constructor
  · intro h i hi hpin
    exact absurd (by simpa using hpin) (h i (List.mem_range.mpr hi))
  · intro h i hi
    simpa using h i (List.mem_range.mp hi)

theorem BPM.findUnpinned_some (s : BPM) (i : Nat) (h : s.findUnpinned = some i) :
    i < s.pool_size_ ∧ (s.pageAt i).pin_count_ = 0 := by
  refine ⟨List.mem_range.mp (List.mem_of_find?_eq_some h), ?_⟩
  simpa using List.find?_some h

theorem BPM.victim_spec (s : BPM) (f : Nat) (s2 : BPM) (h : BPM.victim s = some (f, s2)) :
    (s.replacer_.evict).1 = some f ∧
    s2.pages_.length = s.pages_.length ∧
    s2.pool_size_ = s.pool_size_ ∧
    s2.free_list_ = s.free_list_ ∧
    s2.next_page_id_ = s.next_page_id_ ∧
    s2.deallocated = s.deallocated ∧
    ((s.pageAt f).is_dirty_ = true →
      s2.disk = updInt s.disk (s.pageAt f).page_id_ (s.pageAt f).data_) ∧
    ((s.pageAt f).is_dirty_ = false → s2.disk = s.disk) := by
  unfold BPM.victim at h
  cases hev : s.replacer_.evict with
  | mk o r' =>
    rw [hev] at h
    cases o with
    | none => simp at h
    | some g =>
      simp only at h
      obtain ⟨hg, hs⟩ := Prod.mk.injEq .. ▸ Option.some.inj h
      cases hg
      subst hs
      refine ⟨rfl, ?_, ?_, ?_, ?_, ?_, ?_, ?_⟩ <;>
        simp only [BPM.pageAt] <;>
        split_ifs with hd <;>
        simp_all [List.length_set, updInt, BPM.pageAt]

theorem BPM.victim_none (t : BPM) (h : BPM.victim t = none) :
    (t.replacer_.evict).1 = none := by
  unfold BPM.victim at h
  cases hE : t.replacer_.evict with
  | mk o r' =>
    rw [hE] at h
    cases o with
    | none => rfl
    | some g =>
      simp only at h
      exact Option.noConfusion h

theorem BPM.install_spec (fuel : Nat) (pid : Int) (f : Nat) (readDisk : Bool) (s : BPM)
    (hf : f < s.pages_.length) (res : PoolRes) (s' : BPM)
    (h : BPM.install fuel pid f readDisk s = some (res, s')) :
    (res = .undef ∨ res = .page f) ∧
    s'.disk = s.disk ∧
    s'.pool_size_ = s.pool_size_ ∧
    s'.pages_.length = s.pages_.length ∧
    (res = .page f →
      (s'.pageAt f).pin_count_ = 1 ∧ (s'.pageAt f).page_id_ = pid ∧
      (s'.pageAt f).data_ = (if readDisk then s.disk pid else (s.pageAt f).data_)) := by
  unfold BPM.install at h
  cases hins : EHT.insertGo stdHashInt pid f fuel s.page_table_ with
  | none => rw [hins] at h; cases h
  | some tbl =>
    rw [hins] at h
    simp only at h
    cases hrd : readDisk with
    | true =>
      rw [hrd] at h
      simp only [if_true] at h
      cases hra : LRUK.recordAccess f s.replacer_ with
      | none =>
        rw [hra] at h
        simp only at h
        obtain ⟨hres, hs⟩ := Prod.mk.injEq .. ▸ Option.some.inj h
        subst hs
        refine ⟨Or.inl hres.symm, rfl, rfl, by simp [List.length_set], ?_⟩
        intro hpage
        rw [← hres] at hpage
        cases hpage
      | some r1 =>
        rw [hra] at h
        simp only at h
        cases hse : LRUK.setEvictable f false r1 with
        | none =>
          rw [hse] at h
          simp only at h
          obtain ⟨hres, hs⟩ := Prod.mk.injEq .. ▸ Option.some.inj h
          subst hs
          refine ⟨Or.inl hres.symm, rfl, rfl, by simp [List.length_set], ?_⟩
          intro hpage
          rw [← hres] at hpage
          cases hpage
        | some r2 =>
          rw [hse] at h
          simp only at h
          obtain ⟨hres, hs⟩ := Prod.mk.injEq .. ▸ Option.some.inj h
          subst hs
          refine ⟨Or.inr hres.symm, rfl, rfl, by simp [List.length_set], ?_⟩
          intro _
          simp only [BPM.pageAt]
          rw [getD_set_self _ _ _ _ (by simpa [List.length_set] using hf)]
          rw [getD_set_self _ _ _ _ hf]
          exact ⟨rfl, rfl, rfl⟩
    | false =>
      rw [hrd] at h
      simp only [Bool.false_eq_true, if_false] at h
      cases hra : LRUK.recordAccess f s.replacer_ with
      | none =>
        rw [hra] at h
        simp only at h
        obtain ⟨hres, hs⟩ := Prod.mk.injEq .. ▸ Option.some.inj h
        subst hs
        refine ⟨Or.inl hres.symm, rfl, rfl, by simp [List.length_set], ?_⟩
        intro hpage
        rw [← hres] at hpage
        cases hpage
      | some r1 =>
        rw [hra] at h
        simp only at h
        cases hse : LRUK.setEvictable f false r1 with
        | none =>
          rw [hse] at h
          simp only at h
          obtain ⟨hres, hs⟩ := Prod.mk.injEq .. ▸ Option.some.inj h
          subst hs
          refine ⟨Or.inl hres.symm, rfl, rfl, by simp [List.length_set], ?_⟩
          intro hpage
          rw [← hres] at hpage
          cases hpage
        | some r2 =>
          rw [hse] at h
          simp only at h
          obtain ⟨hres, hs⟩ := Prod.mk.injEq .. ▸ Option.some.inj h
          subst hs
          refine ⟨Or.inr hres.symm, rfl, rfl, by simp [List.length_set], ?_⟩
          intro _
          simp only [BPM.pageAt]
          rw [getD_set_self _ _ _ _ hf]
          exact ⟨rfl, rfl, rfl⟩

theorem nodup_keys_inj {K V : Type} {l : List (K × V)} (h : (l.map Prod.fst).Nodup)
    {x y : K × V} (hx : x ∈ l) (hy : y ∈ l) (hxy : x.1 = y.1) : x = y := by
  induction l with
  | nil => cases hx
  | cons a t ih =>
    rw [List.map_cons, List.nodup_cons] at h
    rcases List.mem_cons.mp hx with hx | hx <;> rcases List.mem_cons.mp hy with hy | hy
    · rw [hx, hy]
    · exfalso
      apply h.1
      rw [hx] at hxy
      exact hxy ▸ List.mem_map_of_mem Prod.fst hy
    · exfalso
      apply h.1
      rw [hy] at hxy
      exact hxy ▸ List.mem_map_of_mem Prod.fst hx
    · exact ih h.2 hx hy

/-- After `Bucket::Remove(k)` on a bucket with pairwise distinct keys, no
entry with key `k` remains. -/
theorem Bucket.remove_no_key [DecidableEq K] [DecidableEq V] (b : Bucket K V) (k : K)
    (hnodup : (b.list_.map Prod.fst).Nodup) :
    ∀ g, (k, g) ∉ (b.remove k).2.list_ := by
  intro g hmem
  unfold Bucket.remove at hmem
  by_cases hemp : b.list_.isEmpty
  · rw [if_pos hemp] at hmem
    simp only at hmem
    rw [List.isEmpty_iff] at hemp
    rw [hemp] at hmem
    cases hmem
  · rw [if_neg hemp] at hmem
    cases hfind : b.list_.find? (fun kv => decide (kv.1 = k)) with
    | none =>
      rw [hfind] at hmem
      simp only at hmem
      have := List.find?_eq_none.mp hfind _ hmem
      simp at this
    | some item =>
      rw [hfind] at hmem
      simp only at hmem
      have hmem2 := List.mem_of_mem_filter hmem
      have hkeep := List.of_mem_filter hmem
      have hitem1 : item.1 = k := by simpa using List.find?_some hfind
      have hitemmem := List.mem_of_find?_eq_some hfind
      have : (k, g) = item := nodup_keys_inj hnodup hmem2 hitemmem (by rw [hitem1])
      simp [this] at hkeep

/-- After `Bucket::Remove(k)` on a bucket with pairwise distinct keys,
`Find(k)` fails. -/
theorem Bucket.remove_find_self [DecidableEq K] [DecidableEq V] (b : Bucket K V) (k : K)
    (hnodup : (b.list_.map Prod.fst).Nodup) :
    ((b.remove k).2).find k = none := by
  unfold Bucket.find
  have hfn : (b.remove k).2.list_.find? (fun kv => decide (kv.1 = k)) = none := by
    rw [List.find?_eq_none]
    intro kv hkv
    simp only [decide_eq_true_eq]
    intro hk
    have hkv2 : kv = (k, kv.2) := by
      rw [← hk]
    rw [hkv2] at hkv
    exact Bucket.remove_no_key b k hnodup kv.2 hkv
  rw [hfn]
  rfl

/-- After `ExtendibleHashTable::Remove(k)` on a well-formed table,
`Find(k)` fails. -/
theorem EHT.remove_erases_key [DecidableEq K] [DecidableEq V] (hash : K → Nat)
    (s : EHT K V) (k : K) (hwf : s.WF) :
    ((EHT.remove hash s k).2).find hash k = none := by
  obtain ⟨h1, h2, h3, h4⟩ := hwf
  have hslot : hash k % 2 ^ s.global_depth_ < s.dir_.length := by
    rw [h1]
    exact Nat.mod_lt _ (Nat.pos_pow_of_pos _ (by omega))
  have hbidx : s.dir_.getD (hash k % 2 ^ s.global_depth_) 0 < s.store.length :=
    h2 _ (getD_mem s.dir_ 0 hslot)
  have hnodup := (h4 _ (getD_mem s.store emptyBucket hbidx)).2.2
  rw [EHT.remove_state]
  unfold EHT.find EHT.bucketAt EHT.indexOf
  simp only
  rw [getD_set_self _ _ _ _ hbidx]
  exact Bucket.remove_find_self _ k hnodup

/-- `SetEvictable` on a valid, known frame succeeds and sets the flag. -/
theorem LRUK.setEvictable_spec (f : Nat) (b : Bool) (r : LRUK)
    (hle : f ≤ r.replacer_size_) (hcnt : 1 ≤ r.access_count_ f) :
    ∃ r', LRUK.setEvictable f b r = some r' ∧
      r'.is_evictable_ f = b ∧ r'.access_count_ = r.access_count_ ∧
      r'.history_list_ = r.history_list_ ∧ r'.cache_list_ = r.cache_list_ ∧
      r'.replacer_size_ = r.replacer_size_ ∧
      (∀ g, g ≠ f → r'.is_evictable_ g = r.is_evictable_ g) := by
  unfold LRUK.setEvictable
  rw [if_neg (by omega), if_neg (by omega)]
  exact ⟨_, rfl, by simp [updf], rfl, rfl, rfl, rfl, fun g hg => by simp [updf, hg]⟩

/-- `Remove` on a valid, known frame succeeds, zeroes the access count and
clears the evictable flag. -/
theorem LRUK.remove_spec (f : Nat) (r : LRUK)
    (hle : f ≤ r.replacer_size_) (hcnt : 1 ≤ r.access_count_ f) :
    ∃ r', LRUK.remove f r = some r' ∧
      r'.access_count_ f = 0 ∧ r'.is_evictable_ f = false := by
  unfold LRUK.remove
  rw [if_neg (by omega), if_neg (by omega)]
  refine ⟨_, rfl, ?_, ?_⟩ <;> split_ifs <;> simp [updf]

/-! Claim theorems about the buffer pool manager. -/

/-- C1 (code bug): in a one-frame pool, page 0 is created, its bytes set to
42, and it is unpinned dirty; `flush_page(0)` then returns true and writes
the bytes to disk, but the frame's dirty flag is still true afterwards —
the clear the docstring promises is commented out in `FlushPgImp`. -/
theorem C1_flush_leaves_dirty_set :
    (BPM.newPage 8 poolA0).map Prod.fst = some (PoolRes.page 0) ∧
    (BPM.unpinPage 0 true poolA2).map Prod.fst = some true ∧
    poolA3.page_table_.find stdHashInt 0 = some 0 ∧
    (poolA3.pageAt 0).is_dirty_ = true ∧
    (BPM.flushPage 0 poolA3).1 = true ∧
    ((BPM.flushPage 0 poolA3).2).disk 0 = 42 ∧
    (((BPM.flushPage 0 poolA3).2).pageAt 0).is_dirty_ = true := by
  refine ⟨by decide, by decide, by decide, by decide, by decide, by rfl, by decide⟩

/-- C7: when every frame is pinned, `new_page` (and `fetch_page` of a
non-resident page) returns null with no state change — in particular
`new_page` allocates no page id, the state being unchanged entirely — and a
non-null, non-undefined result is a frame whose pin count is 1. The
sanity hypotheses (frame array length, non-negative pins, in-range free
list and replacer lists) hold in every reachable pool state. -/
theorem C7_all_pinned_null (fuel : Nat) (s : BPM) (pid : Int)
    (hlen : s.pages_.length = s.pool_size_)
    (hpin : ∀ i, i < s.pool_size_ → 0 ≤ (s.pageAt i).pin_count_)
    (hfree : ∀ f ∈ s.free_list_, f < s.pool_size_)
    (hhist : ∀ f ∈ s.replacer_.history_list_, f < s.pool_size_)
    (hcache : ∀ f ∈ s.replacer_.cache_list_, f < s.pool_size_)
    (hmiss : s.page_table_.find stdHashInt pid = none) :
    (∀ res s', BPM.newPage fuel s = some (res, s') →
       ((res = PoolRes.null ↔ ∀ i, i < s.pool_size_ → 0 < (s.pageAt i).pin_count_) ∧
        (res = PoolRes.null → s' = s) ∧
        (∀ f, res = PoolRes.page f → (s'.pageAt f).pin_count_ = 1))) ∧
    (∀ res s', BPM.fetchPage fuel pid s = some (res, s') →
       ((res = PoolRes.null ↔ ∀ i, i < s.pool_size_ → 0 < (s.pageAt i).pin_count_) ∧
        (res = PoolRes.null → s' = s) ∧
        (∀ f, res = PoolRes.page f → (s'.pageAt f).pin_count_ = 1))) := by
  cases hup : s.findUnpinned with
  | none =>
    have hall : ∀ i, i < s.pool_size_ → 0 < (s.pageAt i).pin_count_ := by
      intro i hi
      have h1 := (BPM.findUnpinned_none s).mp hup i hi
      have h2 := hpin i hi
      omega
    constructor <;> intro res s' h
    · unfold BPM.newPage at h
      rw [hup] at h
      obtain ⟨hres, hs⟩ := Prod.mk.injEq .. ▸ Option.some.inj h
      cases hres
      cases hs
      exact ⟨⟨fun _ => hall, fun _ => rfl⟩, fun _ => rfl, fun f hf => by cases hf⟩
    · unfold BPM.fetchPage at h
      rw [hmiss] at h
      simp only at h
      rw [hup] at h
      obtain ⟨hres, hs⟩ := Prod.mk.injEq .. ▸ Option.some.inj h
      cases hres
      cases hs
      exact ⟨⟨fun _ => hall, fun _ => rfl⟩, fun _ => rfl, fun f hf => by cases hf⟩
  | some i =>
    obtain ⟨hiN, hi0⟩ := BPM.findUnpinned_some s i hup
    have hnall : ¬ ∀ j, j < s.pool_size_ → 0 < (s.pageAt j).pin_count_ := by
      intro hall
      have := hall i hiN
      omega
    have hundef : ∀ (s' : BPM) (res : PoolRes), PoolRes.undef = res →
        ((res = PoolRes.null ↔ ∀ j, j < s.pool_size_ → 0 < (s.pageAt j).pin_count_) ∧
         (res = PoolRes.null → s' = s) ∧
         (∀ g, res = PoolRes.page g → (s'.pageAt g).pin_count_ = 1)) := by
      intro s' res hres
      cases hres
      refine ⟨⟨fun hc => ?_, fun hall => absurd hall hnall⟩, fun hc => ?_, fun g hc => ?_⟩
      · cases hc
      · cases hc
      · cases hc
    have hconc : ∀ (res : PoolRes) (s' sb : BPM) (pd : Int) (f : Nat) (rd : Bool),
        sb.pages_.length = s.pages_.length → f < s.pool_size_ →
        BPM.install fuel pd f rd sb = some (res, s') →
        ((res = PoolRes.null ↔ ∀ j, j < s.pool_size_ → 0 < (s.pageAt j).pin_count_) ∧
         (res = PoolRes.null → s' = s) ∧
         (∀ g, res = PoolRes.page g → (s'.pageAt g).pin_count_ = 1)) := by
      intro res s' sb pd f rd hblen hfN h
      have hspec := BPM.install_spec fuel pd f rd sb (by omega) res s' h
      refine ⟨⟨?_, fun hall => absurd hall hnall⟩, ?_, ?_⟩
      · intro hres
        rcases hspec.1 with hu | hp
        · rw [hres] at hu
          cases hu
        · rw [hres] at hp
          cases hp
      · intro hres
        rcases hspec.1 with hu | hp
        · rw [hres] at hu
          cases hu
        · rw [hres] at hp
          cases hp
      · intro g hres
        rcases hspec.1 with hu | hp
        · rw [hres] at hu
          cases hu
        · rw [hres] at hp
          cases PoolRes.page.inj hp
          exact (hspec.2.2.2.2 hres).1
    constructor <;> intro res s' h
    · unfold BPM.newPage at h
      rw [hup] at h
      simp only at h
      split at h
      · rename_i f rest heq
        exact hconc res s'
          { s with next_page_id_ := s.next_page_id_ + 1, free_list_ := rest } _ f false rfl
          (hfree f (by rw [heq]; exact List.mem_cons_self f rest)) h
      · rename_i heq
        split at h
        · obtain ⟨hres, hs⟩ := Prod.mk.injEq .. ▸ Option.some.inj h
          cases hs
          exact hundef _ res hres
        · rename_i f s2 hvic
          obtain ⟨hev1, hlen2, -⟩ := BPM.victim_spec _ f s2 hvic
          simp only at hev1 hlen2
          have hfN : f < s.pool_size_ := by
            cases hevic : s.replacer_.evict with
            | mk o r' =>
              rw [hevic] at hev1
              simp only at hev1
              subst hev1
              rcases LRUK.evict_mem s.replacer_ f r' hevic with hm | hm
              · exact hhist f hm
              · exact hcache f hm
          exact hconc res s' s2 _ f false hlen2 hfN h
    · unfold BPM.fetchPage at h
      rw [hmiss] at h
      simp only at h
      rw [hup] at h
      simp only at h
      split at h
      · rename_i f rest heq
        exact hconc res s' { s with free_list_ := rest } _ f true rfl
          (hfree f (by rw [heq]; exact List.mem_cons_self f rest)) h
      · rename_i heq
        split at h
        · obtain ⟨hres, hs⟩ := Prod.mk.injEq .. ▸ Option.some.inj h
          cases hs
          exact hundef _ res hres
        · rename_i f s2 hvic
          obtain ⟨hev1, hlen2, -⟩ := BPM.victim_spec _ f s2 hvic
          have hfN : f < s.pool_size_ := by
            cases hevic : s.replacer_.evict with
            | mk o r' =>
              rw [hevic] at hev1
              simp only at hev1
              subst hev1
              rcases LRUK.evict_mem s.replacer_ f r' hevic with hm | hm
              · exact hhist f hm
              · exact hcache f hm
          exact hconc res s' s2 _ f true hlen2 hfN h

/-- C8: `unpin_page(p, d)` fails exactly when `p` is not resident or the
pin count is already non-positive, changing no state; otherwise it
succeeds, decrements the pin count by one, computes the dirty flag as the
disjunction of the old flag and `d` (so it is set when `d` holds and never
cleared), marks the frame evictable in the replacer exactly when the pin
count reaches zero, and changes no other frame, nor the table, free list
or disk. The sanity hypotheses hold in every reachable pool state. -/
theorem C8_unpin_spec (s : BPM) (pid : Int) (d : Bool)
    (hlen : s.pages_.length = s.pool_size_)
    (hrs : s.replacer_.replacer_size_ = s.pool_size_)
    (hinv : s.page_table_.find stdHashInt INVALID_PAGE_ID = none)
    (hval : ∀ g, s.page_table_.find stdHashInt pid = some g → g < s.pool_size_)
    (hcnt : ∀ g, s.page_table_.find stdHashInt pid = some g →
      1 ≤ s.replacer_.access_count_ g)
    (hev : ∀ g, s.page_table_.find stdHashInt pid = some g →
      0 < (s.pageAt g).pin_count_ → s.replacer_.is_evictable_ g = false) :
    ∀ res s', BPM.unpinPage pid d s = some (res, s') →
      ((res = false ↔ s.page_table_.find stdHashInt pid = none ∨
          ∃ f, s.page_table_.find stdHashInt pid = some f ∧ (s.pageAt f).pin_count_ ≤ 0) ∧
       (res = false → s' = s) ∧
       (∀ f, s.page_table_.find stdHashInt pid = some f → 0 < (s.pageAt f).pin_count_ →
          res = true ∧
          (s'.pageAt f).pin_count_ = (s.pageAt f).pin_count_ - 1 ∧
          (s'.pageAt f).is_dirty_ = ((s.pageAt f).is_dirty_ || d) ∧
          s'.replacer_.is_evictable_ f = decide ((s.pageAt f).pin_count_ = 1) ∧
          (∀ g, g ≠ f → s'.pageAt g = s.pageAt g) ∧
          s'.page_table_ = s.page_table_ ∧ s'.free_list_ = s.free_list_ ∧
          s'.disk = s.disk)) := by
  intro res s' h
  unfold BPM.unpinPage at h
  by_cases hpid : pid = INVALID_PAGE_ID
  · rw [if_pos hpid] at h
    obtain ⟨hres, hs⟩ := Prod.mk.injEq .. ▸ Option.some.inj h
    cases hres
    cases hs
    subst hpid
    refine ⟨⟨fun _ => Or.inl hinv, fun _ => rfl⟩, fun _ => rfl, ?_⟩
    intro f hf
    rw [hinv] at hf
    cases hf
  · rw [if_neg hpid] at h
    cases hfind : s.page_table_.find stdHashInt pid with
    | none =>
      rw [hfind] at h
      simp only at h
      obtain ⟨hres, hs⟩ := Prod.mk.injEq .. ▸ Option.some.inj h
      cases hres
      cases hs
      refine ⟨⟨fun _ => Or.inl rfl, fun _ => rfl⟩, fun _ => rfl, ?_⟩
      intro f hf
      cases hf
    | some f =>
      rw [hfind] at h
      simp only at h
      by_cases hp0 : (s.pageAt f).pin_count_ ≤ 0
      · rw [if_pos hp0] at h
        obtain ⟨hres, hs⟩ := Prod.mk.injEq .. ▸ Option.some.inj h
        cases hres
        cases hs
        refine ⟨⟨fun _ => Or.inr ⟨f, rfl, hp0⟩, fun _ => rfl⟩, fun _ => rfl, ?_⟩
        intro f0 hf0 hposf
        cases Option.some.inj hf0
        omega
      · rw [if_neg hp0] at h
        have hfN : f < s.pool_size_ := hval f hfind
        have hflen : f < s.pages_.length := by omega
        have hposf : 0 < (s.pageAt f).pin_count_ := by omega
        have hiffok : ∀ res0 : PoolRes, True := fun _ => trivial
        clear hiffok
        cases hd : d
        · rw [hd] at h
          simp only [Bool.false_eq_true, if_false] at h
          split at h
          · rename_i hcond
            simp only [BPM.pageAt] at hcond
            rw [getD_set_self _ _ _ _ hflen] at hcond
            simp only at hcond
            have hz : (s.pageAt f).pin_count_ = 1 := by
              simp only [BPM.pageAt]
              omega
            obtain ⟨r', hse, hflag, -, -, -, -, -⟩ :=
              LRUK.setEvictable_spec f true s.replacer_ (by omega) (hcnt f hfind)
            rw [hse] at h
            simp only at h
            obtain ⟨hres, hs⟩ := Prod.mk.injEq .. ▸ Option.some.inj h
            cases hres
            cases hs
            refine ⟨⟨fun hc => ?_, fun hor => ?_⟩, fun hc => ?_, fun f0 hf0 hz2 => ?_⟩
            · cases hc
            · rcases hor with hn | ⟨f0, hf0, hle0⟩
              · cases hn
              · cases Option.some.inj hf0
                omega
            · cases hc
            · cases Option.some.inj hf0
              refine ⟨rfl, ?_, ?_, ?_, ?_, rfl, rfl, rfl⟩
              · simp only [BPM.pageAt]
                rw [getD_set_self _ _ _ _ hflen]
              · simp only [BPM.pageAt]
                rw [getD_set_self _ _ _ _ hflen]
                simp
              · rw [hflag]
                simp [hz]
              · intro g hg
                simp only [BPM.pageAt]
                rw [getD_set_ne _ _ _ hg]
          · rename_i hcond
            simp only [BPM.pageAt] at hcond
            rw [getD_set_self _ _ _ _ hflen] at hcond
            simp only at hcond
            have hz : (s.pageAt f).pin_count_ ≠ 1 := by
              simp only [BPM.pageAt]
              omega
            obtain ⟨hres, hs⟩ := Prod.mk.injEq .. ▸ Option.some.inj h
            cases hres
            cases hs
            refine ⟨⟨fun hc => ?_, fun hor => ?_⟩, fun hc => ?_, fun f0 hf0 hz2 => ?_⟩
            · cases hc
            · rcases hor with hn | ⟨f0, hf0, hle0⟩
              · cases hn
              · cases Option.some.inj hf0
                omega
            · cases hc
            · cases Option.some.inj hf0
              refine ⟨rfl, ?_, ?_, ?_, ?_, rfl, rfl, rfl⟩
              · simp only [BPM.pageAt]
                rw [getD_set_self _ _ _ _ hflen]
              · simp only [BPM.pageAt]
                rw [getD_set_self _ _ _ _ hflen]
                simp
              · simp only [hev f hfind hposf]
                simp [hz]
              · intro g hg
                simp only [BPM.pageAt]
                rw [getD_set_ne _ _ _ hg]
        · rw [hd] at h
          simp only [if_true] at h
          have hflen2 : f < (s.pages_.set f { s.pageAt f with is_dirty_ := true }).length := by
            simpa [List.length_set] using hflen
          split at h
          · rename_i hcond
            simp only [BPM.pageAt] at hcond
            rw [getD_set_self _ _ _ _ (by simpa [List.length_set] using hflen)] at hcond
            simp only at hcond
            rw [getD_set_self _ _ _ _ hflen] at hcond
            simp only at hcond
            have hz : (s.pageAt f).pin_count_ = 1 := by
              simp only [BPM.pageAt]
              omega
            obtain ⟨r', hse, hflag, -, -, -, -, -⟩ :=
              LRUK.setEvictable_spec f true s.replacer_ (by omega) (hcnt f hfind)
            rw [hse] at h
            simp only at h
            obtain ⟨hres, hs⟩ := Prod.mk.injEq .. ▸ Option.some.inj h
            cases hres
            cases hs
            refine ⟨⟨fun hc => ?_, fun hor => ?_⟩, fun hc => ?_, fun f0 hf0 hz2 => ?_⟩
            · cases hc
            · rcases hor with hn | ⟨f0, hf0, hle0⟩
              · cases hn
              · cases Option.some.inj hf0
                omega
            · cases hc
            · cases Option.some.inj hf0
              refine ⟨rfl, ?_, ?_, ?_, ?_, rfl, rfl, rfl⟩
              · simp only [BPM.pageAt]
                rw [getD_set_self _ _ _ _ (by simpa [List.length_set] using hflen)]
                simp only
                rw [getD_set_self _ _ _ _ hflen]
              · simp only [BPM.pageAt]
                rw [getD_set_self _ _ _ _ (by simpa [List.length_set] using hflen)]
                simp only
                rw [getD_set_self _ _ _ _ hflen]
                simp
              · rw [hflag]
                simp [hz]
              · intro g hg
                simp only [BPM.pageAt]
                rw [getD_set_ne _ _ _ hg, getD_set_ne _ _ _ hg]
          · rename_i hcond
            simp only [BPM.pageAt] at hcond
            rw [getD_set_self _ _ _ _ (by simpa [List.length_set] using hflen)] at hcond
            simp only at hcond
            rw [getD_set_self _ _ _ _ hflen] at hcond
            simp only at hcond
            have hz : (s.pageAt f).pin_count_ ≠ 1 := by
              simp only [BPM.pageAt]
              omega
            obtain ⟨hres, hs⟩ := Prod.mk.injEq .. ▸ Option.some.inj h
            cases hres
            cases hs
            refine ⟨⟨fun hc => ?_, fun hor => ?_⟩, fun hc => ?_, fun f0 hf0 hz2 => ?_⟩
            · cases hc
            · rcases hor with hn | ⟨f0, hf0, hle0⟩
              · cases hn
              · cases Option.some.inj hf0
                omega
            · cases hc
            · cases Option.some.inj hf0
              refine ⟨rfl, ?_, ?_, ?_, ?_, rfl, rfl, rfl⟩
              · simp only [BPM.pageAt]
                rw [getD_set_self _ _ _ _ (by simpa [List.length_set] using hflen)]
                simp only
                rw [getD_set_self _ _ _ _ hflen]
              · simp only [BPM.pageAt]
                rw [getD_set_self _ _ _ _ (by simpa [List.length_set] using hflen)]
                simp only
                rw [getD_set_self _ _ _ _ hflen]
                simp
              · simp only [hev f hfind hposf]
                simp [hz]
              · intro g hg
                simp only [BPM.pageAt]
                rw [getD_set_ne _ _ _ hg, getD_set_ne _ _ _ hg]

/-- Witness for C8 at a concrete input: unpinning the pinned page 1 of the
one-frame pool with the dirty flag set succeeds; the theorem yields the
decremented pin count and the evictable mark. -/
theorem C8_unpin_spec_witness :
    (poolA5.pageAt 0).pin_count_ = (poolA4.pageAt 0).pin_count_ - 1 ∧
    poolA5.replacer_.is_evictable_ 0 = decide ((poolA4.pageAt 0).pin_count_ = 1) := by
  have hfind0 : EHT.find stdHashInt poolA4.page_table_ 1 = some 0 := by decide
  have h := C8_unpin_spec poolA4 1 false (by decide) (by decide) (by decide)
    (fun g hg => by rw [hfind0] at hg; cases Option.some.inj hg; decide)
    (fun g hg => by rw [hfind0] at hg; cases Option.some.inj hg; decide)
    (fun g hg hp => by rw [hfind0] at hg; cases Option.some.inj hg; decide)
    true poolA5 (by with_unfolding_all rfl)
  obtain ⟨-, hpin, hdirty, hevict, -⟩ := h.2.2 0 hfind0 (by decide)
  exact ⟨hpin, hevict⟩

/-- C9: `delete_page(p)` succeeds vacuously on a non-resident page with no
state change; fails on a resident pinned page with no state change; and
otherwise succeeds after removing `p` from the directory and the replacer,
resetting the frame to a default page (INVALID id, pin count 0, clean,
zeroed bytes), appending the frame to the free list, and invoking
`DeallocatePage(p)`. Sanity hypotheses as in reachable states. -/
theorem C9_delete_spec (s : BPM) (pid : Int)
    (hlen : s.pages_.length = s.pool_size_)
    (hrs : s.replacer_.replacer_size_ = s.pool_size_)
    (hinv : s.page_table_.find stdHashInt INVALID_PAGE_ID = none)
    (hwf : s.page_table_.WF)
    (hval : ∀ g, s.page_table_.find stdHashInt pid = some g → g < s.pool_size_)
    (hcnt : ∀ g, s.page_table_.find stdHashInt pid = some g →
      1 ≤ s.replacer_.access_count_ g) :
    ∀ res s', BPM.deletePage pid s = some (res, s') →
      ((s.page_table_.find stdHashInt pid = none → res = true ∧ s' = s) ∧
       (∀ f, s.page_table_.find stdHashInt pid = some f →
          (0 < (s.pageAt f).pin_count_ → res = false ∧ s' = s) ∧
          ((s.pageAt f).pin_count_ ≤ 0 →
            res = true ∧
            s'.page_table_.find stdHashInt pid = none ∧
            s'.replacer_.access_count_ f = 0 ∧
            s'.replacer_.is_evictable_ f = false ∧
            s'.pageAt f = Page.empty ∧
            s'.free_list_ = s.free_list_ ++ [f] ∧
            s'.deallocated = s.deallocated ++ [pid]))) := by
  intro res s' h
  unfold BPM.deletePage at h
  cases hfind : s.page_table_.find stdHashInt pid with
  | none =>
    rw [hfind] at h
    simp only at h
    obtain ⟨hres, hs⟩ := Prod.mk.injEq .. ▸ Option.some.inj h
    cases hres
    cases hs
    exact ⟨fun _ => ⟨rfl, rfl⟩, fun f hf => by cases hf⟩
  | some f =>
    rw [hfind] at h
    simp only at h
    have hpidne : pid ≠ INVALID_PAGE_ID := by
      intro he
      rw [he, hinv] at hfind
      cases hfind
    rw [if_neg hpidne] at h
    have hfN : f < s.pool_size_ := hval f hfind
    have hflen : f < s.pages_.length := by omega
    by_cases hpin : 0 < (s.pageAt f).pin_count_
    · rw [if_pos hpin] at h
      obtain ⟨hres, hs⟩ := Prod.mk.injEq .. ▸ Option.some.inj h
      cases hres
      cases hs
      refine ⟨fun hn => (nomatch hn), ?_⟩
      intro f0 hf0
      cases Option.some.inj hf0
      exact ⟨fun _ => ⟨rfl, rfl⟩, fun hle => by omega⟩
    · rw [if_neg hpin] at h
      obtain ⟨r', hrem, hcnt0, hev0⟩ :=
        LRUK.remove_spec f s.replacer_ (by omega) (hcnt f hfind)
      rw [hrem] at h
      simp only at h
      obtain ⟨hres, hs⟩ := Prod.mk.injEq .. ▸ Option.some.inj h
      cases hres
      cases hs
      refine ⟨fun hn => (nomatch hn), ?_⟩
      intro f0 hf0
      cases Option.some.inj hf0
      refine ⟨fun hgt => by omega, fun _ => ?_⟩
      refine ⟨rfl, ?_, hcnt0, hev0, ?_, rfl, rfl⟩
      · exact EHT.remove_erases_key stdHashInt s.page_table_ pid hwf
      · simp only [BPM.pageAt]
        rw [getD_set_self _ _ _ _ hflen]

/-- Witness for C9 at a concrete input: deleting the unpinned page 1 of the
one-frame pool empties the directory, returns frame 0 to the free list and
deallocates page id 1. -/
theorem C9_delete_spec_witness :
    poolA6.page_table_.find stdHashInt 1 = none ∧
    poolA6.free_list_ = poolA5.free_list_ ++ [0] ∧
    poolA6.deallocated = poolA5.deallocated ++ [1] := by
  have hfind0 : EHT.find stdHashInt poolA5.page_table_ 1 = some 0 := by decide
  have h := C9_delete_spec poolA5 1 (by decide) (by decide) (by decide)
    (by simp only [EHT.WF]; decide)
    (fun g hg => by rw [hfind0] at hg; cases Option.some.inj hg; decide)
    (fun g hg => by rw [hfind0] at hg; cases Option.some.inj hg; decide)
    true poolA6 (by with_unfolding_all rfl)
  obtain ⟨-, h2⟩ := h
  obtain ⟨-, hun⟩ := h2 0 hfind0
  obtain ⟨-, hfind2, -, -, -, hfree, hdeal⟩ := hun (by decide)
  exact ⟨hfind2, hfree, hdeal⟩

/-- Witness for C7 at a concrete input: in the one-frame pool whose only
frame is pinned, the precondition side of the iff is realized — applying
the theorem to the null results of `new_page` and `fetch_page(5)` yields
that every frame is pinned. -/
theorem C7_all_pinned_null_witness : 0 < (poolA1.pageAt 0).pin_count_ :=
  ((C7_all_pinned_null 8 poolA1 5 (by decide) (by decide) (by decide) (by decide)
      (by decide) (by decide)).1 PoolRes.null poolA1 rfl).1.mp rfl 0 (by decide)

/-! Lemmas toward C10: modular arithmetic on slot indices, entry membership
through the table operations, preservation of alignment and placement, the
replacer consistency, and the pool-level invariant. -/

theorem mod_pow_mod_pow (a d g : Nat) (h : d ≤ g) : a % 2 ^ g % 2 ^ d = a % 2 ^ d :=
  Nat.mod_mod_of_dvd a (pow_dvd_pow 2 h)

theorem mod_len_mod_pow (a L D g : Nat) (hL : L = 2 ^ g) (h : D ≤ g) :
    a % L % 2 ^ D = a % 2 ^ D := by
  subst hL
  exact mod_pow_mod_pow a D g h

theorem mod_two_pow_succ_iff {a b : Nat} (d : Nat) (hlow : a % 2 ^ d = b % 2 ^ d) :
    a % 2 ^ (d + 1) = b % 2 ^ (d + 1) ↔ Nat.testBit a d = Nat.testBit b d := by
  have h2 : (2 : Nat) ^ (d + 1) = 2 ^ d * 2 := by rw [pow_succ]
  have ha : a % 2 ^ (d + 1) = a % 2 ^ d + 2 ^ d * (a / 2 ^ d % 2) := by
    rw [h2, Nat.mod_mul]
  have hb : b % 2 ^ (d + 1) = b % 2 ^ d + 2 ^ d * (b / 2 ^ d % 2) := by
    rw [h2, Nat.mod_mul]
  have hta : Nat.testBit a d = decide (a / 2 ^ d % 2 = 1) := Nat.testBit_to_div_mod
  have htb : Nat.testBit b d = decide (b / 2 ^ d % 2 = 1) := Nat.testBit_to_div_mod
  have hpos : 0 < 2 ^ d := Nat.pos_pow_of_pos _ (by omega)
  constructor
  · intro h
    rw [ha, hb, hlow] at h
    have hx : a / 2 ^ d % 2 = b / 2 ^ d % 2 :=
      Nat.eq_of_mul_eq_mul_left hpos (Nat.add_left_cancel h)
    rw [hta, htb, hx]
  · intro h
    rw [hta, htb, decide_eq_decide] at h
    have h2a : a / 2 ^ d % 2 < 2 := Nat.mod_lt _ (by omega)
    have h2b : b / 2 ^ d % 2 < 2 := Nat.mod_lt _ (by omega)
    have hx : a / 2 ^ d % 2 = b / 2 ^ d % 2 := by
      by_cases h1 : a / 2 ^ d % 2 = 1
      · have := h.mp h1
        omega
      · have : ¬ b / 2 ^ d % 2 = 1 := fun hy => h1 (h.mpr hy)
        omega
    rw [ha, hb, hlow, hx]

theorem getD_set_cases (l : List α) (i j : Nat) (a d : α) :
    ((l.set i a).getD j d = a ∧ j = i ∧ i < l.length) ∨
    ((l.set i a).getD j d = l.getD j d) := by
  by_cases hj : j = i
  · subst hj
    by_cases hi : j < l.length
    · exact Or.inl ⟨getD_set_self _ _ _ _ hi, rfl, hi⟩
    · rw [List.set_eq_of_length_le (by omega)]
      exact Or.inr rfl
  · exact Or.inr (getD_set_ne _ _ _ hj)

theorem overwriteFirst_mem [DecidableEq K] (k : K) (v : V) :
    ∀ {l l' : List (K × V)}, overwriteFirst k v l = some l' →
      ∀ e ∈ l', e ∈ l ∨ e = (k, v) := by
  intro l
  induction l with
  | nil => intro l' h; simp [overwriteFirst] at h
  | cons kv t ih =>
    intro l' h e he
    obtain ⟨k', v'⟩ := kv
    rw [overwriteFirst] at h
    by_cases hk : k' = k
    · rw [if_pos hk] at h
      cases h
      rcases List.mem_cons.mp he with he | he
      · subst hk
        exact Or.inr he
      · exact Or.inl (List.mem_cons_of_mem _ he)
    · rw [if_neg hk] at h
      cases hrec : overwriteFirst k v t with
      | none => rw [hrec] at h; cases h
      | some t' =>
        rw [hrec] at h
        cases h
        rcases List.mem_cons.mp he with he | he
        · exact Or.inl (he ▸ List.mem_cons_self _ _)
        · rcases ih hrec e he with h2 | h2
          · exact Or.inl (List.mem_cons_of_mem _ h2)
          · exact Or.inr h2

theorem Bucket.insert_entry_sub [DecidableEq K] (b : Bucket K V) (k : K) (v : V)
    {e : K × V} (he : e ∈ (b.insert k v).2.list_) :
    e ∈ b.list_ ∨ e = (k, v) := by
  unfold Bucket.insert at he
  split at he
  · exact Or.inl he
  · cases hw : overwriteFirst k v b.list_ with
    | none =>
      rw [hw] at he
      simp only at he
      rcases List.mem_append.mp he with h2 | h2
      · exact Or.inl h2
      · exact Or.inr (List.mem_singleton.mp h2)
    | some l' =>
      rw [hw] at he
      simp only at he
      exact overwriteFirst_mem k v hw e he

theorem Bucket.remove_entry_sub [DecidableEq K] [DecidableEq V] (b : Bucket K V) (k : K)
    {e : K × V} (he : e ∈ (b.remove k).2.list_) : e ∈ b.list_ := by
  unfold Bucket.remove at he
  split at he
  · exact he
  · cases hf : b.list_.find? (fun kv => decide (kv.1 = k)) with
    | none => rw [hf] at he; exact he
    | some item =>
      rw [hf] at he
      simp only at he
      exact List.mem_of_mem_filter he

theorem splitFold_mem [DecidableEq K] (hash : K → Nat) (d : Nat) :
    ∀ (l : List (K × V)) (p : Bucket K V × Bucket K V),
      (∀ e ∈ (l.foldl (splitFold hash d) p).1.list_,
        e ∈ p.1.list_ ∨ (e ∈ l ∧ Nat.testBit (hash e.1) d = false)) ∧
      (∀ e ∈ (l.foldl (splitFold hash d) p).2.list_,
        e ∈ p.2.list_ ∨ (e ∈ l ∧ Nat.testBit (hash e.1) d = true)) := by
  intro l
  induction l with
  | nil =>
    intro p
    constructor <;> intro e he <;> exact Or.inl he
  | cons kv t ih =>
    intro p
    rw [List.foldl_cons]
    constructor
    · intro e he
      rcases (ih (splitFold hash d p kv)).1 e he with h2 | h2
      · unfold splitFold at h2
        by_cases ht : Nat.testBit (hash kv.1) d
        · rw [if_pos ht] at h2
          exact Or.inl h2
        · rw [if_neg ht] at h2
          simp only at h2
          rcases Bucket.insert_entry_sub _ _ _ h2 with h3 | h3
          · exact Or.inl h3
          · refine Or.inr ⟨?_, ?_⟩
            · rw [h3]
              exact List.mem_cons_self _ _
            · rw [h3]
              simpa using ht
      · exact Or.inr ⟨List.mem_cons_of_mem _ h2.1, h2.2⟩
    · intro e he
      rcases (ih (splitFold hash d p kv)).2 e he with h2 | h2
      · unfold splitFold at h2
        by_cases ht : Nat.testBit (hash kv.1) d
        · rw [if_pos ht] at h2
          simp only at h2
          rcases Bucket.insert_entry_sub _ _ _ h2 with h3 | h3
          · exact Or.inl h3
          · refine Or.inr ⟨?_, ?_⟩
            · rw [h3]
              exact List.mem_cons_self _ _
            · rw [h3]
              simpa using ht
        · rw [if_neg ht] at h2
          exact Or.inl h2
      · exact Or.inr ⟨List.mem_cons_of_mem _ h2.1, h2.2⟩

theorem splitParts_mem [DecidableEq K] (hash : K → Nat) (sizeB d : Nat)
    (l : List (K × V)) :
    (∀ e ∈ (splitParts hash sizeB d l).1.list_,
      e ∈ l ∧ Nat.testBit (hash e.1) d = false) ∧
    (∀ e ∈ (splitParts hash sizeB d l).2.list_,
      e ∈ l ∧ Nat.testBit (hash e.1) d = true) := by
  unfold splitParts
  constructor
  · intro e he
    rcases (splitFold_mem hash d l _).1 e he with h | h
    · exact absurd h (List.not_mem_nil e)
    · exact h
  · intro e he
    rcases (splitFold_mem hash d l _).2 e he with h | h
    · exact absurd h (List.not_mem_nil e)
    · exact h

theorem EHT.slot_lt [DecidableEq K] (hash : K → Nat) (s : EHT K V) (k : K)
    (hwf : s.WF) : s.indexOf hash k < s.dir_.length := by
  rw [hwf.1]
  unfold EHT.indexOf
  exact Nat.mod_lt _ (Nat.pos_pow_of_pos _ (by omega))

theorem EHT.find_hasEntry [DecidableEq K] (hash : K → Nat) (s : EHT K V) (k : K) (v : V)
    (hwf : s.WF) (h : s.find hash k = some v) : s.hasEntry k v := by
  unfold EHT.find Bucket.find at h
  cases hf : (s.bucketAt (s.indexOf hash k)).list_.find? (fun kv => decide (kv.1 = k)) with
  | none => rw [hf] at h; cases h
  | some kv =>
    rw [hf] at h
    simp only [Option.map_some'] at h
    have hmem := List.mem_of_find?_eq_some hf
    have hk1 : kv.1 = k := by simpa using List.find?_some hf
    have hv : kv.2 = v := Option.some.inj h
    refine ⟨s.indexOf hash k, EHT.slot_lt hash s k hwf, ?_⟩
    have hkv : kv = (k, v) := by rw [← hk1, ← hv]
    exact hkv ▸ hmem

theorem EHT.hasEntry_init (K V : Type) (n : Nat)
    (k : K) (v : V) : ¬ (EHT.init K V n).hasEntry k v := by
  rintro ⟨i, hi, hmem⟩
  have : i = 0 := by simpa [EHT.init] using hi
  subst this
  simp [EHT.init, EHT.bucketAt] at hmem

theorem EHT.remove_hasEntry [DecidableEq K] [DecidableEq V] (hash : K → Nat)
    (s : EHT K V) (k : K) {k' : K} {v' : V}
    (h : (EHT.remove hash s k).2.hasEntry k' v') : s.hasEntry k' v' := by
  obtain ⟨i, hi, hmem⟩ := h
  rw [EHT.remove_state] at hi hmem
  simp only at hi
  refine ⟨i, hi, ?_⟩
  unfold EHT.bucketAt at hmem ⊢
  simp only at hmem
  rcases getD_set_cases s.store (s.dir_.getD (s.indexOf hash k) 0) (s.dir_.getD i 0)
      (((s.store.getD (s.dir_.getD (s.indexOf hash k) 0) emptyBucket).remove k).2)
      emptyBucket with ⟨heq, hji, hlt⟩ | heq
  · rw [heq] at hmem
    rw [hji]
    exact Bucket.remove_entry_sub _ _ hmem
  · rw [heq] at hmem
    exact hmem

theorem EHT.remove_kills [DecidableEq K] [DecidableEq V] (hash : K → Nat)
    (s : EHT K V) (k : K) (hwf : s.WF) (hal : s.Aligned) (hpl : s.Placed hash) :
    ∀ v', ¬ (EHT.remove hash s k).2.hasEntry k v' := by
  rintro v' ⟨i, hi, hmem⟩
  obtain ⟨h1, h2, h3, h4⟩ := hwf
  have hslot : s.indexOf hash k < s.dir_.length := EHT.slot_lt hash s k ⟨h1, h2, h3, h4⟩
  have hbidx : s.dir_.getD (s.indexOf hash k) 0 < s.store.length :=
    h2 _ (getD_mem _ 0 hslot)
  rw [EHT.remove_state] at hi hmem
  simp only at hi
  unfold EHT.bucketAt at hmem
  simp only at hmem
  by_cases hptr : s.dir_.getD i 0 = s.dir_.getD (s.indexOf hash k) 0
  · have hnodup := (h4 _ (getD_mem s.store emptyBucket hbidx)).2.2
    rw [hptr, getD_set_self _ _ _ _ hbidx] at hmem
    exact Bucket.remove_no_key _ k hnodup v' hmem
  · rw [getD_set_ne _ _ _ hptr] at hmem
    have hplace := hpl i hi (k, v') hmem
    have hdle : (s.bucketAt i).depth_ ≤ s.global_depth_ := h3 _ (getD_mem _ 0 hi)
    have hcong : i % 2 ^ (s.bucketAt i).depth_ =
        s.indexOf hash k % 2 ^ (s.bucketAt i).depth_ := by
      unfold EHT.indexOf
      rw [mod_pow_mod_pow _ _ _ hdle]
      have hp2 : hash k % 2 ^ (s.bucketAt i).depth_ = i % 2 ^ (s.bucketAt i).depth_ := by
        simpa using hplace
      exact hp2.symm
    exact hptr ((hal i (s.indexOf hash k) hi hslot).mpr hcong)

theorem EHT.Aligned_of_eqs {s t : EHT K V} (hdir : t.dir_ = s.dir_)
    (hdepth : ∀ i, i < s.dir_.length → (t.bucketAt i).depth_ = (s.bucketAt i).depth_)
    (hal : s.Aligned) : t.Aligned := by
  intro i j hi hj
  rw [hdir] at hi hj
  rw [hdir, hdepth i hi]
  exact hal i j hi hj

theorem EHT.Placed_of_sub (hash : K → Nat) {s t : EHT K V} (hdir : t.dir_ = s.dir_)
    (hdepth : ∀ i, i < s.dir_.length → (t.bucketAt i).depth_ = (s.bucketAt i).depth_)
    (hsub : ∀ i, i < s.dir_.length → ∀ e ∈ (t.bucketAt i).list_, e ∈ (s.bucketAt i).list_)
    (hpl : s.Placed hash) : t.Placed hash := by
  intro i hi e he
  rw [hdir] at hi
  rw [hdepth i hi]
  exact hpl i hi e (hsub i hi e he)

theorem EHT.bucketAt_remove_depth [DecidableEq K] [DecidableEq V] (hash : K → Nat)
    (s : EHT K V) (k : K) (i : Nat) :
    ((EHT.remove hash s k).2.bucketAt i).depth_ = (s.bucketAt i).depth_ := by
  rw [EHT.remove_state]
  unfold EHT.bucketAt
  simp only
  exact depth_getD_set _ _ _ (Bucket.remove_depth _ _) _

theorem EHT.Aligned_remove [DecidableEq K] [DecidableEq V] (hash : K → Nat)
    (s : EHT K V) (k : K) (hal : s.Aligned) : (EHT.remove hash s k).2.Aligned := by
  refine EHT.Aligned_of_eqs ?_ (fun i _ => EHT.bucketAt_remove_depth hash s k i) hal
  rw [EHT.remove_state]

theorem EHT.Placed_remove [DecidableEq K] [DecidableEq V] (hash : K → Nat)
    (s : EHT K V) (k : K) (hpl : s.Placed hash) : (EHT.remove hash s k).2.Placed hash := by
  refine EHT.Placed_of_sub hash ?_
    (fun i _ => EHT.bucketAt_remove_depth hash s k i) ?_ hpl
  · rw [EHT.remove_state]
  intro i _ e he
  rw [EHT.remove_state] at he
  unfold EHT.bucketAt at he ⊢
  simp only at he
  rcases getD_set_cases s.store (s.dir_.getD (s.indexOf hash k) 0) (s.dir_.getD i 0)
      (((s.store.getD (s.dir_.getD (s.indexOf hash k) 0) emptyBucket).remove k).2)
      emptyBucket with ⟨heq, hji, hlt⟩ | heq
  · rw [heq] at he
    rw [hji]
    exact Bucket.remove_entry_sub _ _ he
  · rw [heq] at he
    exact he

theorem EHT.doubleDir_dir_getD (s : EHT K V) (i : Nat) (hlen0 : 0 < s.dir_.length)
    (hi : i < s.dir_.length + s.dir_.length) :
    s.doubleDir.dir_.getD i 0 = s.dir_.getD (i % s.dir_.length) 0 := by
  unfold EHT.doubleDir
  simp only
  by_cases hc : i < s.dir_.length
  · rw [getD_append_left _ _ _ hc, Nat.mod_eq_of_lt hc]
  · rw [getD_append_right _ _ _ (by omega)]
    congr 1
    have : i % s.dir_.length = (i - s.dir_.length) % s.dir_.length := by
      conv_lhs => rw [show i = (i - s.dir_.length) + 1 * s.dir_.length by omega]
      rw [Nat.add_mul_mod_self_right]
    rw [this, Nat.mod_eq_of_lt (by omega)]

theorem EHT.bucketAt_doubleDir (s : EHT K V) (i : Nat) (hlen0 : 0 < s.dir_.length)
    (hi : i < s.dir_.length + s.dir_.length) :
    s.doubleDir.bucketAt i = s.bucketAt (i % s.dir_.length) := by
  unfold EHT.bucketAt
  rw [EHT.doubleDir_dir_getD s i hlen0 hi]
  rfl

theorem EHT.hasEntry_doubleDir (s : EHT K V) (hwf : s.WF) {k : K} {v : V}
    (h : s.doubleDir.hasEntry k v) : s.hasEntry k v := by
  obtain ⟨i, hi, hmem⟩ := h
  have hlen0 : 0 < s.dir_.length := by
    rw [hwf.1]
    exact Nat.pos_pow_of_pos _ (by omega)
  have hi' : i < s.dir_.length + s.dir_.length := by
    simpa [EHT.doubleDir] using hi
  rw [EHT.bucketAt_doubleDir s i hlen0 hi'] at hmem
  exact ⟨i % s.dir_.length, Nat.mod_lt _ hlen0, hmem⟩

theorem EHT.Aligned_doubleDir (s : EHT K V) (hwf : s.WF) (hal : s.Aligned) :
    s.doubleDir.Aligned := by
  intro i j hi hj
  have hlen0 : 0 < s.dir_.length := by
    rw [hwf.1]
    exact Nat.pos_pow_of_pos _ (by omega)
  have hi' : i < s.dir_.length + s.dir_.length := by simpa [EHT.doubleDir] using hi
  have hj' : j < s.dir_.length + s.dir_.length := by simpa [EHT.doubleDir] using hj
  have hmi : i % s.dir_.length < s.dir_.length := Nat.mod_lt _ hlen0
  have hmj : j % s.dir_.length < s.dir_.length := Nat.mod_lt _ hlen0
  have hdle : (s.bucketAt (i % s.dir_.length)).depth_ ≤ s.global_depth_ :=
    hwf.2.2.1 _ (getD_mem _ 0 hmi)
  have hmod : ∀ a : Nat, a % s.dir_.length % 2 ^ (s.bucketAt (i % s.dir_.length)).depth_ =
      a % 2 ^ (s.bucketAt (i % s.dir_.length)).depth_ := fun a =>
    mod_len_mod_pow a _ _ _ hwf.1 hdle
  rw [EHT.doubleDir_dir_getD s i hlen0 hi', EHT.doubleDir_dir_getD s j hlen0 hj',
    EHT.bucketAt_doubleDir s i hlen0 hi']
  rw [hal (i % s.dir_.length) (j % s.dir_.length) hmi hmj]
  rw [hmod i, hmod j]

theorem EHT.Placed_doubleDir (hash : K → Nat) (s : EHT K V) (hwf : s.WF)
    (hpl : s.Placed hash) : s.doubleDir.Placed hash := by
  intro i hi e he
  have hlen0 : 0 < s.dir_.length := by
    rw [hwf.1]
    exact Nat.pos_pow_of_pos _ (by omega)
  have hi' : i < s.dir_.length + s.dir_.length := by simpa [EHT.doubleDir] using hi
  have hmi : i % s.dir_.length < s.dir_.length := Nat.mod_lt _ hlen0
  have hdle : (s.bucketAt (i % s.dir_.length)).depth_ ≤ s.global_depth_ :=
    hwf.2.2.1 _ (getD_mem _ 0 hmi)
  rw [EHT.bucketAt_doubleDir s i hlen0 hi'] at he ⊢
  have := hpl (i % s.dir_.length) hmi e he
  rw [this]
  exact mod_len_mod_pow i _ _ _ hwf.1 hdle

theorem redirect_getD (dirL : List Nat) (index d i0 i1 i : Nat) (hi : i < dirL.length) :
    (redirect dirL index d i0 i1).getD i 0 =
      if i % 2 ^ d = index % 2 ^ d then (if Nat.testBit i d then i1 else i0)
      else dirL.getD i 0 := by
  unfold redirect
  rw [List.getD_eq_getElem?_getD, List.getElem?_map, List.getElem?_range hi]
  rfl

theorem EHT.splitBucket_dir_length [DecidableEq K] (hash : K → Nat) (s : EHT K V)
    (index : Nat) : (s.splitBucket hash index).dir_.length = s.dir_.length := by
  simp [EHT.splitBucket, redirect_length]

theorem EHT.splitBucket_dir_getD [DecidableEq K] (hash : K → Nat) (s : EHT K V)
    (index i : Nat) (hi : i < s.dir_.length) :
    (s.splitBucket hash index).dir_.getD i 0 =
      if i % 2 ^ (s.bucketAt index).depth_ = index % 2 ^ (s.bucketAt index).depth_ then
        (if Nat.testBit i (s.bucketAt index).depth_ then s.store.length + 1
         else s.store.length)
      else s.dir_.getD i 0 := by
  unfold EHT.splitBucket
  simp only
  exact redirect_getD _ _ _ _ _ _ hi

theorem EHT.splitBucket_bucketAt [DecidableEq K] (hash : K → Nat) (s : EHT K V)
    (index i : Nat) (hwf : s.WF) (hi : i < s.dir_.length) :
    (s.splitBucket hash index).bucketAt i =
      (if i % 2 ^ (s.bucketAt index).depth_ = index % 2 ^ (s.bucketAt index).depth_ then
        (if Nat.testBit i (s.bucketAt index).depth_ then
          (splitParts hash s.bucket_size_ (s.bucketAt index).depth_ (s.bucketAt index).list_).2
         else
          (splitParts hash s.bucket_size_ (s.bucketAt index).depth_ (s.bucketAt index).list_).1)
      else s.bucketAt i) := by
  have hgd := EHT.splitBucket_dir_getD hash s index i hi
  show (s.splitBucket hash index).store.getD ((s.splitBucket hash index).dir_.getD i 0)
      emptyBucket = _
  rw [hgd]
  by_cases hc : i % 2 ^ (s.bucketAt index).depth_ = index % 2 ^ (s.bucketAt index).depth_
  · rw [if_pos hc, if_pos hc]
    by_cases hbit : Nat.testBit i (s.bucketAt index).depth_
    · rw [if_pos hbit, if_pos hbit]
      show (s.store ++ [_, _]).getD (s.store.length + 1) emptyBucket = _
      rw [getD_append_right _ _ _ (by omega)]
      have hone : s.store.length + 1 - s.store.length = 1 := by omega
      rw [hone]
      rfl
    · rw [if_neg hbit, if_neg hbit]
      show (s.store ++ [_, _]).getD s.store.length emptyBucket = _
      rw [getD_append_right _ _ _ (by omega), Nat.sub_self]
      rfl
  · rw [if_neg hc, if_neg hc]
    have hlt : s.dir_.getD i 0 < s.store.length := hwf.2.1 _ (getD_mem _ 0 hi)
    show (s.store ++ [_, _]).getD (s.dir_.getD i 0) emptyBucket = _
    rw [getD_append_left _ _ _ hlt]
    rfl

theorem EHT.hasEntry_splitBucket [DecidableEq K] (hash : K → Nat) (s : EHT K V)
    (index : Nat) (hwf : s.WF) (hind : index < s.dir_.length) {k' : K} {v' : V}
    (h : (s.splitBucket hash index).hasEntry k' v') : s.hasEntry k' v' := by
  obtain ⟨i, hi, hmem⟩ := h
  rw [EHT.splitBucket_dir_length] at hi
  rw [EHT.splitBucket_bucketAt hash s index i hwf hi] at hmem
  by_cases hc : i % 2 ^ (s.bucketAt index).depth_ = index % 2 ^ (s.bucketAt index).depth_
  · rw [if_pos hc] at hmem
    by_cases hbit : Nat.testBit i (s.bucketAt index).depth_
    · rw [if_pos hbit] at hmem
      exact ⟨index, hind,
        ((splitParts_mem hash s.bucket_size_ _ _).2 _ hmem).1⟩
    · rw [if_neg hbit] at hmem
      exact ⟨index, hind,
        ((splitParts_mem hash s.bucket_size_ _ _).1 _ hmem).1⟩
  · rw [if_neg hc] at hmem
    exact ⟨i, hi, hmem⟩

theorem EHT.Aligned_splitBucket [DecidableEq K] (hash : K → Nat) (s : EHT K V)
    (index : Nat) (hwf : s.WF) (hal : s.Aligned) (hind : index < s.dir_.length) :
    (s.splitBucket hash index).Aligned := by
  intro i j hi hj
  rw [EHT.splitBucket_dir_length] at hi hj
  rw [EHT.splitBucket_dir_getD hash s index i hi, EHT.splitBucket_dir_getD hash s index j hj,
    EHT.splitBucket_bucketAt hash s index i hwf hi]
  by_cases hci : i % 2 ^ (s.bucketAt index).depth_ = index % 2 ^ (s.bucketAt index).depth_
  · rw [if_pos hci, if_pos hci]
    by_cases hcj : j % 2 ^ (s.bucketAt index).depth_ = index % 2 ^ (s.bucketAt index).depth_
    · rw [if_pos hcj]
      have hdp : (if Nat.testBit i (s.bucketAt index).depth_ then
          (splitParts hash s.bucket_size_ (s.bucketAt index).depth_
            (s.bucketAt index).list_).2
        else
          (splitParts hash s.bucket_size_ (s.bucketAt index).depth_
            (s.bucketAt index).list_).1).depth_ = (s.bucketAt index).depth_ + 1 := by
        split
        · exact (splitParts_depth hash s.bucket_size_ _ _).2
        · exact (splitParts_depth hash s.bucket_size_ _ _).1
      rw [hdp]
      have hiff1 : ((if Nat.testBit i (s.bucketAt index).depth_ then s.store.length + 1
            else s.store.length) =
          (if Nat.testBit j (s.bucketAt index).depth_ then s.store.length + 1
            else s.store.length)) ↔
          (Nat.testBit i (s.bucketAt index).depth_ =
            Nat.testBit j (s.bucketAt index).depth_) := by
        by_cases hbi : Nat.testBit i (s.bucketAt index).depth_ <;>
          by_cases hbj : Nat.testBit j (s.bucketAt index).depth_ <;>
          simp [hbi, hbj] <;> omega
      rw [hiff1]
      exact (mod_two_pow_succ_iff _ (hci.trans hcj.symm)).symm
    · rw [if_neg hcj]
      have hjlt : s.dir_.getD j 0 < s.store.length := hwf.2.1 _ (getD_mem _ 0 hj)
      have hdp : (if Nat.testBit i (s.bucketAt index).depth_ then
          (splitParts hash s.bucket_size_ (s.bucketAt index).depth_
            (s.bucketAt index).list_).2
        else
          (splitParts hash s.bucket_size_ (s.bucketAt index).depth_
            (s.bucketAt index).list_).1).depth_ = (s.bucketAt index).depth_ + 1 := by
        split
        · exact (splitParts_depth hash s.bucket_size_ _ _).2
        · exact (splitParts_depth hash s.bucket_size_ _ _).1
      rw [hdp]
      constructor
      · intro hptr
        exfalso
        split at hptr <;> omega
      · intro hmod
        exfalso
        have hlow : i % 2 ^ (s.bucketAt index).depth_ = j % 2 ^ (s.bucketAt index).depth_ := by
          have h2 := congrArg (· % 2 ^ (s.bucketAt index).depth_) hmod
          simpa [mod_pow_mod_pow _ _ _ (Nat.le_succ (s.bucketAt index).depth_)] using h2
        exact hcj (hlow.symm.trans hci)
  · rw [if_neg hci, if_neg hci]
    by_cases hcj : j % 2 ^ (s.bucketAt index).depth_ = index % 2 ^ (s.bucketAt index).depth_
    · rw [if_pos hcj]
      have hilt : s.dir_.getD i 0 < s.store.length := hwf.2.1 _ (getD_mem _ 0 hi)
      constructor
      · intro hptr
        exfalso
        split at hptr <;> omega
      · intro hmod
        exfalso
        have hptr_ij : s.dir_.getD i 0 = s.dir_.getD j 0 := (hal i j hi hj).mpr hmod
        have hptr_indexj : s.dir_.getD index 0 = s.dir_.getD j 0 :=
          (hal index j hind hj).mpr hcj.symm
        have hptr_iindex : s.dir_.getD i 0 = s.dir_.getD index 0 :=
          hptr_ij.trans hptr_indexj.symm
        have hbeq : s.bucketAt i = s.bucketAt index := by
          unfold EHT.bucketAt
          rw [hptr_iindex]
        have hcong := (hal i index hi hind).mp hptr_iindex
        rw [hbeq] at hcong
        exact hci hcong
    · rw [if_neg hcj]
      exact hal i j hi hj

theorem EHT.Placed_splitBucket [DecidableEq K] (hash : K → Nat) (s : EHT K V)
    (index : Nat) (hwf : s.WF) (hpl : s.Placed hash) (hind : index < s.dir_.length) :
    (s.splitBucket hash index).Placed hash := by
  intro i hi e he
  rw [EHT.splitBucket_dir_length] at hi
  rw [EHT.splitBucket_bucketAt hash s index i hwf hi] at he ⊢
  by_cases hci : i % 2 ^ (s.bucketAt index).depth_ = index % 2 ^ (s.bucketAt index).depth_
  · rw [if_pos hci] at he ⊢
    have hplc0 := hpl index hind
    by_cases hbi : Nat.testBit i (s.bucketAt index).depth_
    · rw [if_pos hbi] at he ⊢
      obtain ⟨hmem, hbit⟩ := (splitParts_mem hash s.bucket_size_ _ _).2 e he
      rw [(splitParts_depth hash s.bucket_size_ _ _).2]
      have hlow : hash e.1 % 2 ^ (s.bucketAt index).depth_ =
          i % 2 ^ (s.bucketAt index).depth_ := (hplc0 e hmem).trans hci.symm
      refine (mod_two_pow_succ_iff _ hlow).mpr ?_
      rw [hbit, hbi]
    · rw [if_neg hbi] at he ⊢
      obtain ⟨hmem, hbit⟩ := (splitParts_mem hash s.bucket_size_ _ _).1 e he
      rw [(splitParts_depth hash s.bucket_size_ _ _).1]
      have hlow : hash e.1 % 2 ^ (s.bucketAt index).depth_ =
          i % 2 ^ (s.bucketAt index).depth_ := (hplc0 e hmem).trans hci.symm
      refine (mod_two_pow_succ_iff _ hlow).mpr ?_
      have hbi2 : Nat.testBit i (s.bucketAt index).depth_ = false := by
        simpa using hbi
      rw [hbit, hbi2]
  · rw [if_neg hci] at he ⊢
    exact hpl i hi e he

theorem EHT.Aligned_insert_direct [DecidableEq K] (hash : K → Nat) (s : EHT K V)
    (k : K) (v : V) (hal : s.Aligned) :
    ({ s with store := (s.store.set (s.dir_.getD (s.indexOf hash k) 0)
        ((s.store.getD (s.dir_.getD (s.indexOf hash k) 0) emptyBucket).insert k v).2) } :
      EHT K V).Aligned := by
  refine EHT.Aligned_of_eqs ?_ ?_ hal
  · rfl
  intro i _
  unfold EHT.bucketAt
  simp only
  exact depth_getD_set _ _ _ (Bucket.insert_depth _ _ _) _

theorem EHT.Placed_insert_direct [DecidableEq K] (hash : K → Nat) (s : EHT K V)
    (k : K) (v : V) (hwf : s.WF) (hal : s.Aligned) (hpl : s.Placed hash) :
    ({ s with store := (s.store.set (s.dir_.getD (s.indexOf hash k) 0)
        ((s.store.getD (s.dir_.getD (s.indexOf hash k) 0) emptyBucket).insert k v).2) } :
      EHT K V).Placed hash := by
  intro i hi e he
  have hi' : i < s.dir_.length := hi
  have hslot := EHT.slot_lt hash s k hwf
  have hbidx : s.dir_.getD (s.indexOf hash k) 0 < s.store.length :=
    hwf.2.1 _ (getD_mem _ 0 hslot)
  unfold EHT.bucketAt at he ⊢
  simp only at he ⊢
  by_cases hptr : s.dir_.getD i 0 = s.dir_.getD (s.indexOf hash k) 0
  · rw [hptr, getD_set_self _ _ _ _ hbidx] at he ⊢
    rw [Bucket.insert_depth]
    rcases Bucket.insert_entry_sub _ _ _ he with h2 | h2
    · have hold := hpl i hi' e (by unfold EHT.bucketAt; rw [hptr]; exact h2)
      unfold EHT.bucketAt at hold
      rw [hptr] at hold
      exact hold
    · subst h2
      simp only
      have hdle : (s.store.getD (s.dir_.getD (s.indexOf hash k) 0) emptyBucket).depth_ ≤
          s.global_depth_ := hwf.2.2.1 _ (getD_mem _ 0 hslot)
      have hbeq : s.bucketAt i =
          s.store.getD (s.dir_.getD (s.indexOf hash k) 0) emptyBucket := by
        unfold EHT.bucketAt
        rw [hptr]
      have hcong := (hal i (s.indexOf hash k) hi' hslot).mp hptr
      rw [hbeq] at hcong
      rw [hcong]
      exact (mod_pow_mod_pow (hash k) _ s.global_depth_ hdle).symm
  · rw [getD_set_ne _ _ _ hptr] at he ⊢
    exact hpl i hi' e he

theorem EHT.hasEntry_insert_direct [DecidableEq K] (hash : K → Nat) (s : EHT K V)
    (k : K) (v : V) {k' : K} {v' : V}
    (h : ({ s with store := (s.store.set (s.dir_.getD (s.indexOf hash k) 0)
        ((s.store.getD (s.dir_.getD (s.indexOf hash k) 0) emptyBucket).insert k v).2) } :
      EHT K V).hasEntry k' v') :
    s.hasEntry k' v' ∨ (k' = k ∧ v' = v) := by
  obtain ⟨i, hi, hmem⟩ := h
  have hi' : i < s.dir_.length := hi
  unfold EHT.bucketAt at hmem
  simp only at hmem
  rcases getD_set_cases s.store (s.dir_.getD (s.indexOf hash k) 0) (s.dir_.getD i 0)
      ((s.store.getD (s.dir_.getD (s.indexOf hash k) 0) emptyBucket).insert k v).2
      emptyBucket with ⟨heq, hji, hlt⟩ | heq
  · rw [heq] at hmem
    rcases Bucket.insert_entry_sub _ _ _ hmem with h2 | h2
    · refine Or.inl ⟨i, hi', ?_⟩
      unfold EHT.bucketAt
      rw [hji]
      exact h2
    · exact Or.inr (Prod.mk.injEq .. ▸ h2)
  · rw [heq] at hmem
    exact Or.inl ⟨i, hi', hmem⟩

theorem EHT.insertGo_APE [DecidableEq K] (hash : K → Nat) (k : K) (v : V) :
    ∀ (fuel : Nat) (s s' : EHT K V), s.WF → s.Aligned → s.Placed hash →
      EHT.insertGo hash k v fuel s = some s' →
      s'.Aligned ∧ s'.Placed hash ∧
      (∀ k' v', s'.hasEntry k' v' → s.hasEntry k' v' ∨ (k' = k ∧ v' = v)) := by
  intro fuel
  induction fuel with
  | zero => intro s s' _ _ _ h; cases h
  | succ fuel ih =>
    intro s s' hwf hal hpl h
    rw [EHT.insertGo] at h
    simp only at h
    by_cases hb : ((s.store.getD (s.dir_.getD (s.indexOf hash k) 0) emptyBucket).insert k v).1 = true
    · rw [if_pos hb] at h
      cases h
      exact ⟨EHT.Aligned_insert_direct hash s k v hal,
        EHT.Placed_insert_direct hash s k v hwf hal hpl,
        fun k' v' he => EHT.hasEntry_insert_direct hash s k v he⟩
    · rw [if_neg hb] at h
      have hwf1 :
          (if (s.store.getD (s.dir_.getD (s.indexOf hash k) 0) emptyBucket).depth_ =
              s.global_depth_ then s.doubleDir else s).WF := by
        split
        · exact EHT.WF_doubleDir s hwf
        · exact hwf
      have hal1 :
          (if (s.store.getD (s.dir_.getD (s.indexOf hash k) 0) emptyBucket).depth_ =
              s.global_depth_ then s.doubleDir else s).Aligned := by
        split
        · exact EHT.Aligned_doubleDir s hwf hal
        · exact hal
      have hpl1 :
          (if (s.store.getD (s.dir_.getD (s.indexOf hash k) 0) emptyBucket).depth_ =
              s.global_depth_ then s.doubleDir else s).Placed hash := by
        split
        · exact EHT.Placed_doubleDir hash s hwf hpl
        · exact hpl
      have hent1 : ∀ (k' : K) (v' : V),
          (if (s.store.getD (s.dir_.getD (s.indexOf hash k) 0) emptyBucket).depth_ =
              s.global_depth_ then s.doubleDir else s).hasEntry k' v' →
            s.hasEntry k' v' := by
        split
        · exact fun k' v' he => EHT.hasEntry_doubleDir s hwf he
        · exact fun k' v' he => he
      have hind : s.indexOf hash k <
          (if (s.store.getD (s.dir_.getD (s.indexOf hash k) 0) emptyBucket).depth_ =
              s.global_depth_ then s.doubleDir else s).dir_.length := by
        have hs := EHT.slot_lt hash s k hwf
        split
        · simp only [EHT.doubleDir, List.length_append]
          omega
        · exact hs
      set s1 := if (s.store.getD (s.dir_.getD (s.indexOf hash k) 0) emptyBucket).depth_ =
          s.global_depth_ then s.doubleDir else s with hs1
      by_cases hlt :
          (s1.store.getD (s1.dir_.getD (s.indexOf hash k) 0) emptyBucket).depth_ <
            s1.global_depth_
      · rw [if_pos hlt] at h
        obtain ⟨al2, pl2, ent2⟩ := ih _ s'
          (EHT.WF_splitBucket hash s1 _ hwf1 hlt)
          (EHT.Aligned_splitBucket hash s1 _ hwf1 hal1 hind)
          (EHT.Placed_splitBucket hash s1 _ hwf1 hpl1 hind)
          h
        refine ⟨al2, pl2, fun k' v' he => ?_⟩
        rcases ent2 k' v' he with h2 | h2
        · exact Or.inl (hent1 k' v' (EHT.hasEntry_splitBucket hash s1 _ hwf1 hind h2))
        · exact Or.inr h2
      · rw [if_neg hlt] at h
        exact (Option.some.inj h) ▸
          ⟨hal1, hpl1, fun k' v' he => Or.inl (hent1 k' v' he)⟩

/-- With bucket capacity 1 and the entry (0, 10) already stored in the slot-0
bucket, the recursive insert of key 0 can never land: `Bucket::Insert`
refuses (the bucket is full before the overwrite scan is reached), and every
split routes the lone entry — hash bit `depth_` of key 0 is 0 — into the
bit-0 bucket referenced by slot 0, which is full again, so the recursion
repeats at every depth and the fuelled model answers `none` at every fuel. -/
theorem EHT.insertGo_dup_cap1 : ∀ (fuel : Nat) (s : EHT Nat Nat),
    s.bucket_size_ = 1 → 0 < s.dir_.length → (s.bucketAt 0).size_ = 1 →
    (s.bucketAt 0).list_ = [(0, 10)] → (s.bucketAt 0).depth_ ≤ s.global_depth_ →
    EHT.insertGo id 0 12 fuel s = none := by
  intro fuel
  induction fuel with
  | zero => intro s _ _ _ _ _; rfl
  | succ n ih =>
    intro s hbs hdl hsz hlist hdg
    obtain ⟨d, hdd⟩ : ∃ d, (s.bucketAt 0).depth_ = d := ⟨_, rfl⟩
    have heta : s.bucketAt 0 =
        (⟨(s.bucketAt 0).size_, (s.bucketAt 0).depth_, (s.bucketAt 0).list_⟩ :
          Bucket Nat Nat) := rfl
    rw [hsz, hlist, hdd] at heta
    rw [hdd] at hdg
    have heta' : s.store.getD (s.dir_.getD 0 0) emptyBucket =
        (⟨1, d, [(0, 10)]⟩ : Bucket Nat Nat) := heta
    have key : ∀ t : EHT Nat Nat, t.bucket_size_ = 1 → 0 < t.dir_.length →
        t.store.getD (t.dir_.getD 0 0) emptyBucket = (⟨1, d, [(0, 10)]⟩ : Bucket Nat Nat) →
        d < t.global_depth_ →
        EHT.insertGo id 0 12 n (t.splitBucket id 0) = none := by
      intro t hbs1 hdl1 hb1 hdg1
      have hparts : (splitParts id 1 d [((0 : Nat), (10 : Nat))]).1 =
          (⟨1, d + 1, [(0, 10)]⟩ : Bucket Nat Nat) := by
        unfold splitParts
        rw [List.foldl_cons, List.foldl_nil]
        unfold splitFold
        rw [id_eq, Nat.zero_testBit]
        rfl
      have hdg0 : (t.splitBucket id 0).dir_.getD 0 0 = t.store.length := by
        rw [EHT.splitBucket_dir_getD id t 0 0 hdl1, if_pos rfl, Nat.zero_testBit]
        simp only [Bool.false_eq_true, if_false]
      have hsb : (t.splitBucket id 0).bucketAt 0 =
          (⟨1, d + 1, [(0, 10)]⟩ : Bucket Nat Nat) := by
        show (t.splitBucket id 0).store.getD ((t.splitBucket id 0).dir_.getD 0 0)
          emptyBucket = _
        rw [hdg0]
        show (t.store ++
            [(splitParts id t.bucket_size_
                (t.store.getD (t.dir_.getD 0 0) emptyBucket).depth_
                (t.store.getD (t.dir_.getD 0 0) emptyBucket).list_).1,
              (splitParts id t.bucket_size_
                (t.store.getD (t.dir_.getD 0 0) emptyBucket).depth_
                (t.store.getD (t.dir_.getD 0 0) emptyBucket).list_).2]).getD
            t.store.length emptyBucket = _
        rw [getD_append_right _ _ _ (le_refl _), Nat.sub_self, hb1, hbs1]
        show (splitParts id 1 (⟨1, d, [(0, 10)]⟩ : Bucket Nat Nat).depth_
          (⟨1, d, [(0, 10)]⟩ : Bucket Nat Nat).list_).1 = _
        exact hparts
      apply ih
      · exact hbs1
      · rw [EHT.splitBucket_dir_length]
        exact hdl1
      · rw [hsb]
      · rw [hsb]
      · rw [hsb]
        show d + 1 ≤ (t.splitBucket id 0).global_depth_
        exact hdg1
    have hidx : s.indexOf id 0 = 0 := by
      simp [EHT.indexOf]
    have hins : ((⟨1, d, [((0 : Nat), (10 : Nat))]⟩ : Bucket Nat Nat).insert 0 12).1 =
        false := rfl
    rw [EHT.insertGo]
    simp only [hidx]
    simp only [heta', hins, Bool.false_eq_true, if_false]
    by_cases hdcase : d = s.global_depth_
    · rw [if_pos hdcase]
      have hlen2 : 0 < s.doubleDir.dir_.length := by
        show 0 < (s.dir_ ++ s.dir_).length
        rw [List.length_append]
        omega
      have hgd2 : s.doubleDir.global_depth_ = s.global_depth_ + 1 := rfl
      have hb2 : s.doubleDir.store.getD (s.doubleDir.dir_.getD 0 0) emptyBucket =
          (⟨1, d, [(0, 10)]⟩ : Bucket Nat Nat) := by
        show s.doubleDir.bucketAt 0 = _
        rw [EHT.bucketAt_doubleDir s 0 hdl (by omega), Nat.zero_mod]
        exact heta
      simp only [hb2]
      rw [if_pos (show d < s.doubleDir.global_depth_ from by rw [hgd2]; omega)]
      exact key s.doubleDir hbs hlen2 hb2 (by rw [hgd2]; omega)
    · rw [if_neg hdcase]
      simp only [heta']
      rw [if_pos (show d < s.global_depth_ from by omega)]
      exact key s hbs hdl heta' (by omega)

/-- C2 counterexample: in the capacity-2 table holding (0, 10) and (1, 11),
key 0 is present and its bucket is full to `bucket_size`; inserting (0, 12)
overwrites the value, but it restructures the table: global depth 0 becomes
1, directory length 1 becomes 2, bucket count 1 becomes 2 — refuting the
claim that inserting a present key never restructures, even when the bucket
is full. Worse, in the capacity-1 table holding (0, 10), key 0 is present
and its bucket is full, and inserting (0, 12) never returns at all: every
split refills the lone slot, so the recursive insert diverges (`none` at
every fuel) — refuting in the strongest form the claim that the insert
"returns" with the directory unchanged. -/
theorem C2_counterexample :
    c2Table.find id 0 = some 10 ∧
    (c2Table.bucketAt (c2Table.indexOf id 0)).isFull = true ∧
    c2Table.global_depth_ = 0 ∧ c2Table.dir_.length = 1 ∧ c2Table.num_buckets_ = 1 ∧
    EHT.insertGo id 0 12 8 c2Table = some c2TableAfter ∧
    c2TableAfter.find id 0 = some 12 ∧
    c2TableAfter.global_depth_ = 1 ∧ c2TableAfter.dir_.length = 2 ∧
    c2TableAfter.num_buckets_ = 2 ∧
    c2OneTable.bucket_size_ = 1 ∧
    c2OneTable.find id 0 = some 10 ∧
    (c2OneTable.bucketAt (c2OneTable.indexOf id 0)).isFull = true ∧
    EHT.insertDiverges id 0 12 c2OneTable := by
  refine ⟨by decide, by decide, by decide, by decide, by decide, by decide, by decide,
    by decide, by decide, by decide, by decide, by decide, by decide, ?_⟩
  intro fuel
  exact EHT.insertGo_dup_cap1 fuel c2OneTable (by decide) (by decide) (by decide)
    (by decide) (by decide)

theorem countP_updf (n f : Nat) (ev : Nat → Bool) (b : Bool) (hf : f < n) :
    (List.range n).countP (fun g => updf ev f b g) +
      (if ev f = true then 1 else 0) =
    (List.range n).countP (fun g => ev g) + (if b = true then 1 else 0) := by
  induction n with
  | zero => exact absurd hf (Nat.not_lt_zero f)
  | succ n ih =>
    rw [List.range_succ, List.countP_append, List.countP_append]
    by_cases hfn : f = n
    · subst hfn
      have hcongr : (List.range f).countP (fun g => updf ev f b g) =
          (List.range f).countP (fun g => ev g) := by
        apply List.countP_congr
        intro g hg
        have hne : g ≠ f := by
          have := List.mem_range.mp hg
          omega
        simp [updf, hne]
      rw [hcongr]
      have h1 : List.countP (fun g => updf ev f b g) [f] = (if b = true then 1 else 0) := by
        simp only [List.countP_cons, List.countP_nil, updf, if_pos rfl]
        cases b <;> simp
      have h2 : List.countP (fun g => ev g) [f] = (if ev f = true then 1 else 0) := by
        simp only [List.countP_cons, List.countP_nil]
        cases hevf : ev f <;> simp [hevf]
      rw [h1, h2]
      omega
    · have hfn' : f < n := by omega
      have h1 : List.countP (fun g => updf ev f b g) [n] =
          List.countP (fun g => ev g) [n] := by
        simp only [List.countP_cons, List.countP_nil, updf]
        rw [if_neg (Ne.symm hfn)]
      rw [h1]
      have := ih hfn'
      omega

theorem countP_range_le (n : Nat) (p : Nat → Bool) : (List.range n).countP p ≤ n := by
  have h := List.countP_le_length (l := List.range n) p
  simpa using h

theorem countP_updf_set_false (n f : Nat) (ev : Nat → Bool) (hf : f < n)
    (hev : ev f = true) :
    (List.range n).countP (fun g => updf ev f false g) + 1 =
    (List.range n).countP (fun g => ev g) := by
  have h := countP_updf n f ev false hf
  rw [hev, if_pos rfl, if_neg (by decide)] at h
  omega

theorem countP_updf_set_true (n f : Nat) (ev : Nat → Bool) (hf : f < n)
    (hev : ev f = false) :
    (List.range n).countP (fun g => updf ev f true g) =
    (List.range n).countP (fun g => ev g) + 1 := by
  have h := countP_updf n f ev true hf
  rw [hev, if_pos rfl, if_neg (by decide)] at h
  omega

theorem countP_updf_same (n f : Nat) (ev : Nat → Bool) (b : Bool) (hf : f < n)
    (hev : ev f = b) :
    (List.range n).countP (fun g => updf ev f b g) =
    (List.range n).countP (fun g => ev g) := by
  have h := countP_updf n f ev b hf
  rw [hev] at h
  cases b <;> omega

theorem LRUK.countEvict_pos (r : LRUK) (f : Nat) (hf : f < r.replacer_size_)
    (he : r.is_evictable_ f = true) : 1 ≤ r.countEvict := by
  unfold LRUK.countEvict
  have h5 : 0 < (List.range r.replacer_size_).countP (fun g => r.is_evictable_ g) :=
    List.countP_pos.mpr ⟨f, List.mem_range.mpr hf, by simpa using he⟩
  omega

theorem LRUK.countEvict_le (r : LRUK) : r.countEvict ≤ r.replacer_size_ := by
  unfold LRUK.countEvict
  calc (List.range r.replacer_size_).countP (fun g => r.is_evictable_ g)
      ≤ (List.range r.replacer_size_).length := List.countP_le_length _
    _ = r.replacer_size_ := List.length_range _

/-- Re-establishing the replacer invariant after a victim frame `f` is
cleared: count zeroed, flag cleared, `curr_size_` decremented, and the
recency lists replaced by lists that keep every other member. -/
theorem LRUK.Inv_clear (r : LRUK) (f : Nat) (hl1 hl2 : List Nat) (hInv : LRUK.Inv r)
    (hf : f < r.replacer_size_) (hev : r.is_evictable_ f = true)
    (hmem : ∀ g, g ≠ f → (g ∈ r.history_list_ ∨ g ∈ r.cache_list_) →
      (g ∈ hl1 ∨ g ∈ hl2)) :
    LRUK.Inv { r with curr_size_ := decWrap r.curr_size_,
                      access_count_ := updf r.access_count_ f 0,
                      is_evictable_ := updf r.is_evictable_ f false,
                      history_list_ := hl1, cache_list_ := hl2 } := by
  obtain ⟨hsz, hcnt, h1, h2, h3⟩ := hInv
  have hcp := countP_updf_set_false r.replacer_size_ f r.is_evictable_ hf hev
  have hpos := LRUK.countEvict_pos r f hf hev
  have hle := LRUK.countEvict_le r
  unfold LRUK.countEvict at hpos hle
  refine ⟨hsz, ?_, ?_, ?_, ?_⟩
  · show decWrap r.curr_size_ =
      (List.range r.replacer_size_).countP (fun g => updf r.is_evictable_ f false g)
    unfold decWrap
    rw [hcnt]
    unfold LRUK.countEvict
    omega
  · intro g hg
    by_cases hgf : g = f
    · subst hgf
      simp [updf] at hg
    · have hg' : r.is_evictable_ g = true := by simpa [updf, hgf] using hg
      have := h1 g hg'
      simpa [updf, hgf]
  · intro g hg
    by_cases hgf : g = f
    · subst hgf
      simp [updf] at hg
    · have hg' : 1 ≤ r.access_count_ g := by simpa [updf, hgf] using hg
      exact h2 g hg'
  · intro g hg
    by_cases hgf : g = f
    · subst hgf
      simp [updf] at hg
    · have hg' : 1 ≤ r.access_count_ g := by simpa [updf, hgf] using hg
      exact hmem g hgf (h3 g hg')

/-- Re-establishing the replacer invariant after `RecordAccess`: the count
of `f` is bumped and the recency lists change, keeping every other member
and placing `f` in a list (unless the lists are untouched and `f` was
already known). -/
theorem LRUK.Inv_relists (r : LRUK) (f : Nat) (hl1 hl2 : List Nat) (hInv : LRUK.Inv r)
    (hf : f < r.replacer_size_)
    (hmemf : f ∈ hl1 ∨ f ∈ hl2 ∨
      (hl1 = r.history_list_ ∧ hl2 = r.cache_list_ ∧ 1 ≤ r.access_count_ f))
    (hmem : ∀ g, g ≠ f → (g ∈ r.history_list_ ∨ g ∈ r.cache_list_) →
      (g ∈ hl1 ∨ g ∈ hl2)) :
    LRUK.Inv { r with access_count_ := updf r.access_count_ f (r.access_count_ f + 1),
                      history_list_ := hl1, cache_list_ := hl2 } := by
  obtain ⟨hsz, hcnt, h1, h2, h3⟩ := hInv
  refine ⟨hsz, ?_, ?_, ?_, ?_⟩
  · exact hcnt
  · intro g hg
    by_cases hgf : g = f
    · subst hgf
      show 1 ≤ updf r.access_count_ g (r.access_count_ g + 1) g
      simp [updf]
    · have hg' : r.is_evictable_ g = true := hg
      have := h1 g hg'
      simpa [updf, hgf]
  · intro g hg
    by_cases hgf : g = f
    · subst hgf
      exact hf
    · have hg' : 1 ≤ r.access_count_ g := by simpa [updf, hgf] using hg
      exact h2 g hg'
  · intro g hg
    by_cases hgf : g = f
    · subst hgf
      rcases hmemf with hm | hm | ⟨he1, he2, hc⟩
      · exact Or.inl hm
      · exact Or.inr hm
      · show g ∈ hl1 ∨ g ∈ hl2
        rw [he1, he2]
        exact h3 g hc
    · have hg' : 1 ≤ r.access_count_ g := by simpa [updf, hgf] using hg
      exact hmem g hgf (h3 g hg')

theorem LRUK.evict_progress (r : LRUK) (hInv : LRUK.Inv r) (g : Nat)
    (hg : r.is_evictable_ g = true) : ∃ f r', r.evict = (some f, r') := by
  obtain ⟨hsz, hcnt, h1, h2, h3⟩ := hInv
  have hgN : g < r.replacer_size_ := h2 g (h1 g hg)
  have hpos : 1 ≤ r.countEvict := LRUK.countEvict_pos r g hgN hg
  unfold LRUK.evict
  rw [if_neg (by omega)]
  cases hh : r.history_list_.reverse.find? (fun f => r.is_evictable_ f) with
  | some f => exact ⟨f, _, rfl⟩
  | none =>
    rcases h3 g (h1 g hg) with hmem | hmem
    · exfalso
      have := List.find?_eq_none.mp hh g (List.mem_reverse.mpr hmem)
      simp [hg] at this
    · cases hh2 : r.cache_list_.reverse.find? (fun f => r.is_evictable_ f) with
      | some f => exact ⟨f, _, rfl⟩
      | none =>
        exfalso
        have := List.find?_eq_none.mp hh2 g (List.mem_reverse.mpr hmem)
        simp [hg] at this

theorem LRUK.evict_post (r : LRUK) (f : Nat) (r' : LRUK) (hInv : LRUK.Inv r)
    (h : r.evict = (some f, r')) :
    r.is_evictable_ f = true ∧ f < r.replacer_size_ ∧ LRUK.Inv r' ∧
    r'.is_evictable_ = updf r.is_evictable_ f false ∧
    r'.access_count_ = updf r.access_count_ f 0 ∧
    r'.replacer_size_ = r.replacer_size_ := by
  have hInv' := hInv
  obtain ⟨hsz, hcnt, h1, h2, h3⟩ := hInv'
  unfold LRUK.evict at h
  by_cases hc : r.curr_size_ = 0
  · rw [if_pos hc] at h
    obtain ⟨h4, -⟩ := Prod.mk.injEq .. ▸ h
    cases h4
  · rw [if_neg hc] at h
    cases hh : r.history_list_.reverse.find? (fun g => r.is_evictable_ g) with
    | some f0 =>
      rw [hh] at h
      obtain ⟨hf0, hr⟩ := Prod.mk.injEq .. ▸ h
      cases Option.some.inj hf0
      have hev : r.is_evictable_ f = true := by simpa using List.find?_some hh
      have hfN : f < r.replacer_size_ := h2 f (h1 f hev)
      subst hr
      refine ⟨hev, hfN, ?_, rfl, rfl, rfl⟩
      refine LRUK.Inv_clear r f _ _ hInv hfN hev ?_
      intro g hgf hmem
      rcases hmem with hm | hm
      · exact Or.inl (List.mem_erase_of_ne hgf |>.mpr hm)
      · exact Or.inr hm
    | none =>
      rw [hh] at h
      cases hh2 : r.cache_list_.reverse.find? (fun g => r.is_evictable_ g) with
      | some f0 =>
        rw [hh2] at h
        obtain ⟨hf0, hr⟩ := Prod.mk.injEq .. ▸ h
        cases Option.some.inj hf0
        have hev : r.is_evictable_ f = true := by simpa using List.find?_some hh2
        have hfN : f < r.replacer_size_ := h2 f (h1 f hev)
        subst hr
        refine ⟨hev, hfN, ?_, rfl, rfl, rfl⟩
        refine LRUK.Inv_clear r f _ _ hInv hfN hev ?_
        intro g hgf hmem
        rcases hmem with hm | hm
        · exact Or.inl hm
        · exact Or.inr (List.mem_erase_of_ne hgf |>.mpr hm)
      | none =>
        rw [hh2] at h
        obtain ⟨h4, -⟩ := Prod.mk.injEq .. ▸ h
        cases h4

theorem LRUK.recordAccess_post (f : Nat) (r : LRUK) (hInv : LRUK.Inv r)
    (hf : f < r.replacer_size_) :
    ∃ r1, LRUK.recordAccess f r = some r1 ∧ LRUK.Inv r1 ∧
      r1.is_evictable_ = r.is_evictable_ ∧ r1.curr_size_ = r.curr_size_ ∧
      r1.replacer_size_ = r.replacer_size_ ∧
      r1.access_count_ = updf r.access_count_ f (r.access_count_ f + 1) := by
  unfold LRUK.recordAccess
  rw [if_neg (by omega)]
  simp only
  by_cases hck : r.access_count_ f + 1 = r.k_
  · rw [if_pos hck]
    refine ⟨_, rfl, ?_, rfl, rfl, rfl, rfl⟩
    refine LRUK.Inv_relists r f _ _ hInv hf (Or.inr (Or.inl (List.mem_cons_self _ _))) ?_
    intro g hgf hmem
    rcases hmem with hm | hm
    · exact Or.inl (List.mem_erase_of_ne hgf |>.mpr hm)
    · exact Or.inr (List.mem_cons_of_mem _ hm)
  · rw [if_neg hck]
    by_cases hgt : r.access_count_ f + 1 > r.k_
    · rw [if_pos hgt]
      refine ⟨_, rfl, ?_, rfl, rfl, rfl, rfl⟩
      refine LRUK.Inv_relists r f _ _ hInv hf (Or.inr (Or.inl (List.mem_cons_self _ _))) ?_
      intro g hgf hmem
      rcases hmem with hm | hm
      · exact Or.inl hm
      · exact Or.inr (List.mem_cons_of_mem _ (List.mem_erase_of_ne hgf |>.mpr hm))
    · rw [if_neg hgt]
      by_cases h1c : r.access_count_ f + 1 = 1
      · rw [if_pos h1c]
        refine ⟨_, rfl, ?_, rfl, rfl, rfl, rfl⟩
        refine LRUK.Inv_relists r f _ _ hInv hf (Or.inl (List.mem_cons_self _ _)) ?_
        intro g hgf hmem
        rcases hmem with hm | hm
        · exact Or.inl (List.mem_cons_of_mem _ hm)
        · exact Or.inr hm
      · rw [if_neg h1c]
        refine ⟨_, rfl, ?_, rfl, rfl, rfl, rfl⟩
        refine LRUK.Inv_relists r f _ _ hInv hf (Or.inr (Or.inr ⟨rfl, rfl, by omega⟩)) ?_
        intro g _ hmem
        exact hmem

theorem LRUK.setEvictable_post (f : Nat) (b : Bool) (r : LRUK) (hInv : LRUK.Inv r)
    (hf : f < r.replacer_size_) :
    ∃ r1, LRUK.setEvictable f b r = some r1 ∧ LRUK.Inv r1 ∧
      r1.access_count_ = r.access_count_ ∧
      r1.history_list_ = r.history_list_ ∧ r1.cache_list_ = r.cache_list_ ∧
      r1.replacer_size_ = r.replacer_size_ ∧
      (1 ≤ r.access_count_ f → r1.is_evictable_ = updf r.is_evictable_ f b) ∧
      (r.access_count_ f = 0 → r1 = r) := by
  have hInv' := hInv
  obtain ⟨hsz, hcnt, h1, h2, h3⟩ := hInv'
  unfold LRUK.setEvictable
  rw [if_neg (by omega)]
  by_cases hc0 : r.access_count_ f = 0
  · rw [if_pos hc0]
    exact ⟨r, rfl, hInv, rfl, rfl, rfl, rfl, fun hc => absurd hc0 (by omega), fun _ => rfl⟩
  · rw [if_neg hc0]
    simp only
    refine ⟨_, rfl, ?_, rfl, rfl, rfl, rfl, fun _ => rfl, fun hc => absurd hc hc0⟩
    refine ⟨hsz, ?_, ?_, ?_, ?_⟩
    · show (if (!r.is_evictable_ f && b) = true then
          incWrap (if (r.is_evictable_ f && !b) = true then decWrap r.curr_size_
            else r.curr_size_)
        else (if (r.is_evictable_ f && !b) = true then decWrap r.curr_size_
            else r.curr_size_)) =
        (List.range r.replacer_size_).countP (fun g => updf r.is_evictable_ f b g)
      have hup := countP_range_le r.replacer_size_ (fun g => updf r.is_evictable_ f b g)
      unfold LRUK.countEvict at hcnt
      unfold decWrap incWrap
      cases hev : r.is_evictable_ f <;> cases b
      · have hcp := countP_updf_same r.replacer_size_ f r.is_evictable_ false hf hev
        rw [if_neg (by decide), if_neg (by decide)]
        omega
      · have hcp := countP_updf_set_true r.replacer_size_ f r.is_evictable_ hf hev
        rw [if_pos (by decide), if_neg (by decide)]
        omega
      · have hcp := countP_updf_set_false r.replacer_size_ f r.is_evictable_ hf hev
        rw [if_neg (by decide), if_pos (by decide)]
        omega
      · have hcp := countP_updf_same r.replacer_size_ f r.is_evictable_ true hf hev
        rw [if_neg (by decide), if_neg (by decide)]
        omega
    · intro g hg
      by_cases hgf : g = f
      · subst hgf
        show 1 ≤ r.access_count_ g
        omega
      · have hg' : r.is_evictable_ g = true := by simpa [updf, hgf] using hg
        exact h1 g hg'
    · exact h2
    · exact h3

theorem LRUK.remove_post (f : Nat) (r : LRUK) (hInv : LRUK.Inv r)
    (hf : f < r.replacer_size_) (hcnt1 : 1 ≤ r.access_count_ f)
    (hev : r.is_evictable_ f = true) :
    ∃ r1, LRUK.remove f r = some r1 ∧ LRUK.Inv r1 ∧
      r1.is_evictable_ = updf r.is_evictable_ f false ∧
      r1.access_count_ = updf r.access_count_ f 0 ∧
      r1.replacer_size_ = r.replacer_size_ := by
  unfold LRUK.remove
  rw [if_neg (by omega), if_neg (by omega)]
  simp only
  by_cases hk : r.access_count_ f ≥ r.k_
  · rw [if_pos hk]
    refine ⟨_, rfl, ?_, rfl, rfl, rfl⟩
    refine LRUK.Inv_clear r f _ _ hInv hf hev ?_
    intro g hgf hmem
    rcases hmem with hm | hm
    · exact Or.inl hm
    · exact Or.inr (List.mem_erase_of_ne hgf |>.mpr hm)
  · rw [if_neg hk]
    refine ⟨_, rfl, ?_, rfl, rfl, rfl⟩
    refine LRUK.Inv_clear r f _ _ hInv hf hev ?_
    intro g hgf hmem
    rcases hmem with hm | hm
    · exact Or.inl (List.mem_erase_of_ne hgf |>.mpr hm)
    · exact Or.inr hm

theorem BPM.pageAt_init (poolSize k bucketSize : Nat) (disk0 : Int → Nat) (f : Nat)
    (hf : f < poolSize) :
    (BPM.init poolSize k bucketSize disk0).pageAt f = Page.empty := by
  unfold BPM.pageAt BPM.init
  simp [List.getD_eq_getElem?_getD, List.getElem?_replicate, hf]

theorem BPM.Inv_init (poolSize k bucketSize : Nat) (disk0 : Int → Nat)
    (hN : poolSize < 2 ^ 64) : (BPM.init poolSize k bucketSize disk0).Inv := by
  refine ⟨by simp [BPM.init], rfl, ⟨hN, ?_, ?_, ?_, ?_⟩, EHT.WF_init Int Nat bucketSize,
    ?_, ?_, List.nodup_range poolSize, ?_, ?_, ?_, ?_, ?_⟩
  · show 0 = LRUK.countEvict _
    unfold LRUK.countEvict
    simp [BPM.init, LRUK.init]
  · intro f hf
    simp [BPM.init, LRUK.init] at hf
  · intro f hf
    simp [BPM.init, LRUK.init] at hf
  · intro f hf
    simp [BPM.init, LRUK.init] at hf
  · intro i j hi hj
    have hi0 : i = 0 := by simpa [BPM.init, EHT.init] using hi
    have hj0 : j = 0 := by simpa [BPM.init, EHT.init] using hj
    subst hi0
    subst hj0
    exact iff_of_true rfl rfl
  · intro i hi e he
    have hi0 : i = 0 := by simpa [BPM.init, EHT.init] using hi
    subst hi0
    simp [BPM.init, EHT.init, EHT.bucketAt] at he
  · intro f hf
    exact ⟨List.mem_range.mp hf, rfl⟩
  · intro f hf
    rw [BPM.pageAt_init poolSize k bucketSize disk0 f hf]
    exact le_refl 0
  · intro f hf _
    exact Or.inl (List.mem_range.mpr hf)
  · intro kk v he
    exact absurd he (EHT.hasEntry_init Int Nat bucketSize kk v)
  · intro k1 k2 v h1 h2
    exact absurd h1 (EHT.hasEntry_init Int Nat bucketSize k1 v)

theorem BPM.Inv_disk (s : BPM) (d0 : Int → Nat) (h : s.Inv) :
    BPM.Inv { s with disk := d0 } := h

theorem BPM.flushPage_state (pid : Int) (s : BPM) :
    (BPM.flushPage pid s).2 = s ∨
    ∃ f, (BPM.flushPage pid s).2 = { s with disk := updInt s.disk pid (s.pageAt f).data_ } := by
  unfold BPM.flushPage
  split
  · exact Or.inl rfl
  · cases hf : s.page_table_.find stdHashInt pid with
    | none => exact Or.inl rfl
    | some f => exact Or.inr ⟨f, rfl⟩

theorem BPM.Inv_flushPage (pid : Int) (s : BPM) (h : s.Inv) :
    ((BPM.flushPage pid s).2).Inv := by
  rcases BPM.flushPage_state pid s with he | ⟨f, he⟩
  · rw [he]
    exact h
  · rw [he]
    exact BPM.Inv_disk s _ h

theorem BPM.Inv_flushAllPages (s : BPM) (h : s.Inv) : (BPM.flushAllPages s).Inv := by
  unfold BPM.flushAllPages
  generalize List.range s.pool_size_ = l
  induction l generalizing s with
  | nil => simpa using h
  | cons x t ih =>
    rw [List.foldl_cons]
    exact ih _ (BPM.Inv_flushPage _ _ h)

/-- The pool invariant survives replacing one frame's page by a page with
the same pin count and page id (a byte write or a dirty-flag change). -/
theorem BPM.Inv_set_page (s : BPM) (f : Nat) (p' : Page)
    (hpin : p'.pin_count_ = (s.pageAt f).pin_count_)
    (hpid : p'.page_id_ = (s.pageAt f).page_id_)
    (h : s.Inv) : BPM.Inv { s with pages_ := s.pages_.set f p' } := by
  obtain ⟨hlen, hrs, hR, hWF, hAl, hPl, hND, hfree, hpin0, hP3, hres, hinj⟩ := h
  have hpin' : ∀ g, (((s.pages_.set f p').getD g Page.empty)).pin_count_ =
      (s.pageAt g).pin_count_ := by
    intro g
    rcases getD_set_cases s.pages_ f g p' Page.empty with ⟨heq, hgf, hlt⟩ | heq
    · rw [heq]
      subst hgf
      exact hpin
    · rw [heq]
      rfl
  have hpid' : ∀ g, (((s.pages_.set f p').getD g Page.empty)).page_id_ =
      (s.pageAt g).page_id_ := by
    intro g
    rcases getD_set_cases s.pages_ f g p' Page.empty with ⟨heq, hgf, hlt⟩ | heq
    · rw [heq]
      subst hgf
      exact hpid
    · rw [heq]
      rfl
  refine ⟨by simpa [List.length_set] using hlen, hrs, hR, hWF, hAl, hPl, hND, hfree,
    ?_, ?_, ?_, hinj⟩
  · intro g hg
    show 0 ≤ (((s.pages_.set f p').getD g Page.empty)).pin_count_
    rw [hpin' g]
    exact hpin0 g hg
  · intro g hg hp
    have hp' : (s.pageAt g).pin_count_ = 0 := by
      rw [← hpin' g]
      exact hp
    exact hP3 g hg hp'
  · intro kk v he
    obtain ⟨ha, hb, hc, hd⟩ := hres kk v he
    refine ⟨ha, hb, hc, ?_⟩
    show (((s.pages_.set f p').getD v Page.empty)).page_id_ = kk
    rw [hpid' v]
    exact hd

theorem BPM.Inv_writeData (f b : Nat) (s : BPM) (h : s.Inv) : (BPM.writeData f b s).Inv :=
  BPM.Inv_set_page s f _ rfl rfl h

/-- The pool invariant survives replacing a resident frame's page (same
page id) and the replacer state, provided the pin count stays non-negative,
a zero pin count comes with the evictable flag, and the replacer change is
confined to frame `f` without dropping its positive access count. Covers
the `unpin_page` success paths and the `fetch_page` hit. -/
theorem BPM.Inv_reframe (s : BPM) (pg : List Page) (r2 : LRUK) (f : Nat)
    (hfN : f < s.pool_size_) (hfnotfree : f ∉ s.free_list_)
    (hlen2 : pg.length = s.pages_.length)
    (hothers : ∀ g, g ≠ f → pg.getD g Page.empty = s.pages_.getD g Page.empty)
    (hpid : (pg.getD f Page.empty).page_id_ = (s.pageAt f).page_id_)
    (hfpin : 0 ≤ (pg.getD f Page.empty).pin_count_)
    (hP3f : (pg.getD f Page.empty).pin_count_ = 0 → r2.is_evictable_ f = true)
    (hInvR2 : LRUK.Inv r2)
    (hsz2 : r2.replacer_size_ = s.replacer_.replacer_size_)
    (hacc2 : ∀ g, g ≠ f → r2.access_count_ g = s.replacer_.access_count_ g)
    (haccf : 1 ≤ s.replacer_.access_count_ f → 1 ≤ r2.access_count_ f)
    (hev2 : ∀ g, g ≠ f → r2.is_evictable_ g = s.replacer_.is_evictable_ g)
    (hInv : s.Inv) : BPM.Inv { s with pages_ := pg, replacer_ := r2 } := by
  obtain ⟨hlen, hrs, hR, hWF, hAl, hPl, hND, hfree, hpin0, hP3, hres, hinj⟩ := hInv
  refine ⟨hlen2.trans hlen, hsz2.trans hrs, hInvR2, hWF, hAl, hPl, hND, ?_, ?_, ?_, ?_, hinj⟩
  · intro g hg
    obtain ⟨hg1, hg2⟩ := hfree g hg
    have hgf : g ≠ f := fun he => hfnotfree (he ▸ hg)
    refine ⟨hg1, ?_⟩
    rw [hev2 g hgf]
    exact hg2
  · intro g hg
    show 0 ≤ (pg.getD g Page.empty).pin_count_
    by_cases hgf : g = f
    · subst hgf
      exact hfpin
    · rw [hothers g hgf]
      exact hpin0 g hg
  · intro g hg hp
    have hp' : (pg.getD g Page.empty).pin_count_ = 0 := hp
    by_cases hgf : g = f
    · subst hgf
      exact Or.inr (hP3f hp')
    · rw [hothers g hgf] at hp'
      rcases hP3 g hg hp' with hm | hm
      · exact Or.inl hm
      · right
        rw [hev2 g hgf]
        exact hm
  · intro kk v he
    obtain ⟨ha, hb, hc, hd⟩ := hres kk v he
    refine ⟨ha, hb, ?_, ?_⟩
    · by_cases hvf : v = f
      · subst hvf
        exact haccf hc
      · rw [hacc2 v hvf]
        exact hc
    · show (pg.getD v Page.empty).page_id_ = kk
      by_cases hvf : v = f
      · subst hvf
        exact hpid.trans hd
      · rw [hothers v hvf]
        exact hd

/-- The pool invariant holds of the state built by the shared install tail
from a `PreInstall` state: frame `f` now holds `pid` pinned once, the table
gained exactly the entry `(pid, f)`, and the replacer change is confined to
`f`, whose access count is positive. -/
theorem BPM.Inv_install_state (s : BPM) (f : Nat) (pid : Int) (tbl : EHT Int Nat)
    (pg : List Page) (r2 : LRUK)
    (hpre : s.PreInstall f)
    (hlen2 : pg.length = s.pages_.length)
    (hothers : ∀ g, g ≠ f → pg.getD g Page.empty = s.pages_.getD g Page.empty)
    (hfpid : (pg.getD f Page.empty).page_id_ = pid)
    (hfpin : (pg.getD f Page.empty).pin_count_ = 1)
    (hWF2 : tbl.WF) (hAl2 : tbl.Aligned) (hPl2 : tbl.Placed stdHashInt)
    (hEnt2 : ∀ k' v', tbl.hasEntry k' v' →
      s.page_table_.hasEntry k' v' ∨ (k' = pid ∧ v' = f))
    (hInvR2 : LRUK.Inv r2)
    (hsz2 : r2.replacer_size_ = s.replacer_.replacer_size_)
    (hacc2 : ∀ g, g ≠ f → r2.access_count_ g = s.replacer_.access_count_ g)
    (haccf2 : 1 ≤ r2.access_count_ f)
    (hev2 : ∀ g, g ≠ f → r2.is_evictable_ g = s.replacer_.is_evictable_ g) :
    BPM.Inv { s with page_table_ := tbl, pages_ := pg, replacer_ := r2 } := by
  obtain ⟨hlen, hrs, hR, hWF, hAl, hPl, hND, hfree, hpin0, hP3, hres, hinj, hfN, hfnf,
    hnoval⟩ := hpre
  refine ⟨hlen2.trans hlen, hsz2.trans hrs, hInvR2, hWF2, hAl2, hPl2, hND, ?_, ?_, ?_,
    ?_, ?_⟩
  · intro g hg
    obtain ⟨hg1, hg2⟩ := hfree g hg
    have hgf : g ≠ f := fun he => hfnf (he ▸ hg)
    refine ⟨hg1, ?_⟩
    rw [hev2 g hgf]
    exact hg2
  · intro g hg
    show 0 ≤ (pg.getD g Page.empty).pin_count_
    by_cases hgf : g = f
    · subst hgf
      rw [hfpin]
      omega
    · rw [hothers g hgf]
      exact hpin0 g hg
  · intro g hg hp
    have hp' : (pg.getD g Page.empty).pin_count_ = 0 := hp
    by_cases hgf : g = f
    · subst hgf
      rw [hfpin] at hp'
      cases hp'
    · rw [hothers g hgf] at hp'
      rcases hP3 g hg hgf hp' with hm | hm
      · exact Or.inl hm
      · right
        rw [hev2 g hgf]
        exact hm
  · intro kk v he
    rcases hEnt2 kk v he with hold | ⟨hk, hv⟩
    · obtain ⟨ha, hb, hc, hd⟩ := hres kk v hold
      have hvf : v ≠ f := fun hvf => hnoval kk (hvf ▸ hold)
      refine ⟨ha, hb, ?_, ?_⟩
      · rw [hacc2 v hvf]
        exact hc
      · show (pg.getD v Page.empty).page_id_ = kk
        rw [hothers v hvf]
        exact hd
    · subst hk
      subst hv
      exact ⟨hfN, hfnf, haccf2, hfpid⟩
  · intro k1 k2 v h1 h2
    rcases hEnt2 k1 v h1 with ho1 | ⟨hk1, hv1⟩ <;> rcases hEnt2 k2 v h2 with ho2 | ⟨hk2, hv2⟩
    · exact hinj k1 k2 v ho1 ho2
    · subst hv2
      exact absurd ho1 (hnoval k1)
    · subst hv1
      exact absurd ho2 (hnoval k2)
    · rw [hk1, hk2]

/-- The shared install tail, run from a `PreInstall` state, succeeds with
the valid frame it was given — never with the undefined result — and
re-establishes the pool invariant. -/
theorem BPM.install_inv (fuel : Nat) (pid : Int) (f : Nat) (rd : Bool) (s : BPM)
    (hpre : s.PreInstall f) (res : PoolRes) (s' : BPM)
    (h : BPM.install fuel pid f rd s = some (res, s')) :
    s'.Inv ∧ res = PoolRes.page f := by
  have hpre' := hpre
  obtain ⟨hlen, hrs, hR, hWF, hAl, hPl, hND, hfree, hpin0, hP3, hres, hinj, hfN, hfnf,
    hnoval⟩ := hpre'
  unfold BPM.install at h
  cases hins : EHT.insertGo stdHashInt pid f fuel s.page_table_ with
  | none => rw [hins] at h; cases h
  | some tbl =>
    rw [hins] at h
    simp only at h
    have hWF2 : tbl.WF := EHT.WF_insertGo stdHashInt pid f fuel _ tbl hWF hins
    obtain ⟨hAl2, hPl2, hEnt2raw⟩ :=
      EHT.insertGo_APE stdHashInt pid f fuel s.page_table_ tbl hWF hAl hPl hins
    obtain ⟨r1, hr1, hInvR1, hev1, hcur1, hsz1, hacc1⟩ :=
      LRUK.recordAccess_post f s.replacer_ hR (by omega)
    have hc1f : 1 ≤ r1.access_count_ f := by
      rw [hacc1]
      simp [updf]
    obtain ⟨r2, hr2, hInvR2, hacc2e, hh2, hc2, hsz2, hev2e, -⟩ :=
      LRUK.setEvictable_post f false r1 hInvR1 (by omega)
    have hacc2 : ∀ g, g ≠ f → r2.access_count_ g = s.replacer_.access_count_ g := by
      intro g hg
      rw [hacc2e, hacc1]
      simp [updf, hg]
    have haccf2 : 1 ≤ r2.access_count_ f := by
      rw [hacc2e]
      exact hc1f
    have hev2 : ∀ g, g ≠ f → r2.is_evictable_ g = s.replacer_.is_evictable_ g := by
      intro g hg
      rw [hev2e hc1f]
      show updf r1.is_evictable_ f false g = _
      rw [updf, if_neg hg, hev1]
    have hflen : f < s.pages_.length := by omega
    cases rd with
    | false =>
      rw [if_neg (by decide)] at h
      simp only at h
      rw [hr1] at h
      simp only at h
      rw [hr2] at h
      simp only at h
      obtain ⟨hres0, hs0⟩ := Prod.mk.injEq .. ▸ Option.some.inj h
      refine ⟨?_, hres0.symm⟩
      rw [← hs0]
      refine BPM.Inv_install_state s f pid tbl
        (s.pages_.set f { s.pageAt f with page_id_ := pid, pin_count_ := 1 }) r2 hpre
        (by simp [List.length_set]) ?_ ?_ ?_ hWF2 hAl2 hPl2 hEnt2raw hInvR2
        (hsz2.trans hsz1) hacc2 haccf2 hev2
      · intro g hg
        exact getD_set_ne _ _ _ hg
      · rw [getD_set_self _ _ _ _ hflen]
      · rw [getD_set_self _ _ _ _ hflen]
    | true =>
      rw [if_pos rfl] at h
      simp only at h
      rw [hr1] at h
      simp only at h
      rw [hr2] at h
      simp only at h
      obtain ⟨hres0, hs0⟩ := Prod.mk.injEq .. ▸ Option.some.inj h
      refine ⟨?_, hres0.symm⟩
      rw [← hs0]
      refine BPM.Inv_install_state s f pid tbl _ r2 hpre
        (by simp [List.length_set]) ?_ ?_ ?_ hWF2 hAl2 hPl2 hEnt2raw hInvR2
        (hsz2.trans hsz1) hacc2 haccf2 hev2
      · intro g hg
        rw [getD_set_ne _ _ _ hg, getD_set_ne _ _ _ hg]
      · rw [getD_set_self _ _ _ _ (by simpa [List.length_set] using hflen)]
        show (BPM.pageAt _ f).page_id_ = pid
        unfold BPM.pageAt
        rw [getD_set_self _ _ _ _ hflen]
      · rw [getD_set_self _ _ _ _ (by simpa [List.length_set] using hflen)]
        show (BPM.pageAt _ f).pin_count_ = 1
        unfold BPM.pageAt
        rw [getD_set_self _ _ _ _ hflen]

/-- The state after a successful eviction inside `NewPgImp`/`FetchPgImp`
satisfies `PreInstall` for the victim frame, over the original free list,
page-id allocator and pool size. -/
theorem BPM.PreInstall_evicted (s : BPM) (f : Nat) (r' : LRUK) (pg : List Page)
    (d0 : Int → Nat) (hInv : s.Inv)
    (hev : s.replacer_.is_evictable_ f = true)
    (hfN : f < s.pool_size_)
    (hInvR : LRUK.Inv r')
    (hsz : r'.replacer_size_ = s.replacer_.replacer_size_)
    (hevq : r'.is_evictable_ = updf s.replacer_.is_evictable_ f false)
    (haccq : r'.access_count_ = updf s.replacer_.access_count_ f 0)
    (hlen2 : pg.length = s.pages_.length)
    (hothers : ∀ g, g ≠ f → pg.getD g Page.empty = s.pages_.getD g Page.empty)
    (hfpin : (pg.getD f Page.empty).pin_count_ = (s.pageAt f).pin_count_) :
    BPM.PreInstall
      { s with replacer_ := r', pages_ := pg, disk := d0,
               page_table_ :=
                 (EHT.remove stdHashInt s.page_table_ (s.pageAt f).page_id_).2 } f := by
  obtain ⟨hlen, hrs, hR, hWF, hAl, hPl, hND, hfree, hpin0, hP3, hres, hinj⟩ := hInv
  have hfnf : f ∉ s.free_list_ := by
    intro hmem
    have h2 := (hfree f hmem).2
    rw [hev] at h2
    cases h2
  have hkills := EHT.remove_kills stdHashInt s.page_table_ (s.pageAt f).page_id_ hWF hAl hPl
  have hnoval : ∀ k', ¬ (EHT.remove stdHashInt s.page_table_
      (s.pageAt f).page_id_).2.hasEntry k' f := by
    intro k' hE
    have hold := EHT.remove_hasEntry stdHashInt s.page_table_ _ hE
    have hpidk := (hres k' f hold).2.2.2
    rw [← hpidk] at hE
    exact hkills f hE
  refine ⟨hlen2.trans hlen, hsz.trans hrs, hInvR,
    EHT.WF_remove stdHashInt s.page_table_ _ hWF,
    EHT.Aligned_remove stdHashInt s.page_table_ _ hAl,
    EHT.Placed_remove stdHashInt s.page_table_ _ hPl, hND, ?_, ?_, ?_, ?_, ?_, hfN, hfnf,
    hnoval⟩
  · intro g hg
    obtain ⟨hg1, hg2⟩ := hfree g hg
    have hgf : g ≠ f := fun he => hfnf (he ▸ hg)
    refine ⟨hg1, ?_⟩
    rw [hevq]
    show updf s.replacer_.is_evictable_ f false g = false
    rw [updf, if_neg hgf]
    exact hg2
  · intro g hg
    show 0 ≤ (pg.getD g Page.empty).pin_count_
    by_cases hgf : g = f
    · subst hgf
      rw [hfpin]
      exact hpin0 g hg
    · rw [hothers g hgf]
      exact hpin0 g hg
  · intro g hg hgf hp
    have hp' : (pg.getD g Page.empty).pin_count_ = 0 := hp
    rw [hothers g hgf] at hp'
    rcases hP3 g hg hp' with hm | hm
    · exact Or.inl hm
    · right
      rw [hevq]
      show updf s.replacer_.is_evictable_ f false g = true
      rw [updf, if_neg hgf]
      exact hm
  · intro kk v hE
    have hold := EHT.remove_hasEntry stdHashInt s.page_table_ _ hE
    obtain ⟨ha, hb, hc, hd⟩ := hres kk v hold
    have hvf : v ≠ f := fun hvf => hnoval kk (hvf ▸ hE)
    refine ⟨ha, hb, ?_, ?_⟩
    · rw [haccq]
      show 1 ≤ updf s.replacer_.access_count_ f 0 v
      rw [updf, if_neg hvf]
      exact hc
    · show (pg.getD v Page.empty).page_id_ = kk
      rw [hothers v hvf]
      exact hd
  · intro k1 k2 v h1 h2
    exact hinj k1 k2 v (EHT.remove_hasEntry stdHashInt s.page_table_ _ h1)
      (EHT.remove_hasEntry stdHashInt s.page_table_ _ h2)

/-- A successful `BPM.victim` run from an invariant state yields an
evictable valid frame and a `PreInstall` state over unchanged free list,
allocator and pool size. -/
theorem BPM.victim_pre (s : BPM) (f : Nat) (s2 : BPM) (hInv : s.Inv)
    (h : BPM.victim s = some (f, s2)) : s2.PreInstall f := by
  have hInv' := hInv
  obtain ⟨hlen, hrs, hR, hWF, hAl, hPl, hND, hfree, hpin0, hP3, hres, hinj⟩ := hInv'
  unfold BPM.victim at h
  cases hE : s.replacer_.evict with
  | mk o r' =>
    rw [hE] at h
    cases o with
    | none => simp at h
    | some f0 =>
      simp only at h
      obtain ⟨hf0, hs0⟩ := Prod.mk.injEq .. ▸ Option.some.inj h
      cases hf0
      obtain ⟨hev, hfN0, hInvR, hevq, haccq, hszq⟩ := LRUK.evict_post s.replacer_ f r' hR hE
      have hfN : f < s.pool_size_ := by omega
      have hflen : f < s.pages_.length := by omega
      rw [← hs0]
      by_cases hdirty :
          (BPM.pageAt { s with replacer_ := r' } f).is_dirty_ = true
      · rw [if_pos hdirty]
        refine BPM.PreInstall_evicted s f r' _ _ hInv hev hfN hInvR hszq hevq haccq
          (by simp [List.length_set]) ?_ ?_
        · intro g hg
          rw [getD_set_ne _ _ _ hg, getD_set_ne _ _ _ hg]
        · rw [getD_set_self _ _ _ _ (by simpa [List.length_set] using hflen)]
          show (BPM.pageAt _ f).pin_count_ = _
          unfold BPM.pageAt
          rw [getD_set_self _ _ _ _ hflen]
      · rw [if_neg hdirty]
        refine BPM.PreInstall_evicted s f r' _ _ hInv hev hfN hInvR hszq hevq haccq
          (by simp [List.length_set]) ?_ ?_
        · intro g hg
          rw [getD_set_ne _ _ _ hg]
        · rw [getD_set_self _ _ _ _ hflen]
          rfl

/-- `unpin_page` preserves the pool invariant. -/
theorem BPM.Inv_unpinPage (pid : Int) (d : Bool) (s : BPM) (res : Bool) (s' : BPM)
    (hInv : s.Inv) (h : BPM.unpinPage pid d s = some (res, s')) : s'.Inv := by
  have hInv' := hInv
  obtain ⟨hlen, hrs, hR, hWF, hAl, hPl, hND, hfree, hpin0, hP3, hres, hinj⟩ := hInv'
  unfold BPM.unpinPage at h
  split at h
  · obtain ⟨-, hs0⟩ := Prod.mk.injEq .. ▸ Option.some.inj h
    exact hs0 ▸ hInv
  · cases hfind : s.page_table_.find stdHashInt pid with
    | none =>
      rw [hfind] at h
      obtain ⟨-, hs0⟩ := Prod.mk.injEq .. ▸ Option.some.inj h
      exact hs0 ▸ hInv
    | some f =>
      rw [hfind] at h
      simp only at h
      obtain ⟨hfN, hfnf, hfcnt, hfpid⟩ :=
        hres pid f (EHT.find_hasEntry stdHashInt s.page_table_ pid f hWF hfind)
      have hflen : f < s.pages_.length := by omega
      split at h
      · obtain ⟨-, hs0⟩ := Prod.mk.injEq .. ▸ Option.some.inj h
        exact hs0 ▸ hInv
      · rename_i hple
        obtain ⟨r1, hr1, hInvR1, hacc1, hh1, hc1, hsz1, hev1c, -⟩ :=
          LRUK.setEvictable_post f true s.replacer_ hR (by omega)
        have hev1 := hev1c hfcnt
        cases d with
        | false =>
          simp only [Bool.false_eq_true, if_false] at h
          split at h
          · rename_i hz
            rw [hr1] at h
            simp only at h
            obtain ⟨-, hs0⟩ := Prod.mk.injEq .. ▸ Option.some.inj h
            rw [← hs0]
            refine BPM.Inv_reframe s _ r1 f hfN hfnf (by simp [List.length_set]) ?_ ?_ ?_
              ?_ hInvR1 hsz1 (fun g _ => by rw [hacc1]) (fun hc => by rw [hacc1]; exact hc)
              ?_ hInv
            · intro g hg
              exact getD_set_ne _ _ _ hg
            · rw [getD_set_self _ _ _ _ hflen]
            · rw [getD_set_self _ _ _ _ hflen]
              show 0 ≤ (s.pageAt f).pin_count_ - 1
              omega
            · intro _
              rw [hev1]
              simp [updf]
            · intro g hg
              rw [hev1]
              simp [updf, hg]
          · rename_i hnz
            obtain ⟨-, hs0⟩ := Prod.mk.injEq .. ▸ Option.some.inj h
            rw [← hs0]
            refine BPM.Inv_reframe s _ s.replacer_ f hfN hfnf (by simp [List.length_set])
              ?_ ?_ ?_ ?_ hR rfl (fun g _ => rfl) (fun hc => hc) (fun g _ => rfl) hInv
            · intro g hg
              exact getD_set_ne _ _ _ hg
            · rw [getD_set_self _ _ _ _ hflen]
            · rw [getD_set_self _ _ _ _ hflen]
              show 0 ≤ (s.pageAt f).pin_count_ - 1
              omega
            · intro hzz
              exact absurd hzz hnz
        | true =>
          simp only [eq_self_iff_true, if_true] at h
          split at h
          · rename_i hz
            rw [hr1] at h
            simp only at h
            obtain ⟨-, hs0⟩ := Prod.mk.injEq .. ▸ Option.some.inj h
            rw [← hs0]
            refine BPM.Inv_reframe s _ r1 f hfN hfnf (by simp [List.length_set]) ?_ ?_ ?_
              ?_ hInvR1 hsz1 (fun g _ => by rw [hacc1]) (fun hc => by rw [hacc1]; exact hc)
              ?_ hInv
            · intro g hg
              rw [getD_set_ne _ _ _ hg, getD_set_ne _ _ _ hg]
            · rw [getD_set_self _ _ _ _ (by simpa [List.length_set] using hflen)]
              show (BPM.pageAt _ f).page_id_ = _
              unfold BPM.pageAt
              rw [getD_set_self _ _ _ _ hflen]
            · rw [getD_set_self _ _ _ _ (by simpa [List.length_set] using hflen)]
              show 0 ≤ (BPM.pageAt _ f).pin_count_ - 1
              unfold BPM.pageAt
              rw [getD_set_self _ _ _ _ hflen]
              show 0 ≤ (s.pageAt f).pin_count_ - 1
              omega
            · intro _
              rw [hev1]
              simp [updf]
            · intro g hg
              rw [hev1]
              simp [updf, hg]
          · rename_i hnz
            obtain ⟨-, hs0⟩ := Prod.mk.injEq .. ▸ Option.some.inj h
            rw [← hs0]
            refine BPM.Inv_reframe s _ s.replacer_ f hfN hfnf (by simp [List.length_set])
              ?_ ?_ ?_ ?_ hR rfl (fun g _ => rfl) (fun hc => hc) (fun g _ => rfl) hInv
            · intro g hg
              rw [getD_set_ne _ _ _ hg, getD_set_ne _ _ _ hg]
            · rw [getD_set_self _ _ _ _ (by simpa [List.length_set] using hflen)]
              show (BPM.pageAt _ f).page_id_ = _
              unfold BPM.pageAt
              rw [getD_set_self _ _ _ _ hflen]
            · rw [getD_set_self _ _ _ _ (by simpa [List.length_set] using hflen)]
              show 0 ≤ (BPM.pageAt _ f).pin_count_ - 1
              unfold BPM.pageAt
              rw [getD_set_self _ _ _ _ hflen]
              show 0 ≤ (s.pageAt f).pin_count_ - 1
              omega
            · intro hzz
              exact absurd hzz hnz

/-- `delete_page` preserves the pool invariant. -/
theorem BPM.deletePage_inv (pid : Int) (s : BPM) (res : Bool) (s' : BPM)
    (hInv : s.Inv) (h : BPM.deletePage pid s = some (res, s')) : s'.Inv := by
  have hInv' := hInv
  obtain ⟨hlen, hrs, hR, hWF, hAl, hPl, hND, hfree, hpin0, hP3, hres, hinj⟩ := hInv'
  unfold BPM.deletePage at h
  cases hfind : s.page_table_.find stdHashInt pid with
  | none =>
    rw [hfind] at h
    obtain ⟨-, hs0⟩ := Prod.mk.injEq .. ▸ Option.some.inj h
    exact hs0 ▸ hInv
  | some f =>
    rw [hfind] at h
    simp only at h
    split at h
    · obtain ⟨-, hs0⟩ := Prod.mk.injEq .. ▸ Option.some.inj h
      exact hs0 ▸ hInv
    · split at h
      · obtain ⟨-, hs0⟩ := Prod.mk.injEq .. ▸ Option.some.inj h
        exact hs0 ▸ hInv
      · rename_i hinv0 hpinle
        obtain ⟨hfN, hfnf, hfcnt, hfpid⟩ :=
          hres pid f (EHT.find_hasEntry stdHashInt s.page_table_ pid f hWF hfind)
        have hflen : f < s.pages_.length := by omega
        have hpin_z : (s.pageAt f).pin_count_ = 0 := by
          have := hpin0 f hfN
          omega
        have hevf : s.replacer_.is_evictable_ f = true := by
          rcases hP3 f hfN hpin_z with hm | hm
          · exact absurd hm hfnf
          · exact hm
        obtain ⟨r1, hr1, hInvR1, hev1, hacc1, hsz1⟩ :=
          LRUK.remove_post f s.replacer_ hR (by omega) hfcnt hevf
        rw [hr1] at h
        simp only at h
        obtain ⟨-, hs0⟩ := Prod.mk.injEq .. ▸ Option.some.inj h
        rw [← hs0]
        have hkills := EHT.remove_kills stdHashInt s.page_table_ pid hWF hAl hPl
        have hnoval : ∀ k',
            ¬ (EHT.remove stdHashInt s.page_table_ pid).2.hasEntry k' f := by
          intro k' hE
          have hold := EHT.remove_hasEntry stdHashInt s.page_table_ _ hE
          have hpidk := (hres k' f hold).2.2.2
          have hk : k' = pid := hpidk.symm.trans hfpid
          rw [hk] at hE
          exact hkills f hE
        refine ⟨by simpa [List.length_set] using hlen, hsz1.trans hrs, hInvR1,
          EHT.WF_remove stdHashInt s.page_table_ _ hWF,
          EHT.Aligned_remove stdHashInt s.page_table_ _ hAl,
          EHT.Placed_remove stdHashInt s.page_table_ _ hPl, ?_, ?_, ?_, ?_, ?_, ?_⟩
        · rw [List.nodup_append]
          exact ⟨hND, List.nodup_singleton f, fun a ha hb =>
            (List.mem_singleton.mp hb ▸ hfnf) ha⟩
        · intro g hg
          rcases List.mem_append.mp hg with hm | hm
          · obtain ⟨hg1, hg2⟩ := hfree g hm
            have hgf : g ≠ f := fun he => hfnf (he ▸ hm)
            refine ⟨hg1, ?_⟩
            rw [hev1]
            show updf s.replacer_.is_evictable_ f false g = false
            rw [updf, if_neg hgf]
            exact hg2
          · have hgf : g = f := List.mem_singleton.mp hm
            subst hgf
            refine ⟨hfN, ?_⟩
            rw [hev1]
            simp [updf]
        · intro g hg
          show 0 ≤ ((s.pages_.set f Page.empty).getD g Page.empty).pin_count_
          rcases getD_set_cases s.pages_ f g Page.empty Page.empty with ⟨heq, hgf, -⟩ | heq
          · rw [heq]
            exact le_refl 0
          · rw [heq]
            exact hpin0 g hg
        · intro g hg hp
          by_cases hgf : g = f
          · subst hgf
            exact Or.inl (List.mem_append.mpr (Or.inr (List.mem_singleton.mpr rfl)))
          · have hp' : (s.pageAt g).pin_count_ = 0 := by
              have hq : ((s.pages_.set f Page.empty).getD g Page.empty).pin_count_ = 0 := hp
              rw [getD_set_ne _ _ _ hgf] at hq
              exact hq
            rcases hP3 g hg hp' with hm | hm
            · exact Or.inl (List.mem_append.mpr (Or.inl hm))
            · right
              rw [hev1]
              show updf s.replacer_.is_evictable_ f false g = true
              rw [updf, if_neg hgf]
              exact hm
        · intro kk v hE
          have hold := EHT.remove_hasEntry stdHashInt s.page_table_ _ hE
          obtain ⟨ha, hb, hc, hd⟩ := hres kk v hold
          have hvf : v ≠ f := fun hvf => hnoval kk (hvf ▸ hE)
          refine ⟨ha, ?_, ?_, ?_⟩
          · intro hmem
            rcases List.mem_append.mp hmem with hm | hm
            · exact hb hm
            · exact hvf (List.mem_singleton.mp hm)
          · rw [hacc1]
            show 1 ≤ updf s.replacer_.access_count_ f 0 v
            rw [updf, if_neg hvf]
            exact hc
          · show ((s.pages_.set f Page.empty).getD v Page.empty).page_id_ = kk
            rw [getD_set_ne _ _ _ hvf]
            exact hd
        · intro k1 k2 v h1 h2
          exact hinj k1 k2 v (EHT.remove_hasEntry stdHashInt s.page_table_ _ h1)
            (EHT.remove_hasEntry stdHashInt s.page_table_ _ h2)

/-- `new_page` preserves the pool invariant, returns null only when the
all-pinned precheck failed (unchanged state), and otherwise returns a valid
frame — never the undefined result of a discarded eviction failure. -/
theorem BPM.newPage_inv (fuel : Nat) (s : BPM) (res : PoolRes) (s' : BPM)
    (hInv : s.Inv) (h : BPM.newPage fuel s = some (res, s')) :
    s'.Inv ∧ (res = PoolRes.null → s.findUnpinned = none ∧ s' = s) ∧
    (res = PoolRes.null ∨ ∃ f, res = PoolRes.page f ∧ f < s.pool_size_) := by
  have hInv' := hInv
  obtain ⟨hlen, hrs, hR, hWF, hAl, hPl, hND, hfree, hpin0, hP3, hres, hinj⟩ := hInv'
  unfold BPM.newPage at h
  cases hfu : s.findUnpinned with
  | none =>
    rw [hfu] at h
    obtain ⟨hr0, hs0⟩ := Prod.mk.injEq .. ▸ Option.some.inj h
    cases hr0
    exact ⟨hs0 ▸ hInv, fun _ => ⟨rfl, hs0.symm⟩, Or.inl rfl⟩
  | some i =>
    rw [hfu] at h
    simp only at h
    split at h
    · rename_i f0 rest heq
      obtain ⟨hf0N, hf0ev⟩ := hfree f0 (by rw [heq]; exact List.mem_cons_self f0 rest)
      have hndr := hND
      rw [heq, List.nodup_cons] at hndr
      have hpre : BPM.PreInstall { s with next_page_id_ := s.next_page_id_ + 1, free_list_ := rest } f0 := by
        refine ⟨hlen, hrs, hR, hWF, hAl, hPl, hndr.2, ?_, hpin0, ?_, ?_, hinj, hf0N,
          hndr.1, ?_⟩
        · intro g hg
          exact hfree g (by rw [heq]; exact List.mem_cons_of_mem _ hg)
        · intro g hg hgf hp
          rcases hP3 g hg hp with hm | hm
          · rw [heq] at hm
            rcases List.mem_cons.mp hm with hm2 | hm2
            · exact absurd hm2 hgf
            · exact Or.inl hm2
          · exact Or.inr hm
        · intro kk v hE
          obtain ⟨ha, hb, hc, hd⟩ := hres kk v hE
          refine ⟨ha, ?_, hc, hd⟩
          intro hmem
          exact hb (by rw [heq]; exact List.mem_cons_of_mem _ hmem)
        · intro k' hE
          have hb := (hres k' f0 hE).2.1
          rw [heq] at hb
          exact hb (List.mem_cons_self f0 rest)
      obtain ⟨hInv2, hres2⟩ :=
        BPM.install_inv fuel s.next_page_id_ f0 false _ hpre res s' h
      refine ⟨hInv2, ?_, Or.inr ⟨f0, hres2, hf0N⟩⟩
      intro hnull
      exact PoolRes.noConfusion (hnull.symm.trans hres2)
    · rename_i heq
      split at h
      · rename_i hvic
        exfalso
        have hnone := BPM.victim_none _ hvic
        simp only at hnone
        obtain ⟨hiN, hipin⟩ := BPM.findUnpinned_some s i hfu
        rcases hP3 i hiN hipin with hm | hm
        · rw [heq] at hm
          cases hm
        · obtain ⟨g, rr, hg⟩ := LRUK.evict_progress s.replacer_ hR i hm
          rw [hg] at hnone
          cases hnone
      · rename_i f0 s2 hvic
        have hpre := BPM.victim_pre { s with next_page_id_ := s.next_page_id_ + 1 } f0 s2
          hInv hvic
        obtain ⟨hInv2, hres2⟩ :=
          BPM.install_inv fuel s.next_page_id_ f0 false s2 hpre res s' h
        have hpool : s2.pool_size_ = s.pool_size_ :=
          (BPM.victim_spec _ f0 s2 hvic).2.2.1
        obtain ⟨-, -, -, -, -, -, -, -, -, -, -, -, hf0N2, -, -⟩ := hpre
        refine ⟨hInv2, ?_, Or.inr ⟨f0, hres2, by omega⟩⟩
        intro hnull
        exact PoolRes.noConfusion (hnull.symm.trans hres2)

/-- `fetch_page` preserves the pool invariant, returns null only on a miss
with the all-pinned precheck failed (unchanged state), and otherwise
returns a valid frame — never the undefined result. -/
theorem BPM.fetchPage_inv (fuel : Nat) (pid : Int) (s : BPM) (res : PoolRes) (s' : BPM)
    (hInv : s.Inv) (h : BPM.fetchPage fuel pid s = some (res, s')) :
    s'.Inv ∧ (res = PoolRes.null →
      s.page_table_.find stdHashInt pid = none ∧ s.findUnpinned = none ∧ s' = s) ∧
    (res = PoolRes.null ∨ ∃ f, res = PoolRes.page f ∧ f < s.pool_size_) := by
  have hInv' := hInv
  obtain ⟨hlen, hrs, hR, hWF, hAl, hPl, hND, hfree, hpin0, hP3, hres, hinj⟩ := hInv'
  unfold BPM.fetchPage at h
  cases hfind : s.page_table_.find stdHashInt pid with
  | some f =>
    rw [hfind] at h
    simp only at h
    obtain ⟨hfN, hfnf, hfcnt, hfpid⟩ :=
      hres pid f (EHT.find_hasEntry stdHashInt s.page_table_ pid f hWF hfind)
    have hflen : f < s.pages_.length := by omega
    obtain ⟨r1, hr1, hInvR1, hev1, hcur1, hsz1, hacc1⟩ :=
      LRUK.recordAccess_post f s.replacer_ hR (by omega)
    have hc1f : 1 ≤ r1.access_count_ f := by
      rw [hacc1]
      simp [updf]
    obtain ⟨r2, hr2, hInvR2, hacc2e, hh2, hc2, hsz2, hev2e, -⟩ :=
      LRUK.setEvictable_post f false r1 hInvR1 (by omega)
    rw [hr1] at h
    simp only at h
    rw [hr2] at h
    simp only at h
    obtain ⟨hres0, hs0⟩ := Prod.mk.injEq .. ▸ Option.some.inj h
    refine ⟨?_, fun hnull => PoolRes.noConfusion (hres0.trans hnull),
      Or.inr ⟨f, hres0.symm, hfN⟩⟩
    rw [← hs0]
    refine BPM.Inv_reframe s _ r2 f hfN hfnf (by simp [List.length_set]) ?_ ?_ ?_ ?_
      hInvR2 (hsz2.trans hsz1) ?_ ?_ ?_ hInv
    · intro g hg
      exact getD_set_ne _ _ _ hg
    · rw [getD_set_self _ _ _ _ hflen]
    · rw [getD_set_self _ _ _ _ hflen]
      show 0 ≤ (s.pageAt f).pin_count_ + 1
      have := hpin0 f hfN
      omega
    · intro hzz
      exfalso
      rw [getD_set_self _ _ _ _ hflen] at hzz
      have hzz2 : (s.pageAt f).pin_count_ + 1 = 0 := hzz
      have := hpin0 f hfN
      omega
    · intro g hg
      rw [hacc2e, hacc1]
      show updf s.replacer_.access_count_ f (s.replacer_.access_count_ f + 1) g = _
      rw [updf, if_neg hg]
    · intro hc
      rw [hacc2e]
      exact hc1f
    · intro g hg
      rw [hev2e hc1f]
      show updf r1.is_evictable_ f false g = _
      rw [updf, if_neg hg, hev1]
  | none =>
    rw [hfind] at h
    simp only at h
    cases hfu : s.findUnpinned with
    | none =>
      rw [hfu] at h
      obtain ⟨hr0, hs0⟩ := Prod.mk.injEq .. ▸ Option.some.inj h
      cases hr0
      exact ⟨hs0 ▸ hInv, fun _ => ⟨rfl, rfl, hs0.symm⟩, Or.inl rfl⟩
    | some i =>
      rw [hfu] at h
      simp only at h
      split at h
      · rename_i f0 rest heq
        obtain ⟨hf0N, hf0ev⟩ := hfree f0 (by rw [heq]; exact List.mem_cons_self f0 rest)
        have hndr := hND
        rw [heq, List.nodup_cons] at hndr
        have hpre : BPM.PreInstall { s with free_list_ := rest } f0 := by
          refine ⟨hlen, hrs, hR, hWF, hAl, hPl, hndr.2, ?_, hpin0, ?_, ?_, hinj, hf0N,
            hndr.1, ?_⟩
          · intro g hg
            exact hfree g (by rw [heq]; exact List.mem_cons_of_mem _ hg)
          · intro g hg hgf hp
            rcases hP3 g hg hp with hm | hm
            · rw [heq] at hm
              rcases List.mem_cons.mp hm with hm2 | hm2
              · exact absurd hm2 hgf
              · exact Or.inl hm2
            · exact Or.inr hm
          · intro kk v hE
            obtain ⟨ha, hb, hc, hd⟩ := hres kk v hE
            refine ⟨ha, ?_, hc, hd⟩
            intro hmem
            exact hb (by rw [heq]; exact List.mem_cons_of_mem _ hmem)
          · intro k' hE
            have hb := (hres k' f0 hE).2.1
            rw [heq] at hb
            exact hb (List.mem_cons_self f0 rest)
        obtain ⟨hInv2, hres2⟩ := BPM.install_inv fuel pid f0 true _ hpre res s' h
        refine ⟨hInv2, ?_, Or.inr ⟨f0, hres2, hf0N⟩⟩
        intro hnull
        exact PoolRes.noConfusion (hnull.symm.trans hres2)
      · rename_i heq
        split at h
        · rename_i hvic
          exfalso
          have hnone := BPM.victim_none _ hvic
          obtain ⟨hiN, hipin⟩ := BPM.findUnpinned_some s i hfu
          rcases hP3 i hiN hipin with hm | hm
          · rw [heq] at hm
            cases hm
          · obtain ⟨g, rr, hg⟩ := LRUK.evict_progress s.replacer_ hR i hm
            rw [hg] at hnone
            cases hnone
        · rename_i f0 s2 hvic
          have hpre := BPM.victim_pre s f0 s2 hInv hvic
          obtain ⟨hInv2, hres2⟩ := BPM.install_inv fuel pid f0 true s2 hpre res s' h
          have hpool : s2.pool_size_ = s.pool_size_ :=
            (BPM.victim_spec _ f0 s2 hvic).2.2.1
          obtain ⟨-, -, -, -, -, -, -, -, -, -, -, -, hf0N2, -, -⟩ := hpre
          refine ⟨hInv2, ?_, Or.inr ⟨f0, hres2, by omega⟩⟩
          intro hnull
          exact PoolRes.noConfusion (hnull.symm.trans hres2)

/-- Every pool state reachable from `BufferPoolManagerInstance`'s
constructor through the public operations satisfies the invariant. -/
theorem BPM.Reach_Inv (s : BPM) (h : BPM.Reach s) : s.Inv := by
  induction h with
  | init p k b d0 hN => exact BPM.Inv_init p k b d0 hN
  | newPage fuel _ hstep ih => exact (BPM.newPage_inv fuel _ _ _ ih hstep).1
  | fetchPage fuel pid _ hstep ih => exact (BPM.fetchPage_inv fuel pid _ _ _ ih hstep).1
  | unpinPage pid d _ hstep ih => exact BPM.Inv_unpinPage pid d _ _ _ ih hstep
  | flushPage pid _ ih => exact BPM.Inv_flushPage pid _ ih
  | flushAllPages _ ih => exact BPM.Inv_flushAllPages _ ih
  | deletePage pid _ hstep ih => exact BPM.deletePage_inv pid _ _ _ ih hstep
  | writeData f b _ ih => exact BPM.Inv_writeData f b _ ih

/-- C10: in every pool state reachable through the public operations, a
frame with pin count 0 implies the free list is non-empty or the replacer
holds an evictable frame (first conjunct); consequently, once the
all-pinned precheck of `NewPgImp` or `FetchPgImp` passes (`findUnpinned ≠
none`), the frame acquisition — free-list pop, else the eviction whose
boolean result the code discards — always yields a valid frame id: the
result is `page f` with `f` in range, never the uninitialized-read `undef`
and never `null` (second and third conjuncts). -/
theorem C10_acquisition_total (s : BPM) (hs : BPM.Reach s) :
    ((∃ f, f < s.pool_size_ ∧ (s.pageAt f).pin_count_ = 0) →
      s.free_list_ ≠ [] ∨ ∃ f, f < s.pool_size_ ∧ s.replacer_.is_evictable_ f = true) ∧
    (∀ fuel res s', s.findUnpinned ≠ none →
      BPM.newPage fuel s = some (res, s') →
      ∃ f, res = PoolRes.page f ∧ f < s.pool_size_) ∧
    (∀ fuel pid res s', s.findUnpinned ≠ none →
      BPM.fetchPage fuel pid s = some (res, s') →
      ∃ f, res = PoolRes.page f ∧ f < s.pool_size_) := by
  have hInv := BPM.Reach_Inv s hs
  obtain ⟨hlen, hrs, hR, hWF, hAl, hPl, hND, hfree, hpin0, hP3, hres, hinj⟩ :=
    BPM.Reach_Inv s hs
  refine ⟨?_, ?_, ?_⟩
  · rintro ⟨f, hf, hp⟩
    rcases hP3 f hf hp with hm | hm
    · exact Or.inl (List.ne_nil_of_mem hm)
    · exact Or.inr ⟨f, hf, hm⟩
  · intro fuel res s' hfu h
    obtain ⟨-, hB, hC⟩ := BPM.newPage_inv fuel s res s' hInv h
    rcases hC with hnull | hpage
    · exact absurd (hB hnull).1 hfu
    · exact hpage
  · intro fuel pid res s' hfu h
    obtain ⟨-, hB, hC⟩ := BPM.fetchPage_inv fuel pid s res s' hInv h
    rcases hC with hnull | hpage
    · exact absurd (hB hnull).2.1 hfu
    · exact hpage

/-- The C10 invariant instantiated at a concrete reachable state: in the
freshly constructed 2-frame pool every frame is unpinned, and indeed the
free list is non-empty (or some frame is evictable). -/
theorem C10_acquisition_total_witness :
    (BPM.init 2 2 4 (fun _ => 0)).free_list_ ≠ [] ∨
      ∃ f, f < (BPM.init 2 2 4 (fun _ => 0)).pool_size_ ∧
        (BPM.init 2 2 4 (fun _ => 0)).replacer_.is_evictable_ f = true :=
  (C10_acquisition_total (BPM.init 2 2 4 (fun _ => 0))
      (BPM.Reach.init 2 2 4 (fun _ => 0) (by norm_num))).1
    ⟨0, by decide, by decide⟩

/-- C5: a dirty frame's bytes are written to disk under its current page id
before the frame is reused — by `NewPgImp` (first conjunct) and by a
`FetchPgImp` miss (second conjunct) — and a fetch miss installs the
pre-state disk bytes for the requested id into the returned frame (third
conjunct). Composed, they give the claim's scenario: after `new_page → p`,
mutating the bytes, `unpin_page(p, true)` and operations that fill the pool
and evict `p`'s frame, a later `fetch_page(p)` returns the mutated bytes;
the witness runs the pool-size-1 scenario through the conjuncts. -/
theorem C5_dirty_writeback (fuel : Nat) (s : BPM) (pid : Int)
    (hflen : s.pages_.length = s.pool_size_) :
    (∀ f res s',
      s.findUnpinned ≠ none →
      s.free_list_ = [] →
      (s.replacer_.evict).1 = some f →
      f < s.pool_size_ →
      (s.pageAt f).is_dirty_ = true →
      BPM.newPage fuel s = some (res, s') →
      s'.disk (s.pageAt f).page_id_ = (s.pageAt f).data_) ∧
    (∀ f res s',
      s.page_table_.find stdHashInt pid = none →
      s.findUnpinned ≠ none →
      s.free_list_ = [] →
      (s.replacer_.evict).1 = some f →
      f < s.pool_size_ →
      (s.pageAt f).is_dirty_ = true →
      BPM.fetchPage fuel pid s = some (res, s') →
      s'.disk (s.pageAt f).page_id_ = (s.pageAt f).data_) ∧
    (∀ f res s',
      s.page_table_.find stdHashInt pid = none →
      (∀ g, g ∈ s.free_list_ → g < s.pool_size_) →
      (∀ g, (s.replacer_.evict).1 = some g →
        g < s.pool_size_ ∧ (s.pageAt g).page_id_ ≠ pid) →
      BPM.fetchPage fuel pid s = some (res, s') →
      res = PoolRes.page f →
      (s'.pageAt f).data_ = s.disk pid) := by
  refine ⟨?_, ?_, ?_⟩
  · intro f res s' hpre hfl hev hfN hd h
    unfold BPM.newPage at h
    cases hfu : s.findUnpinned with
    | none => exact absurd hfu hpre
    | some i =>
      rw [hfu] at h
      simp only at h
      split at h
      · rename_i f0 rest heq
        rw [hfl] at heq
        cases heq
      · rename_i heq
        split at h
        · rename_i hvic
          have hnone := BPM.victim_none _ hvic
          simp only at hnone
          rw [hev] at hnone
          cases hnone
        · rename_i f' s2 hvic
          obtain ⟨hev1, hlen2, -, -, -, -, hdirty, -⟩ := BPM.victim_spec _ f' s2 hvic
          simp only at hev1 hlen2
          rw [hev] at hev1
          cases Option.some.inj hev1
          have hdisk2 := hdirty hd
          have hf2 : f < s2.pages_.length := by
            rw [hlen2, hflen]
            exact hfN
          obtain ⟨-, hdisk', -, -, -⟩ := BPM.install_spec fuel _ f false s2 hf2 res s' h
          rw [hdisk', hdisk2]
          simp [updInt, BPM.pageAt]
  · intro f res s' hmiss hpre hfl hev hfN hd h
    unfold BPM.fetchPage at h
    rw [hmiss] at h
    simp only at h
    cases hfu : s.findUnpinned with
    | none => exact absurd hfu hpre
    | some i =>
      rw [hfu] at h
      simp only at h
      split at h
      · rename_i f0 rest heq
        rw [hfl] at heq
        cases heq
      · rename_i heq
        split at h
        · rename_i hvic
          have hnone := BPM.victim_none _ hvic
          rw [hev] at hnone
          cases hnone
        · rename_i f' s2 hvic
          obtain ⟨hev1, hlen2, -, -, -, -, hdirty, -⟩ := BPM.victim_spec _ f' s2 hvic
          rw [hev] at hev1
          cases Option.some.inj hev1
          have hdisk2 := hdirty hd
          have hf2 : f < s2.pages_.length := by
            rw [hlen2, hflen]
            exact hfN
          obtain ⟨-, hdisk', -, -, -⟩ := BPM.install_spec fuel pid f true s2 hf2 res s' h
          rw [hdisk', hdisk2]
          simp [updInt]
  · intro f res s' hmiss hfree hrep h hres
    unfold BPM.fetchPage at h
    rw [hmiss] at h
    simp only at h
    cases hfu : s.findUnpinned with
    | none =>
      rw [hfu] at h
      obtain ⟨hr, hs⟩ := Prod.mk.injEq .. ▸ Option.some.inj h
      rw [hres] at hr
      cases hr
    | some i =>
      rw [hfu] at h
      simp only at h
      split at h
      · rename_i f0 rest heq
        have hf0 : f0 < s.pages_.length := by
          rw [hflen]
          exact hfree f0 (by rw [heq]; exact List.mem_cons_self f0 rest)
        obtain ⟨hres1, -, -, -, hpage⟩ :=
          BPM.install_spec fuel pid f0 true { s with free_list_ := rest } hf0 res s' h
        rcases hres1 with hu | hp
        · rw [hres] at hu
          cases hu
        · rw [hres] at hp
          cases PoolRes.page.inj hp
          obtain ⟨-, -, hdata⟩ := hpage hres
          simpa using hdata
      · rename_i heq
        split at h
        · obtain ⟨hr, hs⟩ := Prod.mk.injEq .. ▸ Option.some.inj h
          rw [hres] at hr
          cases hr
        · rename_i g s2 hvic
          obtain ⟨hev1, hlen2, -, -, -, -, hdirty, hclean⟩ := BPM.victim_spec _ g s2 hvic
          obtain ⟨hgN, hgpid⟩ := hrep g hev1
          have hg2 : g < s2.pages_.length := by
            rw [hlen2, hflen]
            exact hgN
          obtain ⟨hres1, -, -, -, hpage⟩ := BPM.install_spec fuel pid g true s2 hg2 res s' h
          rcases hres1 with hu | hp
          · rw [hres] at hu
            cases hu
          · rw [hres] at hp
            cases PoolRes.page.inj hp
            obtain ⟨-, -, hdata⟩ := hpage hres
            have hs2disk : s2.disk pid = s.disk pid := by
              cases hdg : (s.pageAt f).is_dirty_ with
              | false => rw [hclean hdg]
              | true =>
                rw [hdirty hdg]
                simp only [updInt]
                rw [if_neg (fun hc => hgpid hc.symm)]
            have hdata2 : (s'.pageAt f).data_ = s2.disk pid := by simpa using hdata
            rw [hdata2, hs2disk]

/-- Witness for C5 at the concrete pool-size-1 scenario: the `new_page`
that evicts the dirty frame holding page 0 writes its mutated bytes to
disk under id 0 (first conjunct); so does a `fetch_page(5)` miss from the
same state (second conjunct); and the later `fetch_page(0)` returns a
frame whose bytes equal the disk image of page 0 (third conjunct), which
is concretely the mutated byte 42 (last two conjuncts). -/
theorem C5_dirty_writeback_witness :
    poolA4.disk (poolA3.pageAt 0).page_id_ = (poolA3.pageAt 0).data_ ∧
    poolB1.disk (poolA3.pageAt 0).page_id_ = (poolA3.pageAt 0).data_ ∧
    (poolA7.pageAt 0).data_ = poolA5.disk 0 ∧
    poolA5.disk 0 = 42 ∧ (poolA3.pageAt 0).data_ = 42 :=
  ⟨(C5_dirty_writeback 8 poolA3 0 (by decide)).1 0 (PoolRes.page 0) poolA4
      (by decide) (by decide) (by decide) (by decide) (by decide)
      (by with_unfolding_all rfl),
   (C5_dirty_writeback 8 poolA3 5 (by decide)).2.1 0 (PoolRes.page 0) poolB1
      (by decide) (by decide) (by decide) (by decide) (by decide) (by decide)
      (by with_unfolding_all rfl),
   (C5_dirty_writeback 8 poolA5 0 (by decide)).2.2 0 (PoolRes.page 0) poolA7
      (by decide) (by decide)
      (fun g hg => by
        have h0 : (poolA5.replacer_.evict).1 = some 0 := by decide
        rw [h0] at hg
        cases Option.some.inj hg
        exact ⟨by decide, by decide⟩)
      (by with_unfolding_all rfl) rfl,
   by decide, by decide⟩

end Bustub

